import Mathlib

/-!
Verification of the vacancy-text parsing engine (normalizer, anchor detector,
content segmenter, semantics extractor, orchestrator). The Python sources are
shallowly embedded: strings are lists of Unicode scalar values, every regular
expression is embedded as a syntax tree executed by a backtracking matcher with
the same leftmost, alternation-ordered, greedy semantics, and the few floating
point computations are modeled exactly as IEEE binary64 arithmetic over the
rationals.
-/

set_option maxRecDepth 10000

/-- Python strings are sequences of Unicode scalar values; we model them as
lists of characters. -/
abbrev Txt := List Char

/-- Coerce a Lean string literal to the character-list model. -/
def txt (s : String) : Txt := s.data

/-- The Python whitespace code points: characters for which str.isspace holds
and which the re module class of whitespace characters matches. -/
def isPySpaceN (n : Nat) : Bool :=
  n = 32 ∨ n = 9 ∨ n = 10 ∨ n = 13 ∨ n = 11 ∨ n = 12 ∨ (28 ≤ n ∧ n ≤ 31) ∨
  n = 0x85 ∨ n = 0xa0 ∨ n = 0x1680 ∨ (0x2000 ≤ n ∧ n ≤ 0x200a) ∨ n = 0x2028 ∨
  n = 0x2029 ∨ n = 0x202f ∨ n = 0x205f ∨ n = 0x3000

/-- Whitespace test on characters. -/
def isPySpace (c : Char) : Bool := isPySpaceN c.toNat

/-- ASCII decimal digit, the re module class of digits restricted to the ASCII
range that all embedded patterns rely on. -/
def isDigitChar (c : Char) : Bool := '0' ≤ c ∧ c ≤ '9'

/-- str.lower restricted to the ASCII and Cyrillic alphabets that appear in
the rule tables (including the Cyrillic extension row holding the letter yo);
other characters are unchanged. -/
def pyLowerChar (c : Char) : Char :=
  if 65 ≤ c.toNat ∧ c.toNat ≤ 90 then Char.ofNat (c.toNat + 32)
  else if 0x410 ≤ c.toNat ∧ c.toNat ≤ 0x42f then Char.ofNat (c.toNat + 0x20)
  else if 0x400 ≤ c.toNat ∧ c.toNat ≤ 0x40f then Char.ofNat (c.toNat + 0x50)
  else c

/-- str.lower over a whole string. -/
def pyLower (t : Txt) : Txt := t.map pyLowerChar

/-- str.isalnum restricted to ASCII letters and digits and the Cyrillic block,
which is the character universe of the rule tables. -/
def isAlnumPy (c : Char) : Bool :=
  ('a' ≤ c ∧ c ≤ 'z') ∨ ('A' ≤ c ∧ c ≤ 'Z') ∨ ('0' ≤ c ∧ c ≤ '9') ∨
  (0x400 ≤ c.toNat ∧ c.toNat ≤ 0x4ff)

/-- The re module word-character class (letters, digits, underscore), used by
word-boundary matching. -/
def isWordChar (c : Char) : Bool := isAlnumPy c ∨ c = '_'

/-- str.split over a single separator character; mirrors text.split of a one
character separator, so the empty string yields one empty field. -/
def splitNl : Txt → List Txt
  | [] => [[]]
  | c :: rest =>
    if c = '\n' then [] :: splitNl rest
    else
      match splitNl rest with
      | [] => [[c]]
      | l :: ls => (c :: l) :: ls

/-- str.join with a newline separator. -/
def joinNl : List Txt → Txt
  | [] => []
  | [l] => l
  | l :: ls => l ++ '\n' :: joinNl ls

/-- str.lstrip with no argument: drop leading Python whitespace. -/
def pyLstrip (t : Txt) : Txt := t.dropWhile isPySpace

/-- str.rstrip with no argument: drop trailing Python whitespace. -/
def pyRstrip (t : Txt) : Txt := t.rdropWhile isPySpace

/-- str.strip with no argument. -/
def pyStrip (t : Txt) : Txt := pyRstrip (pyLstrip t)

/-- Test for a blank string, mirroring the truthiness test of str.strip(). -/
def stripBlank (t : Txt) : Bool := pyStrip t = []

/-- Python substring membership, the binary in operator on strings. -/
def containsSub (needle : Txt) : Txt → Bool
  | [] => needle.isPrefixOf []
  | c :: rest => needle.isPrefixOf (c :: rest) || containsSub needle rest

/-- str.startswith. -/
def startsWith (p t : Txt) : Bool := p.isPrefixOf t

/-- str.endswith. -/
def endsWith (p t : Txt) : Bool := p.isSuffixOf t

/-- Space-run collapser: the flag records whether the scan is inside a run of
literal spaces already emitted as one space. -/
def collapseSpacesGo (inRun : Bool) : Txt → Txt
  | [] => []
  | c :: rest =>
    if c = ' ' then
      if inRun then collapseSpacesGo true rest
      else ' ' :: collapseSpacesGo true rest
    else c :: collapseSpacesGo false rest

/-- re.sub of two or more consecutive spaces by one space: each maximal run of
literal spaces collapses to a single space. -/
def collapseSpaces (t : Txt) : Txt := collapseSpacesGo false t

/-- str.replace of a carriage-return/line-feed pair by a line feed. -/
def replCrlf : Txt → Txt
  | '\x0d' :: '\n' :: rest => '\n' :: replCrlf rest
  | c :: rest => c :: replCrlf rest
  | [] => []

/-- str.replace of a lone carriage return by a line feed. -/
def replCr : Txt → Txt
  | '\x0d' :: rest => '\n' :: replCr rest
  | c :: rest => c :: replCr rest
  | [] => []

/-- int() on a string: surrounding whitespace is ignored, and the remainder
must be a nonempty digit run (no sign or underscore ever reaches this code);
any other shape raises ValueError in the source, modeled as none. -/
def parseIntTxt (t : Txt) : Option Nat :=
  let s := t.dropWhile isPySpace |>.rdropWhile isPySpace
  if s ≠ [] ∧ s.all isDigitChar then
    some (s.foldl (fun acc c => acc * 10 + (c.toNat - '0'.toNat)) 0)
  else none

/-- Whitespace-split worker: cur is the current field reversed; a whitespace
character closes the field. -/
def splitWsGo (cur : Txt) : Txt → List Txt
  | [] => if cur = [] then [] else [cur.reverse]
  | c :: rest =>
    if isPySpace c then
      if cur = [] then splitWsGo [] rest
      else cur.reverse :: splitWsGo [] rest
    else splitWsGo (c :: cur) rest

/-- str.split with no argument: fields separated by runs of whitespace. -/
def splitWs (t : Txt) : List Txt := splitWsGo [] t

/-- Lexicographic order on strings by code point, the Python string order used
by sorted(). -/
def txtLe : Txt → Txt → Bool
  | [], _ => true
  | _ :: _, [] => false
  | a :: as, b :: bs =>
    if a.toNat < b.toNat then true
    else if a.toNat = b.toNat then txtLe as bs
    else false

/-! ### Exact model of IEEE binary64 arithmetic

The engine uses Python floats in two places (the position-multiplier score
adjustment and the overall-confidence formula). In the value range exercised
there (magnitudes far from overflow and underflow) binary64 arithmetic is
exactly: round the true rational result to 53 significant bits, ties to even.
Every binary64 value is a dyadic rational, represented here as a signed
numerator over a power-of-two denominator, so that all computations are
integer computations. -/

/-- A dyadic rational n / 2^k, the exact value of a binary64 number. -/
structure Dy where
  n : Int
  k : Nat
deriving Repr, DecidableEq

/-- Bit length of a natural number with explicit fuel (values here are far
below 2^256). -/
def bitlenAux : Nat → Nat → Nat
  | 0, _ => 0
  | fuel + 1, n => if n = 0 then 0 else bitlenAux fuel (n / 2) + 1

/-- Bit length: zero for zero, otherwise the position of the leading bit. -/
def bitlen (n : Nat) : Nat := bitlenAux 256 n

/-- Round the fraction a / b (a, b positive) to 53 significant bits, ties to
even, returning the mantissa m in the interval from 2^52 to 2^53 and the
binade exponent e, so that the value is m * 2^(e - 52). -/
def rdPos (a b : Nat) : Nat × Int :=
  let e0 : Int := (bitlen a : Int) - (bitlen b : Int)
  let e : Int :=
    (if 0 ≤ e0 then (if b * 2 ^ e0.toNat ≤ a then e0 else e0 - 1)
     else (if b ≤ a * 2 ^ (-e0).toNat then e0 else e0 - 1))
  let t : Int := 52 - e
  let (m0, r, d) :=
    if 0 ≤ t then ((a * 2 ^ t.toNat) / b, (a * 2 ^ t.toNat) % b, b)
    else (a / (b * 2 ^ (-t).toNat), a % (b * 2 ^ (-t).toNat), b * 2 ^ (-t).toNat)
  let m :=
    if d < 2 * r then m0 + 1
    else if 2 * r < d then m0
    else if m0 % 2 = 0 then m0 else m0 + 1
  (m, e)

/-- Round a signed fraction num / den (den positive) to the nearest binary64
value. -/
def rdFrac (num : Int) (den : Nat) : Dy :=
  if num = 0 then ⟨0, 0⟩
  else
    let a := num.natAbs
    let (m, e) := rdPos a den
    let sgn : Int := if num < 0 then -1 else 1
    if 52 - e ≥ 0 then ⟨sgn * m, (52 - e).toNat⟩
    else ⟨sgn * m * 2 ^ (e - 52).toNat, 0⟩

/-- The binary64 value of an integer in the exactly representable range. -/
def dyInt (n : Int) : Dy := ⟨n, 0⟩

/-- The binary64 value of a natural number in the representable range. -/
def dyNat (n : Nat) : Dy := ⟨(n : Int), 0⟩

/-- Comparison of two dyadic values. -/
def dyLt (x y : Dy) : Bool := x.n * 2 ^ y.k < y.n * 2 ^ x.k

/-- Nonstrict comparison of two dyadic values. -/
def dyLe (x y : Dy) : Bool := x.n * 2 ^ y.k ≤ y.n * 2 ^ x.k

/-- Value equality of two dyadic representations. -/
def dyEq (x y : Dy) : Bool := x.n * 2 ^ y.k = y.n * 2 ^ x.k

/-- Binary64 addition in the engine value range. -/
def fAdd (x y : Dy) : Dy :=
  rdFrac (x.n * 2 ^ y.k + y.n * 2 ^ x.k) (2 ^ (x.k + y.k))

/-- Binary64 subtraction in the engine value range. -/
def fSub (x y : Dy) : Dy :=
  rdFrac (x.n * 2 ^ y.k - y.n * 2 ^ x.k) (2 ^ (x.k + y.k))

/-- Binary64 multiplication in the engine value range. -/
def fMul (x y : Dy) : Dy := rdFrac (x.n * y.n) (2 ^ (x.k + y.k))

/-- Binary64 division by a positive value in the engine value range. -/
def fDiv (x y : Dy) : Dy := rdFrac (x.n * 2 ^ y.k) ((y.n * 2 ^ x.k).toNat)

/-- The binary64 value of the literal 0.1. -/
def fLit01 : Dy := rdFrac 1 10

/-- The binary64 value of the literal 0.2. -/
def fLit02 : Dy := rdFrac 2 10

/-- The binary64 value of the literal 0.3. -/
def fLit03 : Dy := rdFrac 3 10

/-- The binary64 value of the literal 0.4. -/
def fLit04 : Dy := rdFrac 4 10

/-- The binary64 value of the literal 0.7. -/
def fLit07 : Dy := rdFrac 7 10

/-- The binary64 value of the literal 0.8, the contact-rule position
multiplier. -/
def fLit08 : Dy := rdFrac 8 10

/-- The binary64 value of the literal 1.2, the about-company-rule position
multiplier. -/
def fLit12 : Dy := rdFrac 12 10

/-- The binary64 value of the integer literal one. -/
def fOne : Dy := ⟨1, 0⟩

/-- The binary64 value of the integer literal two. -/
def fTwo : Dy := ⟨2, 0⟩

/-- int() applied to a nonnegative float: truncation toward zero, which on
the nonnegative values arising here is the floor. -/
def fTruncNat (x : Dy) : Nat := (x.n.fdiv (2 ^ x.k : Nat)).toNat

/-! ### Regular-expression engine

Each compiled pattern of the source is embedded as a syntax tree interpreted by
a backtracking matcher with the re module semantics for the constructs used:
ordered alternation, greedy star and option, character classes, capture groups,
leftmost-position search and non-overlapping iteration. Recursion is bounded by
a fuel parameter that is amply large for every evaluation performed here. -/

inductive RE where
  | eps
  | cls (p : Char → Bool)
  | seq (a b : RE)
  | alt (a b : RE)
  | star (a : RE)
  | group (n : Nat) (a : RE)

namespace RE

/-- Greedy option, the question-mark postfix. -/
def opt (a : RE) : RE := .alt a .eps

/-- A literal character. -/
def lit (c : Char) : RE := .cls (· = c)

/-- A case-insensitive literal character (for patterns compiled with the
ignore-case flag). -/
def ilit (c : Char) : RE := .cls (fun x => pyLowerChar x = pyLowerChar c)

/-- A literal string. -/
def str (s : String) : RE := s.data.foldr (fun c r => .seq (lit c) r) .eps

/-- A case-insensitive literal string. -/
def istr (s : String) : RE := s.data.foldr (fun c r => .seq (ilit c) r) .eps

/-- One-or-more, the plus postfix. -/
def plus (a : RE) : RE := .seq a (.star a)

/-- Exactly n repetitions. -/
def repExact : Nat → RE → RE
  | 0, _ => .eps
  | n + 1, a => .seq a (repExact n a)

/-- At most n repetitions, greedy. -/
def repUpTo : Nat → RE → RE
  | 0, _ => .eps
  | n + 1, a => .alt (.seq a (repUpTo n a)) .eps

/-- Between lo and hi repetitions, greedy: the brace quantifier. -/
def repRange (lo hi : Nat) (a : RE) : RE := .seq (repExact lo a) (repUpTo (hi - lo) a)

/-- At least lo repetitions, greedy: the open-ended brace quantifier. -/
def repAtLeast (lo : Nat) (a : RE) : RE := .seq (repExact lo a) (.star a)

/-- Structural size, used to compute an adequate fuel bound. -/
def size : RE → Nat
  | .eps => 1
  | .cls _ => 1
  | .seq a b => size a + size b + 1
  | .alt a b => size a + size b + 1
  | .star a => size a + 1
  | .group _ a => size a + 1

end RE

/-- Capture-group environment: most recent capture of each group index first. -/
abbrev Caps := List (Nat × Txt)

/-- Most recent capture of a group, the groupdict lookup. -/
def capGet (caps : Caps) (n : Nat) : Option Txt :=
  (caps.find? (fun p => p.1 = n)).map (·.2)

/-- Backtracking matcher in continuation-passing style. Alternation prefers the
left branch, star is greedy, and a star body that consumes nothing stops the
iteration, exactly as the re module behaves for the patterns embedded here. -/
def reRun : Nat → RE → Txt → Caps → (Txt → Caps → Option (Txt × Caps)) →
    Option (Txt × Caps)
  | 0, _, _, _, _ => none
  | _ + 1, .eps, s, c, k => k s c
  | _ + 1, .cls p, s, c, k =>
    match s with
    | [] => none
    | x :: xs => if p x then k xs c else none
  | f + 1, .seq a b, s, c, k => reRun f a s c (fun s1 c1 => reRun f b s1 c1 k)
  | f + 1, .alt a b, s, c, k =>
    match reRun f a s c k with
    | some r => some r
    | none => reRun f b s c k
  | f + 1, .star a, s, c, k =>
    match reRun f a s c (fun s1 c1 =>
        if s1.length < s.length then reRun f (.star a) s1 c1 k else none) with
    | some r => some r
    | none => k s c
  | f + 1, .group n a, s, c, k =>
    reRun f a s c (fun s1 c1 => k s1 ((n, s.take (s.length - s1.length)) :: c1))

/-- Fuel that is sufficient for every evaluation performed in this file. -/
def reFuel (r : RE) (s : Txt) : Nat := (RE.size r + 2) * (s.length + 2)

/-- Match a pattern at the start of a string, returning the remaining suffix
and the captures of the chosen match. -/
def reMatchHere (r : RE) (s : Txt) : Option (Txt × Caps) :=
  reRun (reFuel r s) r s [] (fun rest caps => some (rest, caps))

/-- One match found by scanning: start offset, matched text, captures. -/
structure REMatch where
  start : Nat
  matched : Txt
  caps : Caps
deriving Repr, DecidableEq

/-- re.search: try each start position from the left, first position that
admits a match wins, and at that position the backtracking order decides. -/
def reSearchFrom (r : RE) : Nat → Txt → Option REMatch
  | i, s =>
    match reMatchHere r s with
    | some (rest, caps) => some ⟨i, s.take (s.length - rest.length), caps⟩
    | none =>
      match s with
      | [] => none
      | _ :: xs => reSearchFrom r (i + 1) xs

/-- re.search over a whole string. -/
def reSearch (r : RE) (s : Txt) : Option REMatch := reSearchFrom r 0 s

/-- re.finditer: non-overlapping matches scanning left to right; an empty
match advances one position. -/
def reFindIter (r : RE) : Nat → Nat → Txt → List REMatch
  | 0, _, _ => []
  | fuel + 1, base, s =>
    match reSearchFrom r 0 s with
    | none => []
    | some m =>
      let consumed := m.start + m.matched.length
      let step := max consumed (m.start + 1)
      ⟨base + m.start, m.matched, m.caps⟩ ::
        reFindIter r fuel (base + step) (s.drop step)

/-- All matches of a pattern in a string, in order. -/
def reFindAll (r : RE) (s : Txt) : List REMatch :=
  reFindIter r (s.length + 1) 0 s

/-! ### Data model -/

inductive SectionType where
  | requirements | responsibilities | niceToHave | techStack | benefits
  | aboutCompany | aboutJob | team | salary | experience | workFormat
  | contact | intro
deriving Repr, DecidableEq

inductive Confidence where
  | high | medium | low
deriving Repr, DecidableEq

inductive SalaryPeriod where
  | month | year | hour | project
deriving Repr, DecidableEq

structure ListItem where
  text : Txt
  isContinuation : Bool := false
deriving Repr, DecidableEq

inductive ContactType where
  | email | telegram | phone | whatsapp | linkedin | website | form
  | skype | discord | other
deriving Repr, DecidableEq

/-- Contact record; the display text, derived URL and icon of the source are
presentation-only derived fields not referenced by any verified property, so
the embedding carries the constructor arguments. -/
structure ContactInfo where
  ctype : ContactType
  value : Txt
  label : Option Txt := none
deriving Repr, DecidableEq

structure Salary where
  min : Option Nat := none
  max : Option Nat := none
  currency : Txt := txt "USD"
  period : SalaryPeriod := .month
  gross : Option Bool := none
  rawText : Txt := []
deriving Repr, DecidableEq

/-- Semantic fields; relocation, languages and locations are declared in the
source model but never assigned by the extractor, so they stay at their
defaults and are omitted here. -/
structure VacancySemantics where
  salary : Option Salary := none
  experienceYears : Option (Nat × Nat) := none
  remote : Option Bool := none
  employmentType : Option Txt := none
  technologies : List Txt := []
  contacts : List ContactInfo := []
  companyName : Option Txt := none
  jobTitle : Option Txt := none
deriving Repr, DecidableEq

structure VacancySection where
  stype : SectionType
  title : Txt := []
  content : List ListItem := []
  rawContent : Txt := []
  confidence : Confidence := .medium
  startLine : Nat := 0
  endLine : Nat := 0
deriving Repr, DecidableEq

structure ParsedVacancy where
  rawText : Txt
  normalizedText : Txt := []
  sections : List VacancySection := []
  semantics : VacancySemantics := {}
  overallConfidence : Confidence := .medium
  warnings : List Txt := []
deriving Repr, DecidableEq

structure SectionRule where
  sectionType : SectionType
  keywordsRu : List Txt := []
  keywordsEn : List Txt := []
  keywordsAlt : List Txt := []
  contentVerbsRu : List Txt := []
  contentVerbsEn : List Txt := []
  keywordPrimaryScore : Nat := 50
  keywordAltScore : Nat := 30
  verbScore : Nat := 10
  colonBonus : Nat := 15
  standaloneLineBonus : Nat := 10
  positionScoreMultiplier : Dy := fOne
deriving Repr, DecidableEq

structure SectionAnchor where
  sectionType : SectionType
  lineNumber : Nat
  lineText : Txt
  score : Nat
  confidence : Confidence
  matchedKeyword : Option Txt := none
deriving Repr, DecidableEq

/-! ### Rule registry -/

/-- The section-rule table, in the insertion order of the source dictionary.
Keyword sets are frozensets in the source; they are listed here in source
order, and every property proved below is independent of enumeration order. -/
def sectionRules : List SectionRule := [
  { sectionType := .requirements,
    keywordsRu := [txt "требования", txt "требуется", txt "что нужно",
      txt "что мы ждём", txt "что мы ждем", txt "необходимые навыки",
      txt "обязательные требования", txt "ключевые навыки", txt "навыки",
      txt "квалификация", txt "компетенции", txt "нам важно"],
    keywordsEn := [txt "requirements", txt "required", txt "must have",
      txt "hard skills", txt "skills", txt "qualifications", txt "what we need",
      txt "what you need", txt "you have", txt "we expect", txt "we require",
      txt "essential"],
    keywordsAlt := [txt "ожидаем", txt "ищем кандидата", txt "looking for",
      txt "ideal candidate"],
    contentVerbsRu := [txt "знание", txt "опыт", txt "умение", txt "владение",
      txt "понимание"],
    contentVerbsEn := [txt "experience", txt "knowledge", txt "understanding",
      txt "proficiency"],
    keywordPrimaryScore := 60 },
  { sectionType := .responsibilities,
    keywordsRu := [txt "обязанности", txt "задачи", txt "что предстоит",
      txt "чем предстоит заниматься", txt "чем будете заниматься",
      txt "что нужно будет делать", txt "основные задачи", txt "вам предстоит",
      txt "ваши задачи", txt "функционал"],
    keywordsEn := [txt "responsibilities", txt "duties",
      txt "job responsibilities", txt "what you will do", txt "your role",
      txt "you will", txt "key responsibilities", txt "day to day", txt "tasks",
      txt "scope"],
    keywordsAlt := [txt "функции", txt "role", txt "position"],
    contentVerbsRu := [txt "разрабатывать", txt "создавать", txt "участвовать",
      txt "работать", txt "писать", txt "внедрять", txt "поддерживать",
      txt "проектировать", txt "анализировать"],
    contentVerbsEn := [txt "develop", txt "create", txt "build", txt "design",
      txt "implement", txt "maintain", txt "write", txt "analyze",
      txt "collaborate", txt "lead", txt "manage"],
    keywordPrimaryScore := 60 },
  { sectionType := .niceToHave,
    keywordsRu := [txt "будет плюсом", txt "желательно", txt "дополнительно",
      txt "преимуществом будет", txt "бонусом будет", txt "приветствуется",
      txt "хорошо если", txt "будет здорово"],
    keywordsEn := [txt "nice to have", txt "preferred", txt "bonus", txt "plus",
      txt "good to have", txt "preferred qualifications", txt "would be a plus",
      txt "advantageous"],
    keywordsAlt := [txt "optional", txt "желательные",
      txt "дополнительные требования"],
    keywordPrimaryScore := 55 },
  { sectionType := .techStack,
    keywordsRu := [txt "стек", txt "технологии", txt "инструменты",
      txt "стек технологий", txt "технический стек", txt "используем",
      txt "работаем с"],
    keywordsEn := [txt "tech stack", txt "stack", txt "technologies",
      txt "tools", txt "our stack", txt "we use", txt "technology stack",
      txt "technical stack"],
    keywordsAlt := [txt "frameworks", txt "фреймворки", txt "языки",
      txt "languages"],
    keywordPrimaryScore := 50 },
  { sectionType := .benefits,
    keywordsRu := [txt "условия", txt "мы предлагаем", txt "что предлагаем",
      txt "мы гарантируем", txt "наше предложение", txt "бонусы", txt "плюшки",
      txt "преимущества", txt "почему мы", txt "что вы получите"],
    keywordsEn := [txt "benefits", txt "compensation", txt "perks",
      txt "what we offer", txt "we offer", txt "compensation and benefits",
      txt "why us", txt "why join", txt "package"],
    keywordsAlt := [txt "offer", txt "предложение", txt "бенефиты",
      txt "соцпакет"],
    contentVerbsRu := [txt "оплата", txt "дмс", txt "обучение", txt "отпуск",
      txt "график"],
    contentVerbsEn := [txt "salary", txt "insurance", txt "vacation",
      txt "remote", txt "flexible"],
    keywordPrimaryScore := 55 },
  { sectionType := .aboutCompany,
    keywordsRu := [txt "о компании", txt "о нас", txt "кто мы", txt "компания",
      txt "наша компания", txt "мы —", txt "мы -", txt "мы это"],
    keywordsEn := [txt "about company", txt "about the company", txt "about us",
      txt "who we are", txt "company", txt "our company", txt "we are"],
    keywordsAlt := [txt "студия", txt "studio", txt "team",
      txt "команда проекта"],
    keywordPrimaryScore := 45,
    positionScoreMultiplier := fLit12 },
  { sectionType := .aboutJob,
    keywordsRu := [txt "о вакансии", txt "о позиции", txt "о работе",
      txt "описание вакансии", txt "описание позиции"],
    keywordsEn := [txt "about the job", txt "about the position",
      txt "about the role", txt "position description", txt "job description",
      txt "the role"],
    keywordsAlt := [txt "overview", txt "summary", txt "обзор"],
    keywordPrimaryScore := 45 },
  { sectionType := .team,
    keywordsRu := [txt "команда", txt "о команде", txt "наша команда",
      txt "коллектив"],
    keywordsEn := [txt "team", txt "about team", txt "about the team",
      txt "our team", txt "the team"],
    keywordsAlt := [txt "colleagues", txt "коллеги"],
    keywordPrimaryScore := 40 },
  { sectionType := .salary,
    keywordsRu := [txt "зарплата", txt "оплата", txt "вознаграждение",
      txt "оклад", txt "заработная плата", txt "доход", txt "ставка"],
    keywordsEn := [txt "salary", txt "compensation", txt "pay", txt "rate",
      txt "wage"],
    keywordsAlt := [txt "package", txt "income", txt "з/п", txt "зп"],
    keywordPrimaryScore := 50 },
  { sectionType := .experience,
    keywordsRu := [txt "опыт работы", txt "требуемый опыт", txt "стаж",
      txt "уровень"],
    keywordsEn := [txt "experience", txt "required experience",
      txt "years of experience", txt "seniority", txt "level"],
    keywordsAlt := [txt "junior", txt "middle", txt "senior", txt "lead",
      txt "джуниор", txt "мидл", txt "сеньор"],
    keywordPrimaryScore := 45 },
  { sectionType := .workFormat,
    keywordsRu := [txt "локация", txt "формат", txt "график",
      txt "режим работы", txt "место работы", txt "формат работы",
      txt "где работать"],
    keywordsEn := [txt "location", txt "work format", txt "work mode",
      txt "schedule", txt "workplace", txt "where", txt "remote", txt "office",
      txt "hybrid"],
    keywordsAlt := [txt "удалённо", txt "удаленно", txt "офис", txt "гибрид",
      txt "relocation"],
    keywordPrimaryScore := 45 },
  { sectionType := .contact,
    keywordsRu := [txt "контакты", txt "откликнуться", txt "как откликнуться",
      txt "отклик", txt "связаться", txt "написать", txt "резюме отправлять"],
    keywordsEn := [txt "contact", txt "apply", txt "how to apply",
      txt "get in touch", txt "reach out", txt "send resume", txt "submit"],
    keywordsAlt := [txt "hr", txt "recruiter", txt "рекрутер", txt "email",
      txt "telegram"],
    keywordPrimaryScore := 50,
    positionScoreMultiplier := fLit08 }]

/-- The bullet glyph markers; every marker is a single character, so the set
iteration order of the source cannot influence which marker matches. -/
def bulletMarkers : List Char :=
  ['•', '·', '‣', '▪', '▸', '►', '★', '✓', '✔', '☑', '◆', '●', '○', '→',
   '➔', '➜', '➤', '⁃', '⦁', '⦿', '◉', '◎', '-', '–', '—', '*']

/-- The emoji code-point ranges removed by the normalizer. -/
def isEmojiChar (c : Char) : Bool :=
  (0x1f300 ≤ c.toNat ∧ c.toNat ≤ 0x1f9ff) ∨
  (0x1fa00 ≤ c.toNat ∧ c.toNat ≤ 0x1faff) ∨
  (0x2600 ≤ c.toNat ∧ c.toNat ≤ 0x27bf) ∨
  (0x1f600 ≤ c.toNat ∧ c.toNat ≤ 0x1f64f)

/-- The invisible characters stripped by the normalizer: zero-width space,
zero-width non-joiner, zero-width joiner, BOM, soft hyphen, word joiner. -/
def invisibleChars : List Char :=
  ['​', '‌', '‍', '﻿', '­', '⁠']

/-- Noise prefixes stripped from the first line; no listed prefix is a prefix
of another, so the set iteration order of the source cannot change the
result. -/
def noisePrefixes : List Txt :=
  [txt "вакансия:", txt "vacancy:", txt "позиция:", txt "position:",
   txt "🔥", txt "💼", txt "📌", txt "🚀", txt "💡", txt "✨", txt "🎯",
   txt "👉"]

/-- Currency detection table in source dictionary insertion order. -/
def currencyPatterns : List (Txt × List Txt) :=
  [(txt "USD", [txt "$", txt "usd", txt "долларов", txt "долл", txt "баксов"]),
   (txt "EUR", [txt "€", txt "eur", txt "евро"]),
   (txt "RUB", [txt "₽", txt "руб", txt "rub", txt "рублей", txt "р.",
     txt "тыс.руб", txt "тыс руб"]),
   (txt "GBP", [txt "£", txt "gbp", txt "фунтов"]),
   (txt "PLN", [txt "pln", txt "zł", txt "злотых"]),
   (txt "UAH", [txt "грн", txt "uah", txt "гривен"])]

/-- Remote-work positive indicators. -/
def remotePositive : List Txt :=
  [txt "удалённо", txt "удаленно", txt "удалёнка", txt "удаленка",
   txt "remote", txt "remotely", txt "work from home", txt "wfh",
   txt "из дома", txt "дистанционно", txt "full remote"]

/-- Remote-work negative indicators. -/
def remoteNegative : List Txt :=
  [txt "офис", txt "office", txt "on-site", txt "onsite", txt "очно",
   txt "в офисе"]

/-- Hybrid indicators, which force the unknown remote status. -/
def hybridIndicators : List Txt :=
  [txt "гибрид", txt "hybrid", txt "гибридный", txt "частично удалённо",
   txt "частично офис"]

/-- Employment-type table in source dictionary insertion order. -/
def employmentPatterns : List (Txt × List Txt) :=
  [(txt "full-time", [txt "full-time", txt "полная занятость",
     txt "фулл-тайм", txt "полный день"]),
   (txt "part-time", [txt "part-time", txt "частичная занятость",
     txt "парт-тайм", txt "неполный день"]),
   (txt "contract", [txt "contract", txt "контракт", txt "проектная работа",
     txt "проект"]),
   (txt "freelance", [txt "freelance", txt "фриланс", txt "фрилансер"]),
   (txt "internship", [txt "internship", txt "стажировка", txt "intern",
     txt "стажёр"])]

/-- Technology vocabulary; a set in the source, but every match of every
keyword is collected and the result sorted, so order is irrelevant. -/
def techKeywords : List Txt :=
  [txt "python", txt "javascript", txt "typescript", txt "java", txt "kotlin",
   txt "swift", txt "c++", txt "c#", txt "go", txt "golang", txt "rust",
   txt "ruby", txt "php", txt "scala",
   txt "react", txt "vue", txt "angular", txt "svelte", txt "nextjs",
   txt "next.js", txt "nuxt",
   txt "node", txt "nodejs", txt "node.js", txt "django", txt "flask",
   txt "fastapi", txt "spring", txt "express", txt "nest", txt "nestjs",
   txt "ios", txt "android", txt "flutter", txt "react native", txt "swiftui",
   txt "jetpack compose",
   txt "sql", txt "postgresql", txt "postgres", txt "mysql", txt "mongodb",
   txt "redis", txt "elasticsearch", txt "kafka", txt "rabbitmq",
   txt "clickhouse",
   txt "docker", txt "kubernetes", txt "k8s", txt "aws", txt "gcp",
   txt "azure", txt "terraform", txt "ci/cd", txt "jenkins", txt "gitlab ci",
   txt "github actions",
   txt "unity", txt "unreal", txt "unreal engine", txt "godot", txt "cocos",
   txt "blueprints", txt "hlsl", txt "glsl", txt "shaders",
   txt "machine learning", txt "ml", txt "deep learning", txt "pytorch",
   txt "tensorflow", txt "llm", txt "nlp", txt "computer vision", txt "opencv",
   txt "git", txt "linux", txt "agile", txt "scrum", txt "jira", txt "figma",
   txt "rest", txt "graphql", txt "microservices", txt "api"]

/-- Concatenate a list of pattern pieces. -/
def RE.cat (l : List RE) : RE := l.foldr .seq .eps

/-- The currency-symbol character class of the salary patterns. -/
def currSym : RE := .cls (fun c => c = '$' ∨ c = '€' ∨ c = '₽' ∨ c = '£')

/-- The digit class of the embedded patterns. -/
def reDigit : RE := .cls isDigitChar

/-- Zero or more whitespace characters. -/
def sps : RE := .star (.cls isPySpace)

/-- The interior class of salary numbers: digits, whitespace, comma, dot. -/
def numMid : RE := .cls (fun c => isDigitChar c ∨ isPySpace c ∨ c = ',' ∨ c = '.')

/-- The character class written as a dash-or-Cyrillic range separator in the
source; as written it matches exactly one of the five characters. -/
def dashDo : RE := .cls (fun c => c = '-' ∨ c = '–' ∨ c = '—' ∨ c = 'д' ∨ c = 'о')

/-- The thousands-multiplier character class. -/
def kClass : RE := .cls (fun c => c = 'k' ∨ c = 'к' ∨ c = 'т')

/-- A salary bound in the range pattern: digits with interior separators, or a
plain digit run. -/
def rangeNum : RE :=
  .alt (RE.cat [reDigit, .star numMid, reDigit]) (RE.plus reDigit)

/-- A salary value with optional trailing digit and thousands letter, used by
the from and up-to patterns. -/
def fromNum : RE := RE.cat [reDigit, .star numMid, RE.opt reDigit, RE.opt kClass]

/-- Group index of the named group min. -/
def gMin : Nat := 1

/-- Group index of the named group max. -/
def gMax : Nat := 2

/-- Group index of the named group val. -/
def gVal : Nat := 3

/-- Group index of the named group mult. -/
def gMult : Nat := 4

/-- The explicit-range salary pattern. The salary text is lowercased before
matching, so the ignore-case flag of the source is inert and literal classes
are written in lowercase. -/
def salaryRangeRE : RE := RE.cat [
  RE.opt (.group 90 currSym), sps, .group gMin rangeNum, sps,
  RE.opt (.group 91 currSym), sps, dashDo, sps,
  RE.opt (.group 92 currSym), sps, .group gMax rangeNum, sps,
  RE.opt (.group 93 currSym)]

/-- The from-lower-bound salary pattern. -/
def salaryFromRE : RE := RE.cat [
  .alt (RE.str "от") (RE.str "from"), sps, RE.opt (.group 90 currSym), sps,
  .group gMin fromNum, sps, RE.opt (.group 91 currSym)]

/-- The up-to-upper-bound salary pattern. -/
def salaryUptoRE : RE := RE.cat [
  .alt (RE.str "до") (RE.cat [RE.str "up", sps, RE.str "to"]), sps,
  RE.opt (.group 90 currSym), sps, .group gMax fromNum, sps,
  RE.opt (.group 91 currSym)]

/-- The bare-single-value salary pattern. -/
def salarySingleRE : RE := RE.cat [
  RE.opt (.group 90 currSym), sps,
  .group gVal (RE.cat [reDigit, .star numMid, RE.opt reDigit]), sps,
  RE.opt (.group gMult (.alt kClass
    (.alt (RE.cat [RE.str "тыс", RE.opt (RE.lit '.')]) (RE.str "тысяч")))), sps,
  RE.opt (.group 91 (.alt currSym (.alt (RE.str "usd") (.alt (RE.str "eur")
    (.alt (RE.str "rub") (.alt (RE.cat [RE.str "руб", RE.opt (RE.lit '.')])
    (.alt (RE.cat [RE.str "долл", RE.opt (RE.lit '.')]) (RE.str "евро"))))))))]

/-- The salary templates in source order with their type tags. -/
def salaryPatterns : List (RE × String) :=
  [(salaryRangeRE, "range"), (salaryFromRE, "from"),
   (salaryUptoRE, "upto"), (salarySingleRE, "single")]

/-- The year words of the experience patterns. -/
def yearsWord : RE :=
  .alt (RE.str "лет")
    (.alt (RE.cat [RE.str "год", RE.opt (RE.lit 'а')])
      (RE.cat [RE.str "year", RE.opt (RE.lit 's')]))

/-- Experience pattern: explicit numeric range with year words. -/
def expRangeRE : RE := RE.cat [
  RE.opt (RE.cat [RE.str "от", sps]), .group 1 (RE.plus reDigit), sps,
  dashDo, sps, .group 2 (RE.plus reDigit), sps, yearsWord]

/-- Experience pattern: a single bound with optional plus sign. -/
def expSingleRE : RE := RE.cat [
  .group 1 (RE.plus reDigit), RE.opt (RE.lit '+'), sps, yearsWord, sps,
  RE.opt (.alt (RE.str "опыта") (RE.str "experience"))]

/-- Experience pattern: a labeled bound. -/
def expLabeledRE : RE := RE.cat [
  .alt (RE.str "опыт") (RE.str "experience"),
  .star (.cls (fun c => isPySpace c ∨ c = ':')), .group 1 (RE.plus reDigit),
  RE.opt (RE.lit '+'), sps, RE.opt yearsWord]

/-- The experience patterns in source order, tagged with their group count. -/
def experiencePatterns : List (RE × Nat) :=
  [(expRangeRE, 2), (expSingleRE, 1), (expLabeledRE, 1)]

/-! ### Normalizer -/

/-- Unicode NFC composition. None of the verified properties depend on the
composition of combining sequences, and every string evaluated in this file is
already composed, so canonical composition is modeled as the identity map. -/
def nfcNormalize (t : Txt) : Txt := t

/-- Step 2: unify line endings. -/
def normalizeLineEndings (t : Txt) : Txt := replCr (replCrlf t)

/-- Step 3: remove the fixed invisible-character set, one replace per
character as in the source; each replace of a single character by the empty
string is a filter. -/
def removeZeroWidthChars (t : Txt) : Txt :=
  invisibleChars.foldl (fun acc ch => acc.filter (fun c => ¬ c = ch)) t

/-- Step 4: remove emoji; substituting every run of emoji characters by the
empty string deletes exactly the characters in the ranges. -/
def removeEmoji (t : Txt) : Txt := t.filter (fun c => ¬ isEmojiChar c)

/-- The numbered-list pattern: leading whitespace, digits, one of dot, closing
parenthesis or colon, whitespace, rest. Returns the indent and the rest. -/
def matchNumbered (line : Txt) : Option (Txt × Txt) :=
  let ind := line.takeWhile isPySpace
  let afterInd := line.drop ind.length
  let digits := afterInd.takeWhile isDigitChar
  if digits = [] then none
  else
    match afterInd.drop digits.length with
    | c :: rest =>
      if c = '.' ∨ c = ')' ∨ c = ':' then
        some (ind, rest.dropWhile isPySpace)
      else none
    | [] => none

/-- Step 5: unify one line. A glyph marker (all markers are single characters)
rewrites to the canonical dash marker with the indent converted to spaces; a
numbered prefix rewrites keeping the original indent; otherwise the line is
unchanged. -/
def unifyBulletLine (line : Txt) : Txt :=
  let stripped := pyLstrip line
  match bulletMarkers.find? (fun m => startsWith [m] stripped) with
  | some m =>
    let indent := line.length - stripped.length
    let rest := pyLstrip (stripped.drop [m].length)
    List.replicate indent ' ' ++ '-' :: ' ' :: rest
  | none =>
    match matchNumbered line with
    | some (ind, rest) => ind ++ '-' :: ' ' :: rest
    | none => line

/-- Step 5 over the whole text. -/
def unifyBullets (t : Txt) : Txt := joinNl ((splitNl t).map unifyBulletLine)

/-- The first decorative pattern: three or more of equals, dash, underscore. -/
def decorative1 (l : Txt) : Bool :=
  3 ≤ l.length ∧ l.all (fun c => c = '=' ∨ c = '-' ∨ c = '_')

/-- The second decorative pattern: three or more of asterisk, hash. -/
def decorative2 (l : Txt) : Bool :=
  3 ≤ l.length ∧ l.all (fun c => c = '*' ∨ c = '#')

/-- The third decorative pattern: optional whitespace around a run of three or
more tilde or backtick characters. -/
def decorative3 (l : Txt) : Bool :=
  let a := l.dropWhile isPySpace
  let b := a.takeWhile (fun c => c = '~' ∨ c = '`')
  3 ≤ b.length ∧ (a.drop b.length).all isPySpace

/-- The fourth decorative pattern: a nonempty line of whitespace and zero
width characters only. -/
def decorative4 (l : Txt) : Bool :=
  l ≠ [] ∧ l.all (fun c => isPySpace c ∨ c = '​' ∨ c = '‌' ∨ c = '‍' ∨ c = '﻿')

/-- A line matched by any decorative pattern. -/
def isDecorativeLine (l : Txt) : Bool :=
  decorative1 l ∨ decorative2 l ∨ decorative3 l ∨ decorative4 l

/-- Step 6: drop decorative lines. -/
def removeDecorativeLines (t : Txt) : Txt :=
  joinNl ((splitNl t).filter (fun l => ¬ isDecorativeLine l))

/-- Step 7, per line: keep the leading whitespace, collapse interior space
runs in the remainder and strip it; a line whose remainder strips to nothing
becomes empty. -/
def normalizeWhitespaceLine (line : Txt) : Txt :=
  let indent := line.takeWhile isPySpace
  let content := line.drop indent.length
  let content := pyStrip (collapseSpaces content)
  if content ≠ [] then indent ++ content else []

/-- Step 7, blank-line cap: keep at most two consecutive blank lines. -/
def capBlankLines : Nat → List Txt → List Txt
  | _, [] => []
  | ec, l :: ls =>
    if stripBlank l then
      if ec + 1 ≤ 2 then [] :: capBlankLines (ec + 1) ls
      else capBlankLines (ec + 1) ls
    else l :: capBlankLines 0 ls

/-- Step 7 over the whole text. -/
def normalizeWhitespace (t : Txt) : Txt :=
  joinNl (capBlankLines 0 ((splitNl t).map normalizeWhitespaceLine))

/-- Step 8: strip the first matching noise prefix from the first line only. -/
def stripNoiseFirstLine (t : Txt) : Txt :=
  match splitNl t with
  | [] => t
  | firstLine :: rest =>
    let newFirst :=
      match noisePrefixes.find? (fun p => startsWith (pyLower p) (pyLower firstLine)) with
      | some p => pyLstrip (firstLine.drop p.length)
      | none => firstLine
    joinNl (newFirst :: rest)

/-- The normalizer: the eight deterministic steps of the source followed by an
outer strip; empty input short-circuits. -/
def normalizeText (t : Txt) : Txt :=
  if t = [] then []
  else
    pyStrip (stripNoiseFirstLine (normalizeWhitespace (removeDecorativeLines
      (unifyBullets (removeEmoji (removeZeroWidthChars
        (normalizeLineEndings (nfcNormalize t))))))))

/-- Split a normalized text into lines. -/
def getLines (t : Txt) : List Txt := splitNl t

/-- A line with no non-whitespace content. -/
def isEmptyLine (l : Txt) : Bool := stripBlank l

/-- A canonical bullet line. -/
def isBulletLine (l : Txt) : Bool := startsWith (txt "- ") (pyLstrip l)

/-- The content of a canonical bullet line. -/
def getBulletContent (l : Txt) : Txt :=
  let stripped := pyLstrip l
  if startsWith (txt "- ") stripped then stripped.drop 2 else stripped

/-- The width of the leading whitespace of a line. -/
def getIndentation (l : Txt) : Nat := l.length - (pyLstrip l).length

/-! ### Anchor detector -/

/-- High-confidence score threshold. -/
def highConfidenceThreshold : Nat := 60

/-- Minimum score for a line to qualify as an anchor. -/
def mediumConfidenceThreshold : Nat := 35

/-- Fuzzy keyword match on the cleaned line: equality, prefix followed by a
non-alphanumeric boundary, multi-word substring, or whole whitespace-delimited
token. The source tests the conditions in order with early positive returns,
which is the disjunction below. -/
def keywordMatches (line kw : Txt) : Bool :=
  let kl := pyLower kw
  let boundaryOk : Bool :=
    match line.drop kl.length with
    | [] => true
    | c :: _ => ¬ isAlnumPy c
  (decide (line = kl)) || (startsWith kl line && boundaryOk) ||
  (kl.contains ' ' && containsSub kl line) ||
  (!(kl.contains ' ') && (splitWs line).any (fun w => decide (w = kl)))

/-- Score one line against one rule: primary RU keywords, then primary EN,
then alternative keywords, first match wins; a primary keyword longer than
three characters occurring as a substring earns ten extra points. The source
also receives the merely lowercased line but never reads it. -/
def scoreLineAgainstRule (lineClean : Txt) (rule : SectionRule) :
    Nat × Option Txt :=
  match rule.keywordsRu.find? (fun kw => keywordMatches lineClean kw) with
  | some kw =>
    (if 3 < kw.length ∧ containsSub kw lineClean then
      rule.keywordPrimaryScore + 10 else rule.keywordPrimaryScore, some kw)
  | none =>
    match rule.keywordsEn.find? (fun kw => keywordMatches lineClean kw) with
    | some kw =>
      (if 3 < kw.length ∧ containsSub kw lineClean then
        rule.keywordPrimaryScore + 10 else rule.keywordPrimaryScore, some kw)
    | none =>
      match rule.keywordsAlt.find? (fun kw => keywordMatches lineClean kw) with
      | some kw => (rule.keywordAltScore, some kw)
      | none => (0, none)

/-- Remove one trailing colon (plain or fullwidth) together with trailing
whitespace, the header-suffix substitution. -/
def subHeaderSuffix (s : Txt) : Txt :=
  let r := pyRstrip s
  match r.getLast? with
  | some c => if c = ':' ∨ c = '：' then r.dropLast else s
  | none => s

/-- The position adjustment of a line score: a multiplier above one boosts
matches in the first thirty percent of the document, a multiplier below one
rescales matches in the last thirty percent by two minus the multiplier. All
arithmetic is binary64 exactly as in the source. -/
def posAdjust (mult : Dy) (lineNum total score : Nat) : Nat :=
  if ¬ dyEq mult fOne then
    if dyLt fOne mult ∧ dyLt (fDiv (dyNat lineNum) (dyNat (max total 1))) fLit03 then
      fTruncNat (fMul (dyNat score) mult)
    else if dyLt mult fOne ∧ dyLt fLit07 (fDiv (dyNat lineNum) (dyNat (max total 1))) then
      fTruncNat (fMul (dyNat score) (fSub fTwo mult))
    else score
  else score

/-- Score a line against every rule, with colon, standalone, position and
short-line adjustments; result in rule-registry order. -/
def calcLineScores (line : Txt) (lineNum total : Nat)
    (prevEmpty nextEmpty : Bool) : List (SectionType × Nat × Option Txt) :=
  let lineLower := pyStrip (pyLower line)
  let lineClean := pyStrip (subHeaderSuffix lineLower)
  let hasColon := endsWith (txt ":") lineLower ∨ endsWith (txt "ï¼š") lineLower
  sectionRules.filterMap (fun rule =>
    let base := scoreLineAgainstRule lineClean rule
    if 0 < base.1 then
      let s1 := if hasColon then base.1 + rule.colonBonus else base.1
      let s2 :=
        if prevEmpty ∧ nextEmpty then s1 + rule.standaloneLineBonus
        else if prevEmpty ∨ nextEmpty then s1 + rule.standaloneLineBonus / 2
        else s1
      let s3 := posAdjust rule.positionScoreMultiplier lineNum total s2
      let s4 := if lineClean.length < 40 then s3 + 5 else s3
      some (rule.sectionType, s4, base.2)
    else none)

/-- The single best-scoring rule for a line: the first maximum in registry
order, discarded when below the qualifying threshold. -/
def findBestMatch (scores : List (SectionType × Nat × Option Txt)) :
    Option (SectionType × Nat × Option Txt) :=
  match scores.foldl
      (fun best p =>
        match best with
        | none => some p
        | some b => if b.2.1 < p.2.1 then some p else best)
      none with
  | none => none
  | some best => if best.2.1 < mediumConfidenceThreshold then none else some best

/-- Score-to-confidence mapping. -/
def scoreToConfidence (score : Nat) : Confidence :=
  if highConfidenceThreshold ≤ score then .high
  else if mediumConfidenceThreshold ≤ score then .medium
  else .low

/-- Whether the previous line is blank (boundary counts as blank). -/
def isPrevEmpty (lines : List Txt) (i : Nat) : Bool :=
  if i = 0 then true else isEmptyLine (lines.getD (i - 1) [])

/-- Whether the next line is blank (boundary counts as blank). -/
def isNextEmpty (lines : List Txt) (i : Nat) : Bool :=
  if lines.length - 1 ≤ i then true else isEmptyLine (lines.getD (i + 1) [])

/-- The anchor candidate produced by one line, if any: blank and bullet lines
are skipped, otherwise the best qualifying rule yields an anchor. -/
def anchorAt (lines : List Txt) (total i : Nat) : Option SectionAnchor :=
  if isEmptyLine (lines.getD i []) ∨ isBulletLine (lines.getD i []) then none
  else
    match findBestMatch
        (calcLineScores (lines.getD i []) i total (isPrevEmpty lines i)
          (isNextEmpty lines i)) with
    | some (ty, sc, kw) =>
      some ⟨ty, i, pyStrip (lines.getD i []), sc, scoreToConfidence sc, kw⟩
    | none => none

/-- Dictionary update of the per-category best anchor: a later anchor replaces
the stored one only when its score is strictly greater; insertion order of
first occurrence is preserved, as for a Python dictionary. -/
def typeToBestUpdate (m : List (SectionType × SectionAnchor))
    (a : SectionAnchor) : List (SectionType × SectionAnchor) :=
  if m.any (fun p => p.1 = a.sectionType) then
    m.map (fun p =>
      if p.1 = a.sectionType ∧ p.2.score < a.score then (p.1, a) else p)
  else m ++ [(a.sectionType, a)]

/-- Insert into a list sorted by line index. -/
def insertByLine (a : SectionAnchor) : List SectionAnchor → List SectionAnchor
  | [] => [a]
  | b :: bs =>
    if a.lineNumber ≤ b.lineNumber then a :: b :: bs else b :: insertByLine a bs

/-- sorted() by line index. -/
def sortByLine (l : List SectionAnchor) : List SectionAnchor :=
  l.foldr insertByLine []

/-- The two-line merge window: scanning resolved anchors in line order, an
anchor within two lines of the previously kept one replaces it only when its
score is strictly greater; the accumulator carries the kept list reversed. -/
def mergeNearby (acc : List SectionAnchor) :
    List SectionAnchor → List SectionAnchor
  | [] => acc.reverse
  | a :: rest =>
    match acc with
    | [] => mergeNearby [a] rest
    | last :: accTail =>
      if ((a.lineNumber : ℤ) - (last.lineNumber : ℤ)).natAbs ≤ 2 then
        if last.score < a.score then mergeNearby (a :: accTail) rest
        else mergeNearby acc rest
      else mergeNearby (a :: acc) rest

/-- Conflict resolution: per category keep only the best anchor, then apply
the two-line merge window in line order. -/
def resolveConflicts (anchors : List SectionAnchor) : List SectionAnchor :=
  if anchors.length ≤ 1 then anchors
  else
    mergeNearby []
      (sortByLine ((anchors.foldl typeToBestUpdate []).map (·.2)))

/-- Anchor detection over a normalized text. -/
def detectSectionAnchors (nt : Txt) : List SectionAnchor :=
  let lines := getLines nt
  let total := lines.length
  sortByLine (resolveConflicts ((List.range total).filterMap (anchorAt lines total)))

/-- Content ranges between anchors: each anchor owns the lines from its own
line to the line before the next anchor, the last anchor reaching the end. -/
def getSectionBoundaries : List SectionAnchor → Nat →
    List (SectionAnchor × Nat × Nat)
  | [], _ => []
  | [a], total => [(a, a.lineNumber, total - 1)]
  | a :: b :: rest, total =>
    (a, a.lineNumber, b.lineNumber - 1) :: getSectionBoundaries (b :: rest) total

/-! ### Content segmenter -/

/-- Whether a non-bullet line folds into the current bullet item. The first
branch rejects only dedented lines at column zero under a deep expected
indent, and otherwise falls through to the header-likeness checks, exactly as
the nested conditionals of the source do. -/
def isContinuationLine (stripped : Txt) (lineIndent expectedIndent : Nat) : Bool :=
  if (lineIndent : ℤ) < (expectedIndent : ℤ) - 2 ∧ lineIndent = 0 ∧ 4 < expectedIndent then
    false
  else if stripped.length < 30 ∧
      (endsWith (txt ":") stripped ∨ endsWith (txt "：") stripped) then false
  else if startsWith (txt "- ") stripped then false
  else if stripped.length < 15 ∧ endsWith (txt ":") stripped then false
  else true

/-- Assemble an item from accumulated lines; the source also receives the
bullet flag but ignores it, and marks the item a continuation exactly when it
spans several lines. -/
def createItem (ls : List Txt) : ListItem :=
  { text := joinNl ls, isContinuation := 1 < ls.length }

/-- The line-grouping state machine: bullets open items, blank lines close
them, qualifying lines fold into the open bullet item, and other text
accumulates into plain multi-line items. -/
def pliGo (cur : List Txt) (curBullet : Bool) (curIndent : Nat) :
    List Txt → List ListItem
  | [] => if cur ≠ [] then [createItem cur] else []
  | line :: rest =>
    let stripped := pyStrip line
    if stripped = [] then
      if cur ≠ [] then createItem cur :: pliGo [] false curIndent rest
      else pliGo cur curBullet curIndent rest
    else
      let lineIndent := getIndentation line
      if isBulletLine line then
        (if cur ≠ [] then [createItem cur] else []) ++
          pliGo [getBulletContent line] true (lineIndent + 2) rest
      else if curBullet ∧ isContinuationLine stripped lineIndent curIndent then
        pliGo (cur ++ [stripped]) curBullet curIndent rest
      else if cur ≠ [] ∧ curBullet then
        createItem cur :: pliGo [stripped] false lineIndent rest
      else if cur ≠ [] then
        pliGo (cur ++ [stripped]) false curIndent rest
      else
        pliGo [stripped] false lineIndent rest

/-- Group the lines of a section into list items. -/
def parseLinesToItems (lines : List Txt) : List ListItem :=
  if lines = [] then [] else pliGo [] false 0 lines

/-- Content segmentation: an intro section before the first anchor when its
lines hold content, then one section per anchor spanning to the next anchor,
with leading and trailing blank lines trimmed from the content slice. -/
def parseSectionContent (nt : Txt) (anchors : List SectionAnchor) :
    List VacancySection :=
  let lines := getLines nt
  let total := lines.length
  match anchors with
  | [] =>
    let content := parseLinesToItems lines
    if content ≠ [] then
      [{ stype := .intro, title := [], content := content, rawContent := nt,
         confidence := .low, startLine := 0, endLine := total - 1 }]
    else []
  | a0 :: _ =>
    let introSecs :=
      if 0 < a0.lineNumber then
        let introLines := lines.take a0.lineNumber
        let introContent := parseLinesToItems introLines
        if introContent ≠ [] then
          [{ stype := .intro, title := [], content := introContent,
             rawContent := joinNl introLines, confidence := .high,
             startLine := 0, endLine := a0.lineNumber - 1 }]
        else []
      else []
    introSecs ++
      (getSectionBoundaries anchors total).map (fun b =>
        let anchor := b.1
        let s := b.2.1
        let e := b.2.2
        let sectionLines := ((lines.drop (s + 1)).take (e - s)).dropWhile
          isEmptyLine |>.rdropWhile isEmptyLine
        { stype := anchor.sectionType, title := anchor.lineText,
          content := parseLinesToItems sectionLines,
          rawContent := joinNl sectionLines, confidence := anchor.confidence,
          startLine := s, endLine := e })

/-- Company signals for intro reclassification. -/
def companySignals : List Txt :=
  [txt "компани", txt "команд", txt "мы ", txt "наш", txt "company",
   txt "team", txt "we ", txt "разрабатыва", txt "занимаемся",
   txt "специализир"]

/-- Requirement and responsibility signals blocking reclassification. -/
def nonCompanySignals : List Txt :=
  [txt "требован", txt "обязанност", txt "задач", txt "requirements",
   txt "responsibilities", txt "опыт работы", txt "навыки", txt "skills"]

/-- The intro-looks-like-company test: at least two company signals, no
requirement signals, fewer than five items. -/
def looksLikeAboutCompany (s : VacancySection) : Bool :=
  let text := pyLower s.rawContent
  2 ≤ (companySignals.filter (fun sig => containsSub sig text)).length ∧
  (nonCompanySignals.filter (fun sig => containsSub sig text)).length = 0 ∧
  s.content.length < 5

/-- Reclassify the intro section (the last intro in the list, mirroring the
object chosen by the source loop) to about-company when there is no explicit
about-company section and it carries company signals. -/
def mergeIntroWithAbout (sections : List VacancySection) : List VacancySection :=
  let intro? := (sections.enum.filter (fun p => p.2.stype = .intro)).getLast?
  let hasAbout := sections.any (fun s => s.stype = .aboutCompany)
  match intro? with
  | some (idx, intro) =>
    if ¬ hasAbout ∧ looksLikeAboutCompany intro then
      sections.enum.map (fun p =>
        if p.1 = idx then
          { p.2 with stype := .aboutCompany, confidence := .medium }
        else p.2)
    else sections
  | none => sections

/-- Sentence punctuation recognized by the long-paragraph splitter. -/
def isSentencePunct (c : Char) : Bool := c = '.' ∨ c = '!' ∨ c = '?'

/-- Latin or Cyrillic capital letters, the lookahead class of the splitter. -/
def isCapital (c : Char) : Bool :=
  ('A' ≤ c ∧ c ≤ 'Z') ∨ (0x410 ≤ c.toNat ∧ c.toNat ≤ 0x42f) ∨ c = 'Ё'

/-- re.split on a whitespace run preceded by sentence punctuation and followed
by a capital letter: the separator is a maximal whitespace run starting right
after the punctuation whose following character is a capital. cur is the
current part reversed; pend, when nonempty, is the candidate separator run
(reversed) that follows a sentence-punctuation character. -/
def ssGo (cur pend : Txt) : Txt → List Txt
  | [] => [(pend ++ cur).reverse]
  | c :: rest =>
    if pend ≠ [] then
      if isPySpace c then ssGo cur (c :: pend) rest
      else if isCapital c then cur.reverse :: ssGo [c] [] rest
      else ssGo (c :: (pend ++ cur)) [] rest
    else
      let punctPrev : Bool := match cur with
        | p :: _ => isSentencePunct p
        | [] => false
      if punctPrev && isPySpace c then ssGo cur [c] rest
      else ssGo (c :: cur) [] rest

/-- The unfiltered sentence split of a paragraph text. -/
def sentenceSplitRaw (t : Txt) : List Txt := ssGo [] [] t

/-- Sentence fragments that survive the length filter of the source: strictly
longer than twenty characters. -/
def splitSentences (t : Txt) : List Txt :=
  (sentenceSplitRaw t).filter (fun p => 20 < p.length)

/-- The per-item transform of the long-paragraph pass. -/
def transformLongItem (item : ListItem) : List ListItem :=
  if ¬ item.isContinuation ∧ 200 < item.text.length then
    let sentences := splitSentences item.text
    if 1 < sentences.length then
      sentences.filterMap (fun s =>
        if ¬ stripBlank s then some { text := pyStrip s } else none)
    else [item]
  else [item]

/-- The long-paragraph pass over all sections. -/
def splitLongParagraphs (sections : List VacancySection) : List VacancySection :=
  sections.map (fun s => { s with content := s.content.flatMap transformLongItem })

/-! ### Semantics extractor -/

/-- Truthiness of the mult argument and the thousands multiplication. -/
def applySalaryMultiplier (v : Nat) (multiplier : Option Txt) : Nat :=
  match multiplier with
  | none => v
  | some m =>
    if m ≠ [] ∧ (pyLower m = txt "k" ∨ pyLower m = txt "к" ∨ pyLower m = txt "т" ∨
        pyLower m = txt "тыс" ∨ pyLower m = txt "тыс.") then v * 1000
    else v

/-- Parse one captured salary amount: spaces, commas and dots are removed, the
result must parse as an integer, and a thousands suffix multiplies by one
thousand. A missing capture (the groupdict default or an unparticipating
group) yields no value. -/
def parseSalaryValue (valueStr : Option Txt) (multiplier : Option Txt := none) :
    Option Nat :=
  match valueStr with
  | none => none
  | some vs =>
    if vs = [] then none
    else
      let clean := vs.filter (fun c => ¬ (c = ' ' ∨ c = ',' ∨ c = '.'))
      match parseIntTxt clean with
      | none => none
      | some v => some (applySalaryMultiplier v multiplier)

/-- Currency resolution: the matched substring first, then the whole search
text, against the fixed table; a dollar sign in the match defaults to USD and
otherwise the default is RUB. -/
def detectCurrency (text context : Txt) : Txt :=
  match [context, text].findSome? (fun ct =>
      currencyPatterns.findSome? (fun cp =>
        if cp.2.any (fun p => containsSub p (pyLower ct)) then some cp.1
        else none)) with
  | some c => c
  | none => if context.contains '$' then txt "USD" else txt "RUB"

/-- Gross indicators. -/
def grossPatternList : List Txt :=
  [txt "gross", txt "до вычета", txt "до налог", txt "гросс", txt "брутто"]

/-- Net indicators. -/
def netPatternList : List Txt :=
  [txt "net", txt "на руки", txt "после налог", txt "нетто", txt "чистыми"]

/-- Gross/net resolution with unknown default. -/
def detectGrossNet (text : Txt) : Option Bool :=
  if grossPatternList.any (fun p => containsSub p text) then some true
  else if netPatternList.any (fun p => containsSub p text) then some false
  else none

/-- Yearly-period indicators. -/
def yearPatternList : List Txt :=
  [txt "в год", txt "годовой", txt "per year", txt "annual", txt "/year",
   txt "/y"]

/-- Hourly-period indicators. -/
def hourPatternList : List Txt :=
  [txt "в час", txt "per hour", txt "/hour", txt "/h"]

/-- Period resolution with monthly default. -/
def detectPeriod (text : Txt) : SalaryPeriod :=
  if yearPatternList.any (fun p => containsSub p text) then .year
  else if hourPatternList.any (fun p => containsSub p text) then .hour
  else .month

/-- Try the four salary templates in order on the lowercased text; the first
template whose match parses to at least one bound wins, a matching template
with no parsable bound falls through to the next. -/
def parseSalaryText (text : Txt) : Option Salary :=
  let textLower := pyLower text
  salaryPatterns.findSome? (fun pp =>
    match reSearch pp.1 textLower with
    | none => none
    | some m =>
      let bounds : Option Nat × Option Nat :=
        if pp.2 = "range" then
          (parseSalaryValue (capGet m.caps gMin),
           parseSalaryValue (capGet m.caps gMax))
        else if pp.2 = "from" then (parseSalaryValue (capGet m.caps gMin), none)
        else if pp.2 = "upto" then (none, parseSalaryValue (capGet m.caps gMax))
        else
          let v := parseSalaryValue (capGet m.caps gVal) (capGet m.caps gMult)
          (v, v)
      if bounds.1 ≠ none ∨ bounds.2 ≠ none then
        some { min := bounds.1, max := bounds.2,
               currency := detectCurrency textLower m.matched,
               period := detectPeriod textLower,
               gross := detectGrossNet textLower,
               rawText := pyStrip m.matched }
      else none)

/-- Salary extraction: salary section, then benefits section, then the whole
text. -/
def extractSalary (text : Txt) (sections : List VacancySection) : Option Salary :=
  match (sections.find? (fun s => s.stype = .salary)).bind
      (fun s => parseSalaryText s.rawContent) with
  | some r => some r
  | none =>
    match (sections.find? (fun s => s.stype = .benefits)).bind
        (fun s => parseSalaryText s.rawContent) with
    | some r => some r
    | none => parseSalaryText text

/-- Experience extraction: three ordered templates; a match whose digits fail
integer conversion falls through to the next template, and a plus sign in the
matched text maps the upper bound to ninety-nine. -/
def extractExperience (text : Txt) : Option (Nat × Nat) :=
  experiencePatterns.findSome? (fun pp =>
    match reSearch pp.1 text with
    | none => none
    | some m =>
      if pp.2 = 2 then
        match (capGet m.caps 1).bind parseIntTxt,
            (capGet m.caps 2).bind parseIntTxt with
        | some a, some b => some (a, b)
        | _, _ => none
      else
        match (capGet m.caps 1).bind parseIntTxt with
        | some y => if m.matched.contains '+' then some (y, 99) else some (y, y)
        | none => none)

/-- Number of remote-positive indicator phrases occurring in a text. -/
def remoteCount (text : Txt) : Nat :=
  (remotePositive.filter (fun r => containsSub r text)).length

/-- Number of remote-negative indicator phrases occurring in a text. -/
def officeCount (text : Txt) : Nat :=
  (remoteNegative.filter (fun o => containsSub o text)).length

/-- Tri-state remote status: any hybrid indicator forces unknown; otherwise a
side decides only when the other side has no occurrence at all. -/
def extractRemoteStatus (text : Txt) : Option Bool :=
  let t := pyLower text
  if hybridIndicators.any (fun ind => containsSub ind t) then none
  else if 0 < remoteCount t ∧ officeCount t = 0 then some true
  else if 0 < officeCount t ∧ remoteCount t = 0 then some false
  else none

/-- First employment type (in table order) with a keyword in the text. -/
def extractEmploymentType (text : Txt) : Option Txt :=
  employmentPatterns.findSome? (fun ep =>
    if ep.2.any (fun kw => containsSub kw text) then some ep.1 else none)

/-- Whether a word character sits at index i of a text. -/
def isWordAt (t : Txt) (i : Nat) : Bool :=
  match t.get? i with
  | some c => isWordChar c
  | none => false

/-- The word-boundary condition between positions i-1 and i. -/
def boundAt (t : Txt) (i : Nat) : Bool :=
  (if i = 0 then false else isWordAt t (i - 1)) != isWordAt t i

/-- Whole-word occurrence of a keyword: the keyword appears as a slice with a
word boundary on each side. -/
def wordOccurs (kw t : Txt) : Bool :=
  (List.range (t.length + 1)).any (fun i =>
    decide ((t.drop i).take kw.length = kw) && boundAt t i &&
      boundAt t (i + kw.length))

/-- Collect technology keywords found in a lowercased text into the
accumulated set: multi-word terms by substring, single-word terms by whole
word match. -/
def findTechInText (text : Txt) (found : List Txt) : List Txt :=
  techKeywords.foldl (fun acc tech =>
    let matched :=
      if tech.contains ' ' then containsSub tech text else wordOccurs tech text
    if matched ∧ ¬ acc.contains tech then acc ++ [tech] else acc) found

/-- Insertion into a list sorted by code-point order. -/
def insertTxtSorted (a : Txt) : List Txt → List Txt
  | [] => [a]
  | b :: bs => if txtLe a b then a :: b :: bs else b :: insertTxtSorted a bs

/-- sorted() over strings. -/
def sortTxt (l : List Txt) : List Txt := l.foldr insertTxtSorted []

/-- Technology extraction: priority sections first, full-text fallback only
when fewer than three terms were found, result sorted. -/
def extractTechnologies (text : Txt) (sections : List VacancySection) :
    List Txt :=
  let prio : List SectionType := [.techStack, .requirements, .niceToHave]
  let found := prio.foldl (fun acc ty =>
    match sections.find? (fun s => s.stype = ty) with
    | some s => findTechInText (pyLower s.rawContent) acc
    | none => acc) []
  let found := if found.length < 3 then findTechInText text found else found
  sortTxt found

/-- ASCII letter class. -/
def asciiAlpha : RE := .cls (fun c => ('a' ≤ c ∧ c ≤ 'z') ∨ ('A' ≤ c ∧ c ≤ 'Z'))

/-- ASCII letter-or-digit class. -/
def asciiAlnum : RE :=
  .cls (fun c => ('a' ≤ c ∧ c ≤ 'z') ∨ ('A' ≤ c ∧ c ≤ 'Z') ∨ isDigitChar c)

/-- ASCII word-character class: letters, digits, underscore. -/
def asciiWord : RE :=
  .cls (fun c => ('a' ≤ c ∧ c ≤ 'z') ∨ ('A' ≤ c ∧ c ≤ 'Z') ∨ isDigitChar c ∨
    c = '_')

/-- The optional scheme of the link patterns. -/
def httpsOpt : RE := RE.opt (RE.cat [RE.str "http", RE.opt (RE.lit 's'), RE.str "://"])

/-- The optional scheme for ignore-case patterns. -/
def ihttpsOpt : RE :=
  RE.opt (RE.cat [RE.istr "http", RE.opt (RE.ilit 's'), RE.istr "://"])

/-- Characters allowed in a captured URL tail: everything but whitespace,
angle brackets and double quote. -/
def urlTailChar : RE :=
  .cls (fun c => ¬ (isPySpace c ∨ c = '<' ∨ c = '>' ∨ c = '"'))

/-- The email pattern. -/
def emailRE : RE := RE.cat [
  RE.plus (.cls (fun c => ('a' ≤ c ∧ c ≤ 'z') ∨ ('A' ≤ c ∧ c ≤ 'Z') ∨
    isDigitChar c ∨ c = '.' ∨ c = '_' ∨ c = '%' ∨ c = '+' ∨ c = '-')),
  RE.lit '@',
  RE.plus (.cls (fun c => ('a' ≤ c ∧ c ≤ 'z') ∨ ('A' ≤ c ∧ c ≤ 'Z') ∨
    isDigitChar c ∨ c = '.' ∨ c = '-')),
  RE.lit '.', RE.repAtLeast 2 asciiAlpha]

/-- Email false-positive domains. -/
def emailFalsePositives : List Txt :=
  [txt "example.com", txt "test.com", txt "domain.com"]

/-- The telegram-handle pattern. -/
def tgRE : RE := RE.cat [RE.lit '@',
  .group 1 (RE.cat [asciiAlpha, RE.repRange 4 31 asciiWord])]

/-- The t.me link pattern. -/
def tmeRE : RE := RE.cat [httpsOpt, RE.str "t.me/", .group 1 (RE.plus asciiWord)]

/-- The optional separator of the phone patterns. -/
def phoneSep : RE := RE.opt (.cls (fun c => isPySpace c ∨ c = '-'))

/-- The five phone patterns in source order. -/
def phoneREs : List RE := [
  RE.cat [RE.str "+7", phoneSep, RE.opt (RE.lit '('), RE.repExact 3 reDigit,
    RE.opt (RE.lit ')'), phoneSep, RE.repExact 3 reDigit, phoneSep,
    RE.repExact 2 reDigit, phoneSep, RE.repExact 2 reDigit],
  RE.cat [RE.str "+380", phoneSep, RE.opt (RE.lit '('), RE.repExact 2 reDigit,
    RE.opt (RE.lit ')'), phoneSep, RE.repExact 3 reDigit, phoneSep,
    RE.repExact 2 reDigit, phoneSep, RE.repExact 2 reDigit],
  RE.cat [RE.str "+1", phoneSep, RE.opt (RE.lit '('), RE.repExact 3 reDigit,
    RE.opt (RE.lit ')'), phoneSep, RE.repExact 3 reDigit, phoneSep,
    RE.repExact 4 reDigit],
  RE.cat [RE.lit '+', RE.repRange 1 3 reDigit, phoneSep, RE.opt (RE.lit '('),
    RE.repRange 2 4 reDigit, RE.opt (RE.lit ')'), phoneSep,
    RE.repRange 3 4 reDigit, phoneSep, RE.repRange 2 4 reDigit],
  RE.cat [RE.lit '8', phoneSep, RE.opt (RE.lit '('), RE.repExact 3 reDigit,
    RE.opt (RE.lit ')'), phoneSep, RE.repExact 3 reDigit, phoneSep,
    RE.repExact 2 reDigit, phoneSep, RE.repExact 2 reDigit]]

/-- The WhatsApp deep-link pattern. -/
def waRE : RE := RE.cat [httpsOpt,
  .alt (RE.str "wa.me") (RE.str "api.whatsapp.com/send?phone="),
  RE.opt (RE.lit '/'),
  .group 1 (RE.cat [RE.opt (RE.lit '+'), RE.plus reDigit])]

/-- The two LinkedIn patterns. -/
def liREs : List RE := [
  RE.cat [httpsOpt, RE.opt (RE.str "www."), RE.str "linkedin.com/in/",
    .group 1 (RE.plus (.cls (fun c => ('a' ≤ c ∧ c ≤ 'z') ∨
      ('A' ≤ c ∧ c ≤ 'Z') ∨ isDigitChar c ∨ c = '-')))],
  RE.cat [httpsOpt, RE.opt (RE.str "www."), RE.str "linkedin.com/company/",
    .group 1 (RE.plus (.cls (fun c => ('a' ≤ c ∧ c ≤ 'z') ∨
      ('A' ≤ c ∧ c ≤ 'Z') ∨ isDigitChar c ∨ c = '-')))]]

/-- The seven application-form patterns (compiled with the ignore-case flag). -/
def formREs : List RE := [
  RE.cat [ihttpsOpt, RE.istr "docs.google.com/forms/", RE.plus urlTailChar],
  RE.cat [ihttpsOpt, RE.istr "forms.gle/", RE.plus asciiAlnum],
  RE.cat [ihttpsOpt,
    RE.plus (.cls (fun c => ('a' ≤ c ∧ c ≤ 'z') ∨ ('A' ≤ c ∧ c ≤ 'Z') ∨
      isDigitChar c ∨ c = '-')), RE.istr ".typeform.com/to/", RE.plus asciiAlnum],
  RE.cat [ihttpsOpt, RE.istr "airtable.com/", RE.plus urlTailChar],
  RE.cat [ihttpsOpt, RE.istr "tally.so/r/", RE.plus asciiAlnum],
  RE.cat [ihttpsOpt, RE.istr "forms.yandex.",
    RE.plus (.cls (fun c => ('a' ≤ c ∧ c ≤ 'z') ∨ ('A' ≤ c ∧ c ≤ 'Z'))),
    RE.lit '/', RE.plus urlTailChar],
  RE.cat [ihttpsOpt, RE.istr "surveymonkey.com/r/", RE.plus asciiAlnum]]

/-- The Skype pattern (ignore-case). -/
def skypeRE : RE := RE.cat [
  .alt (RE.istr "skype") (RE.istr "скайп"),
  RE.plus (.cls (fun c => isPySpace c ∨ c = ':')),
  .group 1 (RE.cat [asciiAlpha, RE.repRange 5 31 (.cls (fun c =>
    ('a' ≤ c ∧ c ≤ 'z') ∨ ('A' ≤ c ∧ c ≤ 'Z') ∨ isDigitChar c ∨ c = '.' ∨
    c = '_' ∨ c = '-'))])]

/-- The three Discord patterns. -/
def discordREs : List RE := [
  .group 1 (RE.cat [RE.repRange 2 32 asciiWord, RE.lit '#',
    RE.repExact 4 reDigit]),
  RE.cat [httpsOpt, RE.str "discord.gg/", .group 1 (RE.plus asciiAlnum)],
  RE.cat [httpsOpt, RE.str "discord.com/invite/", .group 1 (RE.plus asciiAlnum)]]

/-- The generic career-page pattern (ignore-case). -/
def careerRE : RE := RE.cat [
  ihttpsOpt, RE.opt (RE.istr "www."),
  RE.plus (.cls (fun c => ('a' ≤ c ∧ c ≤ 'z') ∨ ('A' ≤ c ∧ c ≤ 'Z') ∨
    isDigitChar c ∨ c = '-')),
  RE.ilit '.', RE.repAtLeast 2 (.cls (fun c => ('a' ≤ c ∧ c ≤ 'z') ∨
    ('A' ≤ c ∧ c ≤ 'Z'))),
  RE.lit '/',
  .alt (RE.cat [RE.istr "career", RE.opt (RE.ilit 's')])
    (.alt (RE.cat [RE.istr "job", RE.opt (RE.ilit 's')])
      (.alt (RE.istr "vacancies") (RE.istr "вакансии"))),
  .star urlTailChar]

/-- One dedup-aware insertion, the local helper of the contact extractor: the
key is the lowercased trimmed value, and the stored value is trimmed. -/
def addContact (st : List ContactInfo × List Txt) (ctype : ContactType)
    (value : Txt) (label : Option Txt) : List ContactInfo × List Txt :=
  let normalized := pyStrip (pyLower value)
  if st.2.contains normalized then st
  else (st.1 ++ [{ ctype := ctype, value := pyStrip value, label := label }],
    st.2 ++ [normalized])

/-- The telegram context label: recruiter words within the thirty characters
before the handle. -/
def tgLabel (searchIn : Txt) (start : Nat) : Option Txt :=
  let ctxStart := start - 30
  let context := pyLower ((searchIn.drop ctxStart).take (start - ctxStart))
  if containsSub (txt "hr") context ∨ containsSub (txt "рекрутер") context ∨
      containsSub (txt "recruiter") context then some (txt "HR")
  else if containsSub (txt "lead") context ∨
      containsSub (txt "руководитель") context then some (txt "Lead")
  else none

/-- All contact candidates of one searched text, in the scan order of the
source; the career-page scan runs only in contact context. -/
def contactCandidates (hasContactSection : Bool) (searchIn : Txt) :
    List (ContactType × Txt × Option Txt) :=
  ((reFindAll emailRE searchIn).filterMap (fun m =>
    if ¬ emailFalsePositives.any (fun fp => containsSub fp (pyLower m.matched))
    then some (ContactType.email, m.matched, none) else none)) ++
  ((reFindAll tgRE searchIn).map (fun m =>
    (ContactType.telegram, m.matched, tgLabel searchIn m.start))) ++
  ((reFindAll tmeRE searchIn).map (fun m =>
    (ContactType.telegram, '@' :: ((capGet m.caps 1).getD []), none))) ++
  (phoneREs.flatMap (fun p => (reFindAll p searchIn).filterMap (fun m =>
    let clean := m.matched.filter (fun c =>
      ¬ (isPySpace c ∨ c = '-' ∨ c = '(' ∨ c = ')'))
    if 10 ≤ clean.length then some (ContactType.phone, m.matched, none)
    else none))) ++
  ((reFindAll waRE searchIn).map (fun m =>
    (ContactType.whatsapp, (capGet m.caps 1).getD [], none))) ++
  (liREs.flatMap (fun p => (reFindAll p searchIn).map (fun m =>
    (ContactType.linkedin, m.matched, none)))) ++
  (formREs.flatMap (fun p => (reFindAll p searchIn).map (fun m =>
    (ContactType.form, m.matched, none)))) ++
  ((reFindAll skypeRE searchIn).map (fun m =>
    (ContactType.skype, (capGet m.caps 1).getD [], none))) ++
  (discordREs.flatMap (fun p => (reFindAll p searchIn).map (fun m =>
    let g := (capGet m.caps 1).getD []
    (ContactType.discord, if g.contains '#' then g else txt "discord.gg/" ++ g,
      none)))) ++
  (if hasContactSection ∨ containsSub (txt "откликнуться") (pyLower searchIn) ∨
      containsSub (txt "apply") (pyLower searchIn) then
    (reFindAll careerRE searchIn).map (fun m =>
      (ContactType.website, m.matched, none))
  else [])

/-- Contact extraction: scan the contact section when present (and then the
whole text as well), otherwise the whole text, deduplicating by lowercased
trimmed value. -/
def extractContacts (text : Txt) (sections : List VacancySection) :
    List ContactInfo :=
  let contactSection := sections.find? (fun s => s.stype = .contact)
  let searchText := match contactSection with
    | some s => s.rawContent
    | none => text
  let textsToSearch :=
    [searchText] ++
      (if contactSection.isSome ∧ searchText ≠ text then [text] else [])
  (textsToSearch.foldl (fun st searchIn =>
    (contactCandidates contactSection.isSome searchIn).foldl
      (fun st c => addContact st c.1 c.2.1 c.2.2) st) ([], [])).1

/-- Role words that qualify the first line as a job title. -/
def titleIndicators : List Txt :=
  [txt "developer", txt "engineer", txt "designer", txt "manager",
   txt "analyst", txt "разработчик", txt "инженер", txt "дизайнер",
   txt "менеджер", txt "аналитик", txt "специалист", txt "ведущий",
   txt "senior", txt "junior", txt "middle", txt "lead"]

/-- The labeled-title pattern (ignore-case); the dot of the capture excludes
line feeds. -/
def titleRE : RE := RE.cat [
  .alt (RE.istr "вакансия") (.alt (RE.istr "позиция") (.alt (RE.istr "position")
    (.alt (RE.istr "vacancy") (RE.istr "job title")))),
  RE.plus (.cls (fun c => isPySpace c ∨ c = ':')),
  .group 1 (RE.plus (.cls (fun c => ¬ c = '\n')))]

/-- Job-title extraction: a short role-bearing first line, else the first
labeled title truncated to one hundred characters. -/
def extractJobTitle (text : Txt) (_sections : List VacancySection) :
    Option Txt :=
  let lines := (splitNl text).filterMap (fun l =>
    if ¬ stripBlank l then some (pyStrip l) else none)
  match lines with
  | [] => none
  | firstLine :: _ =>
    if firstLine.length < 80 ∧ ¬ endsWith (txt ":") firstLine ∧
        titleIndicators.any (fun ind => containsSub ind (pyLower firstLine)) then
      some firstLine
    else
      (reSearch titleRE text).map (fun m =>
        (pyStrip ((capGet m.caps 1).getD [])).take 100)

/-- The capital-letter class of the company patterns. -/
def capitalCls : RE := .cls isCapital

/-- The name-character class of the company patterns. -/
def companyNameChar : RE := .cls (fun c =>
  ('a' ≤ c ∧ c ≤ 'z') ∨ ('A' ≤ c ∧ c ≤ 'Z') ∨
  (0x430 ≤ c.toNat ∧ c.toNat ≤ 0x44f) ∨ (0x410 ≤ c.toNat ∧ c.toNat ≤ 0x42f) ∨
  c = 'ё' ∨ c = 'Ё' ∨ isPySpace c ∨ c = '&' ∨ c = '.')

/-- The about-company name pattern (case-sensitive). -/
def companyAboutRE : RE := RE.cat [
  .alt (RE.cat [RE.str "мы", sps, .cls (fun c => c = '-' ∨ c = '—'), sps])
    (RE.cat [RE.str "компания", RE.plus (.cls isPySpace)]),
  .group 1 (RE.cat [capitalCls, RE.plus companyNameChar])]

/-- The ignore-case capital class: with the flag, the capital range also
matches the corresponding lowercase letters. -/
def iCapitalCls : RE := .cls (fun c =>
  ('A' ≤ c ∧ c ≤ 'Z') ∨ ('a' ≤ c ∧ c ≤ 'z') ∨
  (0x410 ≤ c.toNat ∧ c.toNat ≤ 0x44f) ∨ c = 'Ё' ∨ c = 'ё')

/-- The labeled-employer pattern (ignore-case). -/
def employerRE : RE := RE.cat [
  .alt (RE.istr "работодатель") (.alt (RE.istr "компания")
    (.alt (RE.istr "company") (RE.istr "employer"))),
  RE.plus (.cls (fun c => isPySpace c ∨ c = ':')),
  .group 1 (RE.cat [iCapitalCls, RE.plus companyNameChar])]

/-- Company-name extraction: the we-are pattern inside an about-company
section, else the labeled employer pattern anywhere, truncated to eighty
characters. -/
def extractCompanyName (text : Txt) (sections : List VacancySection) :
    Option Txt :=
  match (sections.find? (fun s => s.stype = .aboutCompany)).bind (fun s =>
      (reSearch companyAboutRE s.rawContent).map (fun m =>
        (pyStrip ((capGet m.caps 1).getD [])).take 80)) with
  | some r => some r
  | none =>
    (reSearch employerRE text).map (fun m =>
      (pyStrip ((capGet m.caps 1).getD [])).take 80)

/-- The semantics extractor over the normalized text and its sections. -/
def extractSemantics (normalizedText : Txt) (sections : List VacancySection) :
    VacancySemantics :=
  let textLower := pyLower normalizedText
  { salary := extractSalary normalizedText sections,
    experienceYears := extractExperience textLower,
    remote := extractRemoteStatus textLower,
    employmentType := extractEmploymentType textLower,
    technologies := extractTechnologies textLower sections,
    contacts := extractContacts normalizedText sections,
    jobTitle := extractJobTitle normalizedText sections,
    companyName := extractCompanyName normalizedText sections }

/-! ### Orchestrator, confidence and validation -/

/-- The string value of a section type, as in the source enumeration. -/
def sectionTypeValue : SectionType → Txt
  | .requirements => txt "requirements"
  | .responsibilities => txt "responsibilities"
  | .niceToHave => txt "nice_to_have"
  | .techStack => txt "tech_stack"
  | .benefits => txt "benefits"
  | .aboutCompany => txt "about_company"
  | .aboutJob => txt "about_job"
  | .team => txt "team"
  | .salary => txt "salary"
  | .experience => txt "experience"
  | .workFormat => txt "work_format"
  | .contact => txt "contact"
  | .intro => txt "intro"

/-- The overall-confidence computation: weighted section confidences in
binary64 arithmetic, a bonus for key sections, warning penalties, and the
threshold mapping. The source also receives the anchor list but never reads
it. -/
def calcOverallConfidence (sections : List VacancySection)
    (warnings : List Txt) : Confidence :=
  if sections = [] then .low
  else
    let highCount := (sections.filter (fun s => s.confidence = .high)).length
    let mediumCount := (sections.filter (fun s => s.confidence = .medium)).length
    let lowCount := (sections.filter (fun s => s.confidence = .low)).length
    let hasKeySections :=
      sections.any (fun s => s.stype = .requirements) ∨
      sections.any (fun s => s.stype = .responsibilities)
    let total := sections.length
    if total = 0 then .low
    else
      let score0 := fDiv (dyNat (highCount * 3 + mediumCount * 2 + lowCount * 1))
        (dyNat (total * 3))
      let score1 := if hasKeySections then fAdd score0 fLit01 else score0
      let score2 :=
        if 3 ≤ warnings.length then fSub score1 fLit02
        else if 1 ≤ warnings.length then fSub score1 fLit01
        else score1
      if dyLe fLit07 score2 then .high
      else if dyLe fLit04 score2 then .medium
      else .low

/-- Truthiness of an optional integer, as tested by the salary validation. -/
def optNatTruthy : Option Nat → Bool
  | some n => n ≠ 0
  | none => false

/-- Duplicate-section warnings: scanning in order, a non-intro type already
seen warns. -/
def duplicateWarnings (seen : List SectionType) : List SectionType → List Txt
  | [] => []
  | st :: rest =>
    (if seen.contains st ∧ st ≠ .intro then
      [txt "Duplicate section detected: " ++ sectionTypeValue st] else []) ++
      duplicateWarnings (seen ++ [st]) rest

/-- Result validation: duplicate categories, empty non-intro sections, and an
inverted salary range (with truthy bounds). -/
def validateResult (sections : List VacancySection)
    (semantics : VacancySemantics) : List Txt :=
  duplicateWarnings [] (sections.map (fun s => s.stype)) ++
  (sections.filterMap (fun s =>
    if s.stype ≠ .intro ∧ s.content.length = 0 then
      some (txt "Empty section: " ++ sectionTypeValue s.stype)
    else none)) ++
  (match semantics.salary with
   | some sal =>
     if optNatTruthy sal.min ∧ optNatTruthy sal.max ∧
         sal.max.getD 0 < sal.min.getD 0 then
       [txt "Invalid salary range (min > max)"]
     else []
   | none => [])

/-- The orchestrator: guard empty input, normalize, detect anchors, segment,
reclassify intro, split long paragraphs, extract semantics, compute overall
confidence over the warnings collected so far, then append validation
warnings. Totality of this function embodies the no-exception contract. -/
def parseVacancy (rawText : Txt) : ParsedVacancy :=
  if rawText = [] ∨ stripBlank rawText then
    { rawText := rawText, normalizedText := [], sections := [],
      semantics := {}, overallConfidence := .low,
      warnings := [txt "Empty input text"] }
  else
    let normalized := normalizeText rawText
    let warnings0 :=
      if normalized.length < 50 then [txt "Very short text after normalization"]
      else []
    let anchors := detectSectionAnchors normalized
    let warnings1 := warnings0 ++
      (if anchors = [] then [txt "No section headers detected"] else [])
    let sections :=
      splitLongParagraphs (mergeIntroWithAbout
        (parseSectionContent normalized anchors))
    let semantics := extractSemantics normalized sections
    let overall := calcOverallConfidence sections warnings1
    let warnings2 := warnings1 ++ validateResult sections semantics
    { rawText := rawText, normalizedText := normalized, sections := sections,
      semantics := semantics, overallConfidence := overall,
      warnings := warnings2 }

/-- The clarification signal: low overall confidence, or low-confidence
sections outnumbering half the section list. -/
def needsLlmClarification (p : ParsedVacancy) : Bool :=
  p.overallConfidence = .low ∨
  p.sections.length <
    2 * (p.sections.filter (fun s => s.confidence = .low)).length

/-! ### Concrete instances used by the claim theorems -/

/-- The salary phrase of the specification example. -/
def c1Input : Txt := txt "от 150000 до 200000 руб"

/-- A text with two remote-positive phrases and one remote-negative phrase. -/
def c2Input : Txt := txt "remote wfh office"

/-- The position multiplier of the contact rule in the registry. -/
def contactRuleMult : Dy :=
  ((sectionRules.find? (fun r => r.sectionType = .contact)).map
    (fun r => r.positionScoreMultiplier)).getD fOne

/-- The contact rule itself, as found in the registry. -/
def contactRuleFound : SectionRule :=
  (sectionRules.find? (fun r => r.sectionType = .contact)).getD
    { sectionType := .contact }

/-- A concrete anchor pair for the conflict-resolution tie: equal scores, two
lines apart, distinct categories. -/
def c10AnchorA : SectionAnchor :=
  { sectionType := .requirements, lineNumber := 3, lineText := txt "требования",
    score := 70, confidence := .high }

/-- The later anchor of the tie. -/
def c10AnchorB : SectionAnchor :=
  { sectionType := .contact, lineNumber := 5, lineText := txt "контакты",
    score := 70, confidence := .high }

/-- First sentence fragment of the boundary example, 190 characters ending in
a period. -/
def c7Frag1 : Txt := 'A' :: (List.replicate 188 'a' ++ ['.'])

/-- Second fragment, exactly 20 characters. -/
def c7Frag2 : Txt := 'B' :: (List.replicate 18 'b' ++ ['.'])

/-- Third fragment, 30 characters. -/
def c7Frag3 : Txt := 'C' :: List.replicate 29 'c'

/-- The 242-character paragraph splitting into the three fragments. -/
def c7Text : Txt := c7Frag1 ++ ' ' :: (c7Frag2 ++ ' ' :: c7Frag3)

/-- The paragraph as a non-continuation item. -/
def c7Item : ListItem := { text := c7Text }

/-- A section holding only the long paragraph. -/
def c7Section : VacancySection := { stype := .requirements, content := [c7Item] }

/-- The deduplication key of a stored contact: lowercased, trimmed value. -/
def contactKey (c : ContactInfo) : Txt := pyStrip (pyLower c.value)

/-- Demo text for C8: the same telegram handle appears twice. -/
def c8Demo : Txt := txt "пишите hr @hr_bot или снова @hr_bot"

/-- Contact accumulator invariant: stored entries are pairwise distinct under
the case-insensitive trimmed key, and every stored key is in the seen set. -/
def ContactInv (st : List ContactInfo × List Txt) : Prop :=
  st.1.Pairwise (fun e1 e2 => contactKey e1 ≠ contactKey e2) ∧
  ∀ e ∈ st.1, contactKey e ∈ st.2

/-- Line-index order on anchors. -/
def anchorLe (a b : SectionAnchor) : Prop := a.lineNumber ≤ b.lineNumber

instance : DecidableRel anchorLe := fun x y => Nat.decLe x.lineNumber y.lineNumber

instance : IsTotal SectionAnchor anchorLe := ⟨fun x y => Nat.le_total x.lineNumber y.lineNumber⟩

instance : IsTrans SectionAnchor anchorLe := ⟨fun _ _ _ => Nat.le_trans⟩

/-- Invariant of the per-category dictionary: keys are distinct and each
stored anchor belongs to its key category. -/
def KeyedInv (m : List (SectionType × SectionAnchor)) : Prop :=
  (m.map (fun p => p.1)).Nodup ∧ ∀ p ∈ m, p.2.sectionType = p.1


/-- The content segmentation of a raw text, as performed by the parser:
sections of the normalized text split at the detected anchors. -/
def c4Sections (raw : Txt) : List VacancySection :=
  parseSectionContent (normalizeText raw) (detectSectionAnchors (normalizeText raw))

/-- Adjacent double-space check used by the collapse-pass analysis. -/
def noSS : Txt → Bool
  | a :: b :: r => (¬ (a = ' ' ∧ b = ' ')) && noSS (b :: r)
  | _ => true

/-- Consecutive-blank-line run bound mirrored from the blank-line cap. -/
def blanksOK : Nat → List Txt → Bool
  | _, [] => true
  | ec, l :: ls =>
    if stripBlank l then decide (ec + 1 ≤ 2) && blanksOK (ec + 1) ls
    else blanksOK 0 ls

/-- Line-list effect of the left strip of a joined text. -/
def lstripLines : List Txt → List Txt
  | [] => []
  | l :: ls => if stripBlank l then lstripLines ls else pyLstrip l :: ls

/-- Line-list effect of the right strip of a joined text. -/
def rstripLines : List Txt → List Txt
  | [] => []
  | l :: ls =>
    match rstripLines ls with
    | [] => if stripBlank l then [] else [pyRstrip l]
    | l2 :: ls2 => l :: l2 :: ls2

/-- C6 counterexample input: a doubled noise prefix. -/
def c6X : Txt := txt "вакансия: вакансия: python разработчик"

/-- C6 witness input: a canonical heading with one bullet. -/
def c6W : Txt := txt "Требования:
- опыт работы"

/-! ### Claim theorems -/

/-- C9: parsing the empty string returns an empty section list, the
empty-input warning, and low confidence; the parser is a total function, so no
exception can be raised. -/
theorem c9_empty_input_parse :
    (parseVacancy []).sections = [] ∧
    (parseVacancy []).warnings = [txt "Empty input text"] ∧
    (parseVacancy []).overallConfidence = .low :=
  ⟨rfl, rfl, rfl⟩

/-- C1 (code bug): on the text whose salary phrase is the explicit Russian
range, the range template cannot match, because its separator was written as a
character class of five single characters and so never matches the two letter
word; the from template fires instead, yielding only the lower bound. The
currency and period still resolve to RUB and month. -/
theorem c1_salary_range_eval :
    reSearch salaryRangeRE (pyLower c1Input) = none ∧
    parseSalaryText c1Input =
      some { min := some 150000, max := none, currency := txt "RUB",
             period := .month, gross := none, rawText := txt "от 150000" } := by
  constructor
  · rfl
  · rfl

/-- C2 (counterexample): a text with two remote-positive phrases, one
remote-negative phrase and no hybrid phrase: the claimed strict-majority rule
demands a positive answer, but the extractor returns unknown. -/
theorem c2_majority_counterexample :
    hybridIndicators.any (fun ind => containsSub ind (pyLower c2Input)) = false ∧
    remoteCount (pyLower c2Input) = 2 ∧
    officeCount (pyLower c2Input) = 1 ∧
    extractRemoteStatus c2Input = none := by
  refine ⟨rfl, rfl, rfl, rfl⟩

/-- C2 (amended): in the absence of hybrid phrases a side decides only when it
is unanimous: the result is remote exactly when some positive phrase occurs
and no negative phrase does, and on-site exactly when some negative phrase
occurs and no positive phrase does; every other combination, including any
mixed counts, is unknown. -/
theorem c2_remote_unanimity (t : Txt) :
    (extractRemoteStatus t = some true ↔
      (hybridIndicators.any (fun ind => containsSub ind (pyLower t)) = false ∧
        0 < remoteCount (pyLower t) ∧ officeCount (pyLower t) = 0)) ∧
    (extractRemoteStatus t = some false ↔
      (hybridIndicators.any (fun ind => containsSub ind (pyLower t)) = false ∧
        0 < officeCount (pyLower t) ∧ remoteCount (pyLower t) = 0)) := by
  unfold extractRemoteStatus
  by_cases hh : hybridIndicators.any (fun ind => containsSub ind (pyLower t)) = true
  · simp [hh]
  · simp only [Bool.not_eq_true] at hh
    by_cases hr : 0 < remoteCount (pyLower t) ∧ officeCount (pyLower t) = 0
    · simp [hh, hr]
    · by_cases ho : 0 < officeCount (pyLower t) ∧ remoteCount (pyLower t) = 0
      · simp [hh, hr, ho]
      · simp [hh, hr, ho]

/-- C2 (witness): the amended characterization applied at a concrete text
with one positive phrase and no negative phrase. -/
theorem c2_remote_unanimity_witness :
    extractRemoteStatus (txt "remote") = some true :=
  (c2_remote_unanimity (txt "remote")).1.mpr ⟨rfl, by decide, rfl⟩

set_option maxHeartbeats 1000000 in
/-- Bounded boost fact for the contact factor: multiplying a score of at most
three hundred by the binary64 value of two minus the contact multiplier and
truncating never decreases it. -/
theorem fTrunc_contact_boost :
    ∀ s : Nat, s ≤ 300 → s ≤ fTruncNat (fMul (dyNat s) (fSub fTwo fLit08)) := by
  decide

/-- C3 (counterexample): the contact rule has multiplier below one, and for a
line in the last thirty percent (line eight of ten) with raw score fifty the
position adjustment yields sixty: the factor of two minus the multiplier is
greater than one, so the match is boosted, not suppressed. -/
theorem c3_suppression_counterexample :
    dyLt contactRuleMult fOne = true ∧
    dyLt fLit07 (fDiv (dyNat 8) (dyNat (max 10 1))) = true ∧
    posAdjust contactRuleMult 8 10 50 = 60 ∧
    ¬ posAdjust contactRuleMult 8 10 50 ≤ 50 := by decide

/-- C3 (amended): for every registry rule with position multiplier below one
and every line and score (scores never exceed three hundred), the position
adjustment never lowers the score: the two-minus-multiplier factor exceeds
one, so late matches are boosted. -/
theorem c3_position_factor_boosts :
    ∀ rule ∈ sectionRules, dyLt rule.positionScoreMultiplier fOne = true →
      ∀ lineNum total score : Nat, score ≤ 300 →
        score ≤ posAdjust rule.positionScoreMultiplier lineNum total score := by
  intro rule hr hlt lineNum total score hs
  have hall : ∀ r ∈ sectionRules, dyLt r.positionScoreMultiplier fOne = true →
      r.positionScoreMultiplier = fLit08 := by decide
  have hmult : rule.positionScoreMultiplier = fLit08 := hall rule hr hlt
  rw [hmult, posAdjust]
  rw [if_pos (by decide : ¬ dyEq fLit08 fOne = true)]
  rw [if_neg (fun h => absurd h.1 (by decide))]
  by_cases hc : dyLt fLit07 (fDiv (dyNat lineNum) (dyNat (max total 1))) = true
  · rw [if_pos ⟨by decide, hc⟩]
    exact fTrunc_contact_boost score hs
  · rw [if_neg (fun h => hc h.2)]

/-- C3 (witness): the amended boost applied to the concrete contact-rule
counterexample configuration. -/
theorem c3_position_factor_boosts_witness :
    50 ≤ posAdjust contactRuleFound.positionScoreMultiplier 8 10 50 :=
  c3_position_factor_boosts contactRuleFound (by decide) (by decide) 8 10 50
    (by decide)

/-- C10: two category-best anchors within two lines of each other resolve in
favor of the earlier one unless the later has a strictly greater score; in
particular an exact tie keeps the earlier anchor. -/
theorem c10_merge_window_tiebreak (a b : SectionAnchor)
    (hty : a.sectionType ≠ b.sectionType)
    (hlt : a.lineNumber < b.lineNumber)
    (hnear : b.lineNumber - a.lineNumber ≤ 2) :
    resolveConflicts [a, b] = if a.score < b.score then [b] else [a] := by
  have hne : (decide (a.sectionType = b.sectionType)) = false := by
    simpa using hty
  rw [resolveConflicts]
  rw [if_neg (by simp)]
  have hfold : ([a, b].foldl typeToBestUpdate []).map (·.2) = [a, b] := by
    simp [typeToBestUpdate, hne]
  rw [hfold]
  have hsort : sortByLine [a, b] = [a, b] := by
    simp [sortByLine, insertByLine, Nat.le_of_lt hlt]
  rw [hsort]
  rw [mergeNearby, mergeNearby]
  rw [if_pos (by omega : ((b.lineNumber : ℤ) - (a.lineNumber : ℤ)).natAbs ≤ 2)]
  by_cases hs : a.score < b.score
  · rw [if_pos hs, if_pos hs, mergeNearby]
    rfl
  · rw [if_neg hs, if_neg hs, mergeNearby]
    rfl

/-- C10 (witness): an exact tie between two concrete anchors two lines apart
keeps the earlier one. -/
theorem c10_merge_window_tiebreak_witness :
    resolveConflicts [c10AnchorA, c10AnchorB] = [c10AnchorA] := by
  have h := c10_merge_window_tiebreak c10AnchorA c10AnchorB
    (by decide) (by decide) (by decide)
  simpa using h

/-- C7 (counterexample): the long paragraph splits into fragments of lengths
190, 20 and 30 at sentence boundaries, and the split is performed (two usable
fragments remain), yet the fragment of length exactly 20 is dropped — the
claim promises that every fragment of length at least 20 is kept. -/
theorem c7_boundary_counterexample :
    c7Item.isContinuation = false ∧ 200 < c7Item.text.length ∧
    sentenceSplitRaw c7Item.text = [c7Frag1, c7Frag2, c7Frag3] ∧
    c7Frag2.length = 20 ∧
    (splitLongParagraphs [c7Section]).map (fun s => s.content.map (·.text)) =
      [[c7Frag1, c7Frag3]] := by decide

/-- C7 (amended): in the long-paragraph pass a sentence fragment is kept
exactly when it is strictly longer than twenty characters; a non-continuation
item longer than two hundred characters is replaced by its surviving
fragments when at least two survive, and kept unchanged when fewer than two
survive. -/
theorem c7_split_amended :
    (∀ t f, f ∈ sentenceSplitRaw t → (f ∈ splitSentences t ↔ 20 < f.length)) ∧
    (∀ item : ListItem, item.isContinuation = false → 200 < item.text.length →
      (splitSentences item.text).length ≤ 1 → transformLongItem item = [item]) ∧
    (∀ item : ListItem, item.isContinuation = false → 200 < item.text.length →
      1 < (splitSentences item.text).length →
      transformLongItem item = (splitSentences item.text).filterMap
        (fun s => if ¬ stripBlank s then
          some { text := pyStrip s, isContinuation := false } else none)) := by
  refine ⟨?_, ?_, ?_⟩
  · intro t f hf
    constructor
    · intro hmem
      have := (List.mem_filter.mp hmem).2
      simpa using this
    · intro hlen
      exact List.mem_filter.mpr ⟨hf, by simpa using hlen⟩
  · intro item hc hl hle
    unfold transformLongItem
    rw [if_pos ⟨by simp [hc], hl⟩, if_neg (by omega)]
  · intro item hc hl hgt
    unfold transformLongItem
    rw [if_pos ⟨by simp [hc], hl⟩, if_pos hgt]

/-- C7 (witness): the amended statement applied to the concrete boundary
paragraph: the transform replaces it by the two surviving fragments. -/
theorem c7_split_amended_witness :
    transformLongItem c7Item =
      [{ text := c7Frag1 }, { text := c7Frag3 }] := by
  have h := c7_split_amended.2.2 c7Item rfl (by decide) (by decide)
  rw [h]
  decide


theorem toNat_ofNat_valid (n : Nat) (h : n < 0xd800) : (Char.ofNat n).toNat = n := by
  have hv : n.isValidChar := Or.inl h
  rw [Char.ofNat, dif_pos hv]
  simp [Char.ofNatAux, Char.toNat, UInt32.toNat]

theorem isPySpace_pyLowerChar (c : Char) :
    isPySpace (pyLowerChar c) = isPySpace c := by
  unfold pyLowerChar
  split_ifs with h1 h2 h3
  · show isPySpaceN (Char.ofNat (c.toNat + 32)).toNat = isPySpaceN c.toNat
    rw [toNat_ofNat_valid _ (by omega)]
    simp only [isPySpaceN, decide_eq_decide]
    omega
  · show isPySpaceN (Char.ofNat (c.toNat + 0x20)).toNat = isPySpaceN c.toNat
    rw [toNat_ofNat_valid _ (by omega)]
    simp only [isPySpaceN, decide_eq_decide]
    omega
  · show isPySpaceN (Char.ofNat (c.toNat + 0x50)).toNat = isPySpaceN c.toNat
    rw [toNat_ofNat_valid _ (by omega)]
    simp only [isPySpaceN, decide_eq_decide]
    omega
  · rfl

theorem pyLstrip_pyLower (t : Txt) :
    pyLstrip (pyLower t) = pyLower (pyLstrip t) := by
  unfold pyLstrip pyLower
  rw [List.dropWhile_map]
  rw [show (isPySpace ∘ pyLowerChar) = isPySpace from funext isPySpace_pyLowerChar]

theorem pyRstrip_pyLower (t : Txt) :
    pyRstrip (pyLower t) = pyLower (pyRstrip t) := by
  unfold pyRstrip pyLower List.rdropWhile
  rw [← List.map_reverse, List.dropWhile_map, List.map_reverse]
  rw [show (isPySpace ∘ pyLowerChar) = isPySpace from funext isPySpace_pyLowerChar]

theorem pyStrip_pyLower (t : Txt) :
    pyStrip (pyLower t) = pyLower (pyStrip t) := by
  unfold pyStrip
  rw [pyLstrip_pyLower, pyRstrip_pyLower]

theorem pyLstrip_head_not_space (t : Txt) (h : pyLstrip t ≠ []) :
    isPySpace ((pyLstrip t).head h) = false :=
  List.head_dropWhile_not isPySpace t h

theorem pyLstrip_pyStrip (t : Txt) : pyLstrip (pyStrip t) = pyStrip t := by
  unfold pyStrip
  rcases he : pyRstrip (pyLstrip t) with _ | ⟨c, rest⟩
  · rfl
  · have hpre : (pyRstrip (pyLstrip t)).IsPrefix (pyLstrip t) :=
      List.rdropWhile_prefix _ _
    rw [he] at hpre
    obtain ⟨tail, htail⟩ := hpre
    have hne : pyLstrip t ≠ [] := by
      rw [← htail]; simp
    have hheadc : (pyLstrip t).head hne = c := by
      rw [List.head_eq_iff_head?_eq_some, ← htail]
      simp
    have hnc : isPySpace c = false := by
      rw [← hheadc]; exact pyLstrip_head_not_space t hne
    simp [pyLstrip, List.dropWhile_cons, hnc]

theorem pyStrip_idem (t : Txt) : pyStrip (pyStrip t) = pyStrip t := by
  conv_lhs => rw [pyStrip, pyLstrip_pyStrip]
  conv_lhs => rw [pyStrip]
  exact List.rdropWhile_idempotent _ _

theorem addContact_key (ty : ContactType) (v : Txt) (lb : Option Txt) :
    contactKey { ctype := ty, value := pyStrip v, label := lb } =
      pyStrip (pyLower v) := by
  show pyStrip (pyLower (pyStrip v)) = pyStrip (pyLower v)
  rw [pyStrip_pyLower, pyStrip_idem, pyStrip_pyLower]

theorem addContact_inv (st : List ContactInfo × List Txt)
    (ty : ContactType) (v : Txt) (lb : Option Txt) (hinv : ContactInv st) :
    ContactInv (addContact st ty v lb) := by
  unfold addContact
  by_cases hmem : pyStrip (pyLower v) ∈ st.2
  · rw [if_pos (by simpa using hmem)]
    exact hinv
  · rw [if_neg (by simpa using hmem)]
    constructor
    · rw [List.pairwise_append]
      refine ⟨hinv.1, List.pairwise_singleton _ _, ?_⟩
      intro e he e2 he2
      rw [List.mem_singleton] at he2
      subst he2
      rw [addContact_key]
      intro hk
      exact hmem (hk ▸ hinv.2 e he)
    · intro e he
      rw [List.mem_append] at he
      rcases he with he | he
      · exact List.mem_append_left _ (hinv.2 e he)
      · rw [List.mem_singleton] at he
        subst he
        rw [addContact_key]
        exact List.mem_append_right _ (List.mem_singleton_self _)

theorem foldl_addContact_inv (cands : List (ContactType × Txt × Option Txt))
    (st : List ContactInfo × List Txt) (hinv : ContactInv st) :
    ContactInv (cands.foldl (fun st c => addContact st c.1 c.2.1 c.2.2) st) := by
  induction cands generalizing st with
  | nil => exact hinv
  | cons c rest ih => exact ih _ (addContact_inv _ _ _ _ hinv)

theorem foldl_texts_inv (texts : List Txt)
    (g : Txt → List (ContactType × Txt × Option Txt))
    (st : List ContactInfo × List Txt) (hinv : ContactInv st) :
    ContactInv (texts.foldl (fun st searchIn =>
      (g searchIn).foldl (fun st c => addContact st c.1 c.2.1 c.2.2) st) st) := by
  induction texts generalizing st with
  | nil => exact hinv
  | cons t rest ih => exact ih _ (foldl_addContact_inv _ _ hinv)

/-- C8: within one parse no two contact entries share the same
case-insensitive trimmed value, and for the demo text where the handle
@hr_bot occurs twice exactly one entry with that value is produced. -/
theorem c8_contact_dedup :
    (∀ text sections, (extractContacts text sections).Pairwise
      (fun e1 e2 => contactKey e1 ≠ contactKey e2)) ∧
    ((extractContacts c8Demo []).filter
      (fun c => c.value = txt "@hr_bot")).length = 1 := by
  constructor
  · intro text sections
    exact (foldl_texts_inv _ _ ([], [])
      ⟨List.Pairwise.nil, by intro e he; cases he⟩).1
  · decide

theorem insertByLine_eq (a : SectionAnchor) (l : List SectionAnchor) :
    insertByLine a l = List.orderedInsert anchorLe a l := by
  induction l with
  | nil => rfl
  | cons b bs ih =>
    by_cases h : a.lineNumber ≤ b.lineNumber
    · simp [insertByLine, List.orderedInsert, anchorLe, h]
    · simp [insertByLine, List.orderedInsert, anchorLe, h, ih]

theorem sortByLine_eq (l : List SectionAnchor) :
    sortByLine l = List.insertionSort anchorLe l := by
  induction l with
  | nil => rfl
  | cons a l ih =>
    show insertByLine a (sortByLine l) = _
    rw [List.insertionSort, insertByLine_eq, ih]

theorem sortByLine_sorted (l : List SectionAnchor) :
    (sortByLine l).Pairwise anchorLe := by
  rw [sortByLine_eq]
  exact List.sorted_insertionSort anchorLe l

theorem sortByLine_perm (l : List SectionAnchor) :
    (sortByLine l).Perm l := by
  rw [sortByLine_eq]
  exact List.perm_insertionSort anchorLe l

theorem typeToBestUpdate_inv (m : List (SectionType × SectionAnchor))
    (a : SectionAnchor) (h : KeyedInv m) : KeyedInv (typeToBestUpdate m a) := by
  unfold typeToBestUpdate
  by_cases hany : m.any (fun p => p.1 = a.sectionType) = true
  · rw [if_pos (by simpa using hany)]
    constructor
    · have hkeys : (m.map (fun p =>
          if p.1 = a.sectionType ∧ p.2.score < a.score then (p.1, a) else p)).map
            (fun p => p.1) = m.map (fun p => p.1) := by
        rw [List.map_map]
        refine List.map_congr_left ?_
        intro p _
        by_cases hc : p.1 = a.sectionType ∧ p.2.score < a.score
        · simp [hc]
        · simp [hc]
      rw [hkeys]
      exact h.1
    · intro p hp
      rw [List.mem_map] at hp
      obtain ⟨q, hq, hqe⟩ := hp
      by_cases hc : q.1 = a.sectionType ∧ q.2.score < a.score
      · rw [if_pos hc] at hqe
        subst hqe
        exact hc.1.symm
      · rw [if_neg hc] at hqe
        subst hqe
        exact h.2 q hq
  · rw [if_neg (by simpa using hany)]
    have hnot : a.sectionType ∉ m.map (fun p => p.1) := by
      intro hmem
      rw [List.mem_map] at hmem
      obtain ⟨q, hq, hqe⟩ := hmem
      exact hany (List.any_eq_true.mpr ⟨q, hq, by simpa using hqe⟩)
    constructor
    · rw [List.map_append]
      rw [List.nodup_append]
      refine ⟨h.1, List.nodup_singleton _, ?_⟩
      intro x hx hxs
      rw [List.map_singleton, List.mem_singleton] at hxs
      subst hxs
      exact hnot hx
    · intro p hp
      rw [List.mem_append] at hp
      rcases hp with hp | hp
      · exact h.2 p hp
      · rw [List.mem_singleton] at hp
        subst hp
        rfl

theorem foldl_typeToBestUpdate_inv (l : List SectionAnchor)
    (m : List (SectionType × SectionAnchor)) (h : KeyedInv m) :
    KeyedInv (l.foldl typeToBestUpdate m) := by
  induction l generalizing m with
  | nil => exact h
  | cons a rest ih => exact ih _ (typeToBestUpdate_inv m a h)

theorem keyedInv_vals_pairwise (m : List (SectionType × SectionAnchor))
    (h : KeyedInv m) : (m.map (fun p => p.2)).Pairwise
      (fun a b => a.sectionType ≠ b.sectionType) := by
  rw [List.pairwise_map]
  have hk : m.Pairwise (fun p q => p.1 ≠ q.1) := by
    have := h.1
    unfold List.Nodup at this
    rw [List.pairwise_map] at this
    exact this
  refine hk.imp_of_mem ?_
  intro p q hp hq hne
  rw [h.2 p hp, h.2 q hq]
  exact hne

theorem mergeNearby_sublist (l : List SectionAnchor) :
    ∀ acc, (mergeNearby acc l).Sublist (acc.reverse ++ l) := by
  induction l with
  | nil => intro acc; simp [mergeNearby]
  | cons a rest ih =>
    intro acc
    match acc with
    | [] => simpa [mergeNearby] using ih [a]
    | last :: accTail =>
      rw [mergeNearby]
      by_cases hnear : ((a.lineNumber : ℤ) - (last.lineNumber : ℤ)).natAbs ≤ 2
      · rw [if_pos hnear]
        by_cases hsc : last.score < a.score
        · rw [if_pos hsc]
          refine (ih (a :: accTail)).trans ?_
          simp only [List.reverse_cons, List.append_assoc]
          exact List.Sublist.append_left (List.Sublist.cons _ (List.Sublist.refl _)) _
        · rw [if_neg hsc]
          refine (ih (last :: accTail)).trans ?_
          simp only [List.reverse_cons, List.append_assoc]
          exact List.Sublist.append_left
            (List.Sublist.append_left (List.Sublist.cons _ (List.Sublist.refl _)) _) _
      · rw [if_neg hnear]
        simpa using ih (a :: (last :: accTail))

theorem pairwise_of_short (l : List SectionAnchor)
    (h : l.length ≤ 1) (R : SectionAnchor → SectionAnchor → Prop) :
    l.Pairwise R := by
  match l, h with
  | [], _ => exact List.Pairwise.nil
  | [a], _ => exact List.pairwise_singleton R a

theorem resolveConflicts_pairwise (l : List SectionAnchor) :
    (resolveConflicts l).Pairwise (fun a b => a.sectionType ≠ b.sectionType) := by
  unfold resolveConflicts
  by_cases hlen : l.length ≤ 1
  · rw [if_pos hlen]
    exact pairwise_of_short l hlen _
  · rw [if_neg hlen]
    have hvals := keyedInv_vals_pairwise _
      (foldl_typeToBestUpdate_inv l [] ⟨List.nodup_nil, by intro p hp; cases hp⟩)
    have hsorted := ((sortByLine_perm _).pairwise_iff
      (fun h => Ne.symm h)).mpr hvals
    exact hsorted.sublist (by simpa using mergeNearby_sublist _ [])

theorem pairwise_key_filter_len (key : SectionAnchor → SectionType)
    (t : SectionType) (l : List SectionAnchor)
    (h : l.Pairwise (fun a b => key a ≠ key b)) :
    (l.filter (fun a => key a = t)).length ≤ 1 := by
  induction l with
  | nil => simp
  | cons a rest ih =>
    rw [List.pairwise_cons] at h
    by_cases hk : key a = t
    · rw [List.filter_cons_of_pos (by simpa using hk)]
      have hrest : rest.filter (fun a => key a = t) = [] := by
        rw [List.filter_eq_nil_iff]
        intro b hb
        simp only [decide_eq_true_eq]
        intro hbt
        exact h.1 b hb (hk.trans hbt.symm)
      rw [hrest]
      simp
    · rw [List.filter_cons_of_neg (by simpa using hk)]
      exact ih h.2

/-- C5: the detected anchor list is sorted ascending by line index and holds
at most one anchor per section category. -/
theorem c5_anchor_invariants (nt : Txt) :
    (detectSectionAnchors nt).Pairwise anchorLe ∧
    ∀ t : SectionType, ((detectSectionAnchors nt).filter
      (fun a => a.sectionType = t)).length ≤ 1 := by
  have hp : (detectSectionAnchors nt).Pairwise
      (fun a b => a.sectionType ≠ b.sectionType) := by
    unfold detectSectionAnchors
    exact ((sortByLine_perm _).pairwise_iff
      (fun h => Ne.symm h)).mpr (resolveConflicts_pairwise _)
  constructor
  · unfold detectSectionAnchors
    exact sortByLine_sorted _
  · intro t
    exact pairwise_key_filter_len (fun a => a.sectionType) t _ hp

theorem head_eq_of_eq_cons {l : Txt} {c : Char} {cs : Txt}
    (h : l = c :: cs) (hne : l ≠ []) : l.head hne = c := by
  subst h
  rfl

theorem splitNl_ne_nil (t : Txt) : splitNl t ≠ [] := by
  match t with
  | [] => simp [splitNl]
  | c :: rest =>
    simp only [splitNl]
    by_cases hc : c = '\n'
    · rw [if_pos hc]; simp
    · rw [if_neg hc]
      cases h : splitNl rest <;> simp

theorem splitNl_head_cons (c : Char) (cs : Txt) (hc : c ≠ '\n') :
    ∃ l ls, splitNl (c :: cs) = (c :: l) :: ls := by
  cases hr : splitNl cs with
  | nil => exact absurd hr (splitNl_ne_nil cs)
  | cons l ls =>
    refine ⟨l, ls, ?_⟩
    simp only [splitNl]
    rw [if_neg hc, hr]

theorem pyStrip_head_not_space (s : Txt) (h : pyStrip s ≠ []) :
    isPySpace ((pyStrip s).head h) = false := by
  cases hls : pyLstrip s with
  | nil =>
    exfalso
    apply h
    show pyRstrip (pyLstrip s) = []
    rw [hls]
    rfl
  | cons c cs =>
    have hne2 : pyLstrip s ≠ [] := by rw [hls]; simp
    have hc : isPySpace c = false := by
      have hh := pyLstrip_head_not_space s hne2
      rw [head_eq_of_eq_cons hls hne2] at hh
      exact hh
    obtain ⟨tl, htl⟩ := List.rdropWhile_prefix isPySpace (pyLstrip s)
    have htl2 : pyStrip s ++ tl = c :: cs := by
      rw [← hls]
      exact htl
    have h1 : (pyStrip s).head? = some c := by
      have h2 := congrArg List.head? htl2
      rwa [List.head?_append_of_ne_nil _ h] at h2
    have h4 : (pyStrip s).head h = c :=
      Option.some.inj ((List.head?_eq_head h).symm.trans h1)
    rw [h4]
    exact hc

theorem stripBlank_false_of_head (c : Char) (cs : Txt)
    (hh : isPySpace c = false) : stripBlank (c :: cs) = false := by
  have hls : pyLstrip (c :: cs) = c :: cs := by
    show List.dropWhile isPySpace (c :: cs) = c :: cs
    rw [List.dropWhile_cons_of_neg (by simp [hh])]
  have hst : pyStrip (c :: cs) ≠ [] := by
    show pyRstrip (pyLstrip (c :: cs)) ≠ []
    rw [hls]
    intro hx
    rw [show pyRstrip (c :: cs) = List.rdropWhile isPySpace (c :: cs) from rfl,
      List.rdropWhile_eq_nil_iff] at hx
    have hcx := hx c (by simp)
    rw [hh] at hcx
    cases hcx
  simp [stripBlank, hst]

theorem firstLine_not_blank (t : Txt) (hne : t ≠ [])
    (hc0 : isPySpace (t.head hne) = false) :
    ∀ l ∈ (getLines t).head?, stripBlank l = false := by
  cases t with
  | nil => exact absurd rfl hne
  | cons c cs =>
    rw [List.head_cons] at hc0
    intro l hl
    have hcn : c ≠ '\n' := by
      intro hx
      subst hx
      exact absurd hc0 (by decide)
    obtain ⟨l2, ls, hsplit⟩ := splitNl_head_cons c cs hcn
    have hgl : getLines (c :: cs) = (c :: l2) :: ls := hsplit
    rw [hgl] at hl
    rw [List.head?_cons] at hl
    have : l = c :: l2 := by
      cases hl
      rfl
    subst this
    exact stripBlank_false_of_head c l2 hc0

theorem normalizeText_strip (t : Txt) (h : normalizeText t ≠ []) :
    ∃ s, normalizeText t = pyStrip s := by
  by_cases ht : t = []
  · exact absurd (by rw [ht]; rfl) h
  · exact ⟨_, by unfold normalizeText; rw [if_neg ht]⟩

theorem pliGo_ne_nil (lines : List Txt) :
    ∀ cur curBullet curIndent,
      (cur ≠ [] ∨ ∃ l ∈ lines, pyStrip l ≠ []) →
      pliGo cur curBullet curIndent lines ≠ [] := by
  induction lines with
  | nil =>
    intro cur b i h
    rcases h with h | ⟨l, hl, _⟩
    · simp [pliGo, h]
    · cases hl
  | cons line rest ih =>
    intro cur b i h
    simp only [pliGo]
    split_ifs with h1 h2 h3 h4 h5 h6 h7
    · simp
    · apply ih
      right
      rcases h with h | ⟨l, hl, hline⟩
      · exact absurd h h2
      · rcases List.mem_cons.mp hl with rfl | hl
        · exact absurd h1 hline
        · exact ⟨l, hl, hline⟩
    · intro hx
      exact ih [getBulletContent line] true (getIndentation line + 2)
        (Or.inl (by simp)) (List.append_eq_nil.mp hx).2
    · intro hx
      exact ih [getBulletContent line] true (getIndentation line + 2)
        (Or.inl (by simp)) (List.append_eq_nil.mp hx).2
    · exact ih (cur ++ [pyStrip line]) b i (Or.inl (by simp))
    · simp
    · exact ih (cur ++ [pyStrip line]) false i (Or.inl (by simp))
    · exact ih [pyStrip line] false (getIndentation line) (Or.inl (by simp))

theorem parseLinesToItems_ne_nil (lines : List Txt) (hne : lines ≠ [])
    (hx : ∃ l ∈ lines, pyStrip l ≠ []) : parseLinesToItems lines ≠ [] := by
  unfold parseLinesToItems
  rw [if_neg hne]
  exact pliGo_ne_nil lines [] false 0 (Or.inr hx)

set_option maxHeartbeats 1600000 in
theorem anchorAt_lineNumber (lines : List Txt) (total i : Nat) (a : SectionAnchor)
    (h : anchorAt lines total i = some a) : a.lineNumber = i := by
  unfold anchorAt at h
  split at h
  · cases h
  · cases hfb : findBestMatch (calcLineScores (lines.getD i []) i total
        (isPrevEmpty lines i) (isNextEmpty lines i)) with
    | none =>
      rw [hfb] at h
      cases h
    | some x =>
      obtain ⟨ty, sc, kw⟩ := x
      rw [hfb] at h
      injection h with h2
      subst h2
      rfl

theorem inAnchors_pairwise (lines : List Txt) (total : Nat) :
    ((List.range total).filterMap (anchorAt lines total)).Pairwise
      (fun x y => x.lineNumber ≠ y.lineNumber) := by
  rw [List.pairwise_filterMap]
  refine (List.pairwise_lt_range total).imp ?_
  intro i j hij x hx y hy
  rw [anchorAt_lineNumber lines total i x (Option.mem_def.mp hx),
    anchorAt_lineNumber lines total j y (Option.mem_def.mp hy)]
  omega

theorem inAnchors_lt_total (lines : List Txt) (total : Nat) :
    ∀ x ∈ (List.range total).filterMap (anchorAt lines total),
      x.lineNumber < total := by
  intro x hx
  rw [List.mem_filterMap] at hx
  obtain ⟨i, hi, hxi⟩ := hx
  rw [anchorAt_lineNumber lines total i x hxi]
  exact List.mem_range.mp hi

theorem typeToBestUpdate_vals_pred (P : SectionAnchor → Prop)
    (m : List (SectionType × SectionAnchor)) (a : SectionAnchor)
    (hm : ∀ p ∈ m, P p.2) (ha : P a) :
    ∀ p ∈ typeToBestUpdate m a, P p.2 := by
  intro p hp
  unfold typeToBestUpdate at hp
  by_cases hany : m.any (fun p => p.1 = a.sectionType) = true
  · rw [if_pos (by simpa using hany)] at hp
    rw [List.mem_map] at hp
    obtain ⟨q, hq, hqe⟩ := hp
    by_cases hc : q.1 = a.sectionType ∧ q.2.score < a.score
    · rw [if_pos hc] at hqe
      subst hqe
      exact ha
    · rw [if_neg hc] at hqe
      subst hqe
      exact hm q hq
  · rw [if_neg (by simpa using hany)] at hp
    rw [List.mem_append] at hp
    rcases hp with hp | hp
    · exact hm p hp
    · rw [List.mem_singleton] at hp
      subst hp
      exact ha

theorem foldl_typeToBestUpdate_vals_pred (P : SectionAnchor → Prop)
    (l : List SectionAnchor) :
    ∀ m, (∀ x ∈ l, P x) → (∀ p ∈ m, P p.2) →
      ∀ p ∈ l.foldl typeToBestUpdate m, P p.2 := by
  induction l with
  | nil =>
    intro m _ hm
    exact hm
  | cons a rest ih =>
    intro m hl hm
    exact ih _ (fun x hx => hl x (List.mem_cons_of_mem _ hx))
      (typeToBestUpdate_vals_pred P m a hm (hl a (List.mem_cons_self _ _)))

theorem resolveConflicts_mem_pred (P : SectionAnchor → Prop)
    (l : List SectionAnchor) (hl : ∀ x ∈ l, P x) :
    ∀ a ∈ resolveConflicts l, P a := by
  intro a ha
  unfold resolveConflicts at ha
  by_cases hlen : l.length ≤ 1
  · rw [if_pos hlen] at ha
    exact hl a ha
  · rw [if_neg hlen] at ha
    have h1 : a ∈ sortByLine ((l.foldl typeToBestUpdate []).map (fun p => p.2)) :=
      (mergeNearby_sublist _ []).subset (by simpa using ha)
    have h2 := (sortByLine_perm _).mem_iff.mp h1
    rw [List.mem_map] at h2
    obtain ⟨p, hp, hpe⟩ := h2
    rw [← hpe]
    exact foldl_typeToBestUpdate_vals_pred P l [] hl (by intro q hq; cases hq) p hp

theorem detectSectionAnchors_mem_pred (P : SectionAnchor → Prop) (nt : Txt)
    (hP : ∀ x ∈ (List.range (getLines nt).length).filterMap
      (anchorAt (getLines nt) (getLines nt).length), P x) :
    ∀ a ∈ detectSectionAnchors nt, P a := by
  intro a ha
  unfold detectSectionAnchors at ha
  exact resolveConflicts_mem_pred P _ hP a ((sortByLine_perm _).mem_iff.mp ha)

theorem pairwise_key_inj {l : List SectionAnchor}
    (h : l.Pairwise (fun x y => x.lineNumber ≠ y.lineNumber)) :
    ∀ a ∈ l, ∀ b ∈ l, a.lineNumber = b.lineNumber → a = b := by
  induction l with
  | nil =>
    intro a ha
    cases ha
  | cons c cs ih =>
    rw [List.pairwise_cons] at h
    intro a ha b hb heq
    rcases List.mem_cons.mp ha with rfl | ha2 <;>
      rcases List.mem_cons.mp hb with rfl | hb2
    · rfl
    · exact absurd heq (h.1 b hb2)
    · exact absurd heq.symm (h.1 a ha2)
    · exact ih h.2 a ha2 b hb2 heq

theorem detectSectionAnchors_lt_total (nt : Txt) :
    ∀ a ∈ detectSectionAnchors nt, a.lineNumber < (getLines nt).length :=
  detectSectionAnchors_mem_pred _ nt (inAnchors_lt_total _ _)

theorem detectSectionAnchors_strict (nt : Txt) :
    (detectSectionAnchors nt).Pairwise
      (fun x y => x.lineNumber < y.lineNumber) := by
  have hle : (detectSectionAnchors nt).Pairwise anchorLe := by
    unfold detectSectionAnchors
    exact sortByLine_sorted _
  have hmem : ∀ a ∈ detectSectionAnchors nt,
      a ∈ (List.range (getLines nt).length).filterMap
        (anchorAt (getLines nt) (getLines nt).length) :=
    detectSectionAnchors_mem_pred _ nt (fun x hx => hx)
  have hty : (detectSectionAnchors nt).Pairwise
      (fun a b => a.sectionType ≠ b.sectionType) := by
    unfold detectSectionAnchors
    exact ((sortByLine_perm _).pairwise_iff
      (fun h => Ne.symm h)).mpr (resolveConflicts_pairwise _)
  have hinj := pairwise_key_inj (inAnchors_pairwise (getLines nt) (getLines nt).length)
  have hne : (detectSectionAnchors nt).Pairwise
      (fun x y => x.lineNumber ≠ y.lineNumber) := by
    refine hty.imp_of_mem ?_
    intro a b ha hb hab heq
    exact hab (by rw [hinj a (hmem a ha) b (hmem b hb) heq])
  refine (hle.and hne).imp ?_
  intro a b hab
  exact Nat.lt_of_le_of_ne hab.1 hab.2

theorem gsb_ne_nil (a : SectionAnchor) (rest : List SectionAnchor) (total : Nat) :
    getSectionBoundaries (a :: rest) total ≠ [] := by
  cases rest <;> simp [getSectionBoundaries]

theorem gsb_cons_shape (a : SectionAnchor) (rest : List SectionAnchor) (total : Nat) :
    ∃ e tl, getSectionBoundaries (a :: rest) total = (a, a.lineNumber, e) :: tl := by
  cases rest with
  | nil => exact ⟨total - 1, [], rfl⟩
  | cons b r2 => exact ⟨b.lineNumber - 1, _, rfl⟩

theorem gsb_chain (total : Nat) :
    ∀ anchors : List SectionAnchor,
      anchors.Chain' (fun x y => x.lineNumber < y.lineNumber) →
      (getSectionBoundaries anchors total).Chain'
        (fun p q => q.2.1 = p.2.2 + 1) := by
  intro anchors
  induction anchors with
  | nil =>
    intro _
    simp [getSectionBoundaries]
  | cons a rest ih =>
    intro hch
    cases rest with
    | nil => simp [getSectionBoundaries]
    | cons b rest2 =>
      have hab : a.lineNumber < b.lineNumber := (List.chain'_cons.mp hch).1
      have htail := (List.chain'_cons.mp hch).2
      show List.Chain' _ ((a, a.lineNumber, b.lineNumber - 1) ::
        getSectionBoundaries (b :: rest2) total)
      rw [List.chain'_cons']
      refine ⟨?_, ih htail⟩
      intro q hq
      obtain ⟨e, tl, hshape⟩ := gsb_cons_shape b rest2 total
      rw [hshape, List.head?_cons] at hq
      have hq2 : q = (b, b.lineNumber, e) := by
        cases hq
        rfl
      subst hq2
      show b.lineNumber = b.lineNumber - 1 + 1
      omega

theorem gsb_last (total : Nat) :
    ∀ anchors : List SectionAnchor,
      ∀ p ∈ (getSectionBoundaries anchors total).getLast?, p.2.2 = total - 1 := by
  intro anchors
  induction anchors with
  | nil =>
    intro p hp
    simp [getSectionBoundaries] at hp
  | cons a rest ih =>
    cases rest with
    | nil =>
      intro p hp
      simp [getSectionBoundaries] at hp
      rw [← hp]
    | cons b rest2 =>
      intro p hp
      obtain ⟨e, tl, hshape⟩ := gsb_cons_shape b rest2 total
      rw [show getSectionBoundaries (a :: b :: rest2) total =
            (a, a.lineNumber, b.lineNumber - 1) ::
              getSectionBoundaries (b :: rest2) total from rfl,
          hshape, List.getLast?_cons_cons, ← hshape] at hp
      exact ih p hp

theorem gsb_bounds (total : Nat) :
    ∀ anchors : List SectionAnchor,
      anchors.Chain' (fun x y => x.lineNumber < y.lineNumber) →
      (∀ x ∈ anchors, x.lineNumber < total) →
      ∀ b ∈ getSectionBoundaries anchors total, b.2.1 ≤ b.2.2 := by
  intro anchors
  induction anchors with
  | nil =>
    intro _ _ b hb
    simp [getSectionBoundaries] at hb
  | cons a rest ih =>
    intro hch hlt b hb
    cases rest with
    | nil =>
      simp [getSectionBoundaries] at hb
      rw [hb]
      show a.lineNumber ≤ total - 1
      have := hlt a (List.mem_cons_self _ _)
      omega
    | cons c rest2 =>
      rw [show getSectionBoundaries (a :: c :: rest2) total =
            (a, a.lineNumber, c.lineNumber - 1) ::
              getSectionBoundaries (c :: rest2) total from rfl] at hb
      rcases List.mem_cons.mp hb with rfl | hb2
      · show a.lineNumber ≤ c.lineNumber - 1
        have := (List.chain'_cons.mp hch).1
        omega
      · exact ih (List.chain'_cons.mp hch).2
          (fun x hx => hlt x (List.mem_cons_of_mem _ hx)) b hb2

theorem parseSectionContent_nil_eq (nt : Txt) :
    parseSectionContent nt [] =
      (if parseLinesToItems (getLines nt) ≠ [] then
        [{ stype := .intro, title := [], content := parseLinesToItems (getLines nt),
           rawContent := nt, confidence := .low, startLine := 0,
           endLine := (getLines nt).length - 1 }]
      else []) := rfl

theorem parseSectionContent_cons_eq (nt : Txt) (a0 : SectionAnchor)
    (rest : List SectionAnchor) :
    parseSectionContent nt (a0 :: rest) =
      (if 0 < a0.lineNumber then
        (if parseLinesToItems ((getLines nt).take a0.lineNumber) ≠ [] then
          [{ stype := .intro, title := [],
             content := parseLinesToItems ((getLines nt).take a0.lineNumber),
             rawContent := joinNl ((getLines nt).take a0.lineNumber),
             confidence := .high, startLine := 0,
             endLine := a0.lineNumber - 1 }]
        else [])
      else []) ++
        (getSectionBoundaries (a0 :: rest) (getLines nt).length).map (fun b =>
          { stype := b.1.sectionType, title := b.1.lineText,
            content := parseLinesToItems
              ((((getLines nt).drop (b.2.1 + 1)).take (b.2.2 - b.2.1)).dropWhile
                isEmptyLine |>.rdropWhile isEmptyLine),
            rawContent := joinNl
              ((((getLines nt).drop (b.2.1 + 1)).take (b.2.2 - b.2.1)).dropWhile
                isEmptyLine |>.rdropWhile isEmptyLine),
            confidence := b.1.confidence, startLine := b.2.1,
            endLine := b.2.2 }) := rfl

theorem getLast?_cons_of_ne_nil {α : Type} (a : α) (l : List α) (h : l ≠ []) :
    (a :: l).getLast? = l.getLast? := by
  cases l with
  | nil => exact absurd rfl h
  | cons b bs => exact List.getLast?_cons_cons

theorem parseSectionContent_partition (nt : Txt) (anchors : List SectionAnchor)
    (hch : anchors.Chain' (fun x y => x.lineNumber < y.lineNumber))
    (hlt : ∀ a ∈ anchors, a.lineNumber < (getLines nt).length)
    (hfirst : anchors ≠ [] → ∀ l ∈ (getLines nt).head?, stripBlank l = false)
    (h : parseSectionContent nt anchors ≠ []) :
    (∀ s0 ∈ (parseSectionContent nt anchors).head?, s0.startLine = 0) ∧
    (parseSectionContent nt anchors).Chain'
      (fun p q => q.startLine = p.endLine + 1) ∧
    (∀ sN ∈ (parseSectionContent nt anchors).getLast?,
      sN.endLine = (getLines nt).length - 1) ∧
    (∀ sec ∈ parseSectionContent nt anchors, sec.startLine ≤ sec.endLine) := by
  cases anchors with
  | nil =>
    rw [parseSectionContent_nil_eq] at h ⊢
    by_cases hc : parseLinesToItems (getLines nt) ≠ []
    · rw [if_pos hc]
      refine ⟨by simp, by simp, by simp, by simp⟩
    · rw [if_neg hc] at h
      exact absurd rfl h
  | cons a0 rest =>
    have hf := hfirst (by simp)
    obtain ⟨e, tl, hshape⟩ := gsb_cons_shape a0 rest (getLines nt).length
    have hmne : ∀ {β : Type} (f : SectionAnchor × Nat × Nat → β),
        (getSectionBoundaries (a0 :: rest) (getLines nt).length).map f ≠ [] := by
      intro β f
      rw [hshape]
      simp
    rw [parseSectionContent_cons_eq]
    by_cases ha0 : 0 < a0.lineNumber
    · obtain ⟨l0, ls0, hl⟩ : ∃ l0 ls0, getLines nt = l0 :: ls0 := by
        cases hgl : getLines nt with
        | nil => exact absurd hgl (splitNl_ne_nil nt)
        | cons x xs => exact ⟨x, xs, rfl⟩
      have hl0 : stripBlank l0 = false := by
        apply hf
        rw [hl, List.head?_cons]
        rfl
      have hl0x : pyStrip l0 ≠ [] := by
        simpa [stripBlank] using hl0
      have htake : (getLines nt).take a0.lineNumber =
          l0 :: ls0.take (a0.lineNumber - 1) := by
        rw [hl]
        obtain ⟨m, hm⟩ : ∃ m, a0.lineNumber = m + 1 := ⟨a0.lineNumber - 1, by omega⟩
        rw [hm, List.take_succ_cons]
        simp
      have hintro : parseLinesToItems ((getLines nt).take a0.lineNumber) ≠ [] := by
        apply parseLinesToItems_ne_nil
        · rw [htake]
          simp
        · exact ⟨l0, by rw [htake]; simp, hl0x⟩
      rw [if_pos ha0, if_pos hintro, List.singleton_append]
      refine ⟨?_, ?_, ?_, ?_⟩
      · intro s0 hs0
        rw [List.head?_cons] at hs0
        rw [← Option.some.inj (Option.mem_def.mp hs0)]
      · rw [List.chain'_cons']
        constructor
        · intro q hq
          rw [List.head?_map, hshape, List.head?_cons] at hq
          simp only [Option.map_some'] at hq
          rw [← Option.some.inj (Option.mem_def.mp hq)]
          show a0.lineNumber = a0.lineNumber - 1 + 1
          omega
        · rw [List.chain'_map]
          exact gsb_chain (getLines nt).length (a0 :: rest) hch
      · intro sN hsN
        rw [getLast?_cons_of_ne_nil _ _ (hmne _), List.getLast?_map] at hsN
        cases hlast : (getSectionBoundaries (a0 :: rest)
            (getLines nt).length).getLast? with
        | none =>
          rw [hlast] at hsN
          simp at hsN
        | some p =>
          rw [hlast] at hsN
          simp only [Option.map_some'] at hsN
          rw [← Option.some.inj (Option.mem_def.mp hsN)]
          show p.2.2 = (getLines nt).length - 1
          exact gsb_last _ (a0 :: rest) p (by rw [hlast]; rfl)
      · intro sec hsec
        rw [List.mem_cons] at hsec
        rcases hsec with rfl | hsec
        · exact Nat.zero_le _
        · rw [List.mem_map] at hsec
          obtain ⟨b, hb, hbe⟩ := hsec
          rw [← hbe]
          show b.2.1 ≤ b.2.2
          exact gsb_bounds _ (a0 :: rest) hch hlt b hb
    · have ha00 : a0.lineNumber = 0 := by omega
      rw [if_neg ha0, List.nil_append]
      refine ⟨?_, ?_, ?_, ?_⟩
      · intro s0 hs0
        rw [List.head?_map, hshape, List.head?_cons] at hs0
        simp only [Option.map_some'] at hs0
        rw [← Option.some.inj (Option.mem_def.mp hs0)]
        show a0.lineNumber = 0
        exact ha00
      · rw [List.chain'_map]
        exact gsb_chain (getLines nt).length (a0 :: rest) hch
      · intro sN hsN
        rw [List.getLast?_map] at hsN
        cases hlast : (getSectionBoundaries (a0 :: rest)
            (getLines nt).length).getLast? with
        | none =>
          rw [hlast] at hsN
          simp at hsN
        | some p =>
          rw [hlast] at hsN
          simp only [Option.map_some'] at hsN
          rw [← Option.some.inj (Option.mem_def.mp hsN)]
          show p.2.2 = (getLines nt).length - 1
          exact gsb_last _ (a0 :: rest) p (by rw [hlast]; rfl)
      · intro sec hsec
        rw [List.mem_map] at hsec
        obtain ⟨b, hb, hbe⟩ := hsec
        rw [← hbe]
        show b.2.1 ≤ b.2.2
        exact gsb_bounds _ (a0 :: rest) hch hlt b hb

/-- C4: the sections produced by content segmentation partition the lines of
the normalized text exactly: when at least one section exists the first one
starts at line 0, each following section starts right after the previous one
ends, the last one ends at the final line, and every section spans a
well-formed range. -/
theorem c4_sections_partition (raw : Txt) (h : c4Sections raw ≠ []) :
    (∀ s0 ∈ (c4Sections raw).head?, s0.startLine = 0) ∧
    (c4Sections raw).Chain' (fun p q => q.startLine = p.endLine + 1) ∧
    (∀ sN ∈ (c4Sections raw).getLast?,
      sN.endLine = (getLines (normalizeText raw)).length - 1) ∧
    (∀ sec ∈ c4Sections raw, sec.startLine ≤ sec.endLine) := by
  have hch := (detectSectionAnchors_strict (normalizeText raw)).chain'
  have hlt := detectSectionAnchors_lt_total (normalizeText raw)
  have hfirst : detectSectionAnchors (normalizeText raw) ≠ [] →
      ∀ l ∈ (getLines (normalizeText raw)).head?, stripBlank l = false := by
    intro hanne
    have hntne : normalizeText raw ≠ [] := by
      intro hx
      rw [hx] at hanne
      exact hanne (by decide)
    obtain ⟨s, hs⟩ := normalizeText_strip raw hntne
    rw [hs]
    have hpne : pyStrip s ≠ [] := hs ▸ hntne
    exact firstLine_not_blank (pyStrip s) hpne (pyStrip_head_not_space s hpne)
  exact parseSectionContent_partition (normalizeText raw)
    (detectSectionAnchors (normalizeText raw)) hch hlt hfirst h

theorem c4_sections_partition_witness :
    c4Sections (txt "привет") ≠ [] ∧
    (c4Sections (txt "привет")).Chain' (fun p q => q.startLine = p.endLine + 1) :=
  ⟨by decide, (c4_sections_partition (txt "привет") (by decide)).2.1⟩

theorem joinNl_cons (l : Txt) (ls : List Txt) (h : ls ≠ []) :
    joinNl (l :: ls) = l ++ '\n' :: joinNl ls := by
  cases ls with
  | nil => exact absurd rfl h
  | cons a as => rfl

theorem joinNl_splitNl (t : Txt) : joinNl (splitNl t) = t := by
  induction t with
  | nil => rfl
  | cons c rest ih =>
    simp only [splitNl]
    by_cases hc : c = '\n'
    · rw [if_pos hc, joinNl_cons _ _ (splitNl_ne_nil rest), hc, ih]
      rfl
    · rw [if_neg hc]
      cases hr : splitNl rest with
      | nil => exact absurd hr (splitNl_ne_nil rest)
      | cons l ls =>
        rw [hr] at ih
        cases ls with
        | nil =>
          show joinNl [c :: l] = c :: rest
          show c :: l = c :: rest
          rw [show joinNl [l] = l from rfl] at ih
          rw [ih]
        | cons l2 ls2 =>
          rw [joinNl_cons l (l2 :: ls2) (by simp)] at ih
          show joinNl ((c :: l) :: l2 :: ls2) = c :: rest
          rw [joinNl_cons (c :: l) (l2 :: ls2) (by simp)]
          show c :: (l ++ '\n' :: joinNl (l2 :: ls2)) = c :: rest
          rw [ih]

theorem splitNl_no_nl (t : Txt) : ∀ l ∈ splitNl t, ∀ c ∈ l, ¬ c = '\n' := by
  induction t with
  | nil =>
    intro l hl c hc
    simp [splitNl] at hl
    subst hl
    cases hc
  | cons a rest ih =>
    intro l hl c hc
    simp only [splitNl] at hl
    by_cases ha : a = '\n'
    · rw [if_pos ha] at hl
      rcases List.mem_cons.mp hl with rfl | hl2
      · cases hc
      · exact ih l hl2 c hc
    · rw [if_neg ha] at hl
      cases hr : splitNl rest with
      | nil => exact absurd hr (splitNl_ne_nil rest)
      | cons l0 ls0 =>
        rw [hr] at hl
        rcases List.mem_cons.mp hl with rfl | hl2
        · rcases List.mem_cons.mp hc with rfl | hc2
          · exact ha
          · exact ih l0 (by rw [hr]; simp) c hc2
        · exact ih l (by rw [hr]; simp [hl2]) c hc

theorem mem_splitNl_sub (t : Txt) : ∀ l ∈ splitNl t, ∀ c ∈ l, c ∈ t := by
  induction t with
  | nil =>
    intro l hl c hc
    simp [splitNl] at hl
    subst hl
    cases hc
  | cons a rest ih =>
    intro l hl c hc
    simp only [splitNl] at hl
    by_cases ha : a = '\n'
    · rw [if_pos ha] at hl
      rcases List.mem_cons.mp hl with rfl | hl2
      · cases hc
      · exact List.mem_cons_of_mem _ (ih l hl2 c hc)
    · rw [if_neg ha] at hl
      cases hr : splitNl rest with
      | nil => exact absurd hr (splitNl_ne_nil rest)
      | cons l0 ls0 =>
        rw [hr] at hl
        rcases List.mem_cons.mp hl with rfl | hl2
        · rcases List.mem_cons.mp hc with rfl | hc2
          · exact List.mem_cons_self _ _
          · exact List.mem_cons_of_mem _ (ih l0 (by rw [hr]; simp) c hc2)
        · exact List.mem_cons_of_mem _ (ih l (by rw [hr]; simp [hl2]) c hc)

theorem mem_joinNl (ls : List Txt) (c : Char) (hc : c ∈ joinNl ls) :
    (∃ l ∈ ls, c ∈ l) ∨ c = '\n' := by
  induction ls with
  | nil => cases hc
  | cons l rest ih =>
    cases rest with
    | nil =>
      left
      exact ⟨l, List.mem_cons_self _ _, hc⟩
    | cons l2 rest2 =>
      rw [joinNl_cons _ _ (by simp)] at hc
      rcases List.mem_append.mp hc with hc1 | hc2
      · exact Or.inl ⟨l, List.mem_cons_self _ _, hc1⟩
      · rcases List.mem_cons.mp hc2 with rfl | hc3
        · exact Or.inr rfl
        · rcases ih hc3 with ⟨l3, hl3, hcl3⟩ | hnl
          · exact Or.inl ⟨l3, List.mem_cons_of_mem _ hl3, hcl3⟩
          · exact Or.inr hnl

theorem splitNl_single (l : Txt) (h : ∀ c ∈ l, ¬ c = '\n') : splitNl l = [l] := by
  induction l with
  | nil => rfl
  | cons c rest ih =>
    simp only [splitNl]
    rw [if_neg (h c (by simp)), ih (fun d hd => h d (by simp [hd]))]

theorem splitNl_append_nl (l t : Txt) (h : ∀ c ∈ l, ¬ c = '\n') :
    splitNl (l ++ '\n' :: t) = l :: splitNl t := by
  induction l with
  | nil =>
    show splitNl ('\n' :: t) = [] :: splitNl t
    simp [splitNl]
  | cons c rest ih =>
    show splitNl (c :: (rest ++ '\n' :: t)) = (c :: rest) :: splitNl t
    simp only [splitNl]
    rw [if_neg (h c (by simp)), ih (fun d hd => h d (by simp [hd]))]

theorem splitNl_joinNl (ls : List Txt) (hne : ls ≠ [])
    (hnl : ∀ l ∈ ls, ∀ c ∈ l, ¬ c = '\n') : splitNl (joinNl ls) = ls := by
  induction ls with
  | nil => exact absurd rfl hne
  | cons l rest ih =>
    cases rest with
    | nil =>
      show splitNl (joinNl [l]) = [l]
      exact splitNl_single l (hnl l (List.mem_cons_self _ _))
    | cons l2 rest2 =>
      rw [joinNl_cons _ _ (by simp),
        splitNl_append_nl _ _ (hnl l (List.mem_cons_self _ _)),
        ih (by simp) (fun a ha c hc => hnl a (List.mem_cons_of_mem _ ha) c hc)]

theorem rdropWhile_append (p : Char → Bool) (a b : Txt) :
    List.rdropWhile p (a ++ b) =
      if List.rdropWhile p b = [] then List.rdropWhile p a
      else a ++ List.rdropWhile p b := by
  unfold List.rdropWhile
  rw [List.reverse_append, List.dropWhile_append]
  by_cases hb : List.dropWhile p b.reverse = []
  · rw [if_pos (by simp [hb]), if_pos (by simp [hb])]
  · rw [if_neg (by simp [hb]), if_neg (by simp [hb]), List.reverse_append,
      List.reverse_reverse]

theorem mem_pyLstrip {c : Char} {t : Txt} (h : c ∈ pyLstrip t) : c ∈ t :=
  (List.dropWhile_sublist _).subset h

theorem mem_pyRstrip {c : Char} {t : Txt} (h : c ∈ pyRstrip t) : c ∈ t :=
  (List.rdropWhile_prefix isPySpace t).sublist.subset h

theorem mem_pyStrip {c : Char} {t : Txt} (h : c ∈ pyStrip t) : c ∈ t :=
  mem_pyLstrip (mem_pyRstrip h)

theorem replCr_cons (a : Char) (rest : Txt) :
    replCr (a :: rest) = (if a = '\x0d' then '\n' else a) :: replCr rest := by
  by_cases ha : a = '\x0d'
  · subst ha
    rw [if_pos rfl]
    conv_lhs => rw [replCr.eq_def]
    split
    · next r heq =>
      injection heq with h1 h2
      rw [h2]
    · next cc rr hgd heq =>
      injection heq with h1 h2
      exact absurd h1.symm (by simpa using hgd)
    · next heq => cases heq
  · rw [if_neg ha]
    conv_lhs => rw [replCr.eq_def]
    split
    · next r heq =>
      injection heq with h1 h2
      exact absurd h1 ha
    · next cc rr hgd heq =>
      injection heq with h1 h2
      rw [← h1, ← h2]
    · next heq => cases heq

theorem replCrlf_cons_ne (a : Char) (rest : Txt) (ha : ¬ a = '\x0d') :
    replCrlf (a :: rest) = a :: replCrlf rest := by
  conv_lhs => rw [replCrlf.eq_def]
  split
  · next r heq =>
    injection heq with h1 h2
    exact absurd h1 ha
  · next cc rr hgd heq =>
    injection heq with h1 h2
    rw [← h1, ← h2]
  · next heq => cases heq

theorem replCr_no_cr (t : Txt) : ∀ c ∈ replCr t, ¬ c = '\x0d' := by
  induction t with
  | nil =>
    intro c hc
    cases hc
  | cons a rest ih =>
    intro c hc
    rw [replCr_cons] at hc
    rcases List.mem_cons.mp hc with rfl | hc2
    · by_cases ha : a = '\x0d'
      · rw [if_pos ha]
        decide
      · rw [if_neg ha]
        exact ha
    · exact ih c hc2

theorem replCrlf_id (t : Txt) (h : ∀ c ∈ t, ¬ c = '\x0d') : replCrlf t = t := by
  induction t with
  | nil => rfl
  | cons a rest ih =>
    rw [replCrlf_cons_ne a rest (h a (List.mem_cons_self _ _)),
      ih (fun c hc => h c (List.mem_cons_of_mem _ hc))]

theorem replCr_id (t : Txt) (h : ∀ c ∈ t, ¬ c = '\x0d') : replCr t = t := by
  induction t with
  | nil => rfl
  | cons a rest ih =>
    rw [replCr_cons, if_neg (h a (List.mem_cons_self _ _)),
      ih (fun c hc => h c (List.mem_cons_of_mem _ hc))]

theorem normalizeLineEndings_id (t : Txt) (h : ∀ c ∈ t, ¬ c = '\x0d') :
    normalizeLineEndings t = t := by
  unfold normalizeLineEndings
  rw [replCrlf_id t h, replCr_id t h]

theorem normalizeLineEndings_no_cr (t : Txt) :
    ∀ c ∈ normalizeLineEndings t, ¬ c = '\x0d' :=
  replCr_no_cr (replCrlf t)

theorem foldlFilter_mem (chs : List Char) :
    ∀ (t : Txt) (c : Char),
      c ∈ chs.foldl (fun acc ch => acc.filter (fun d => ¬ d = ch)) t →
      c ∈ t ∧ chs.contains c = false := by
  induction chs with
  | nil =>
    intro t c hc
    exact ⟨hc, rfl⟩
  | cons ch rest ih =>
    intro t c hc
    obtain ⟨h1, h2⟩ := ih _ c hc
    obtain ⟨h3, h4⟩ := List.mem_filter.mp h1
    refine ⟨h3, ?_⟩
    simp only [List.contains_cons, Bool.or_eq_false_iff]
    constructor
    · simpa using h4
    · exact h2

theorem foldlFilter_id (chs : List Char) :
    ∀ t : Txt, (∀ c ∈ t, chs.contains c = false) →
      chs.foldl (fun acc ch => acc.filter (fun d => ¬ d = ch)) t = t := by
  induction chs with
  | nil =>
    intro t _
    rfl
  | cons ch rest ih =>
    intro t h
    show rest.foldl _ (t.filter (fun d => ¬ d = ch)) = t
    have hf : t.filter (fun d => ¬ d = ch) = t := by
      rw [List.filter_eq_self]
      intro a ha
      have := h a ha
      simp only [List.contains_cons, Bool.or_eq_false_iff] at this
      simpa using this.1
    rw [hf]
    apply ih
    intro c hc
    have := h c hc
    simp only [List.contains_cons, Bool.or_eq_false_iff] at this
    exact this.2

theorem removeZeroWidthChars_mem (t : Txt) (c : Char)
    (h : c ∈ removeZeroWidthChars t) :
    c ∈ t ∧ invisibleChars.contains c = false :=
  foldlFilter_mem invisibleChars t c h

theorem removeZeroWidthChars_id (t : Txt)
    (h : ∀ c ∈ t, invisibleChars.contains c = false) :
    removeZeroWidthChars t = t :=
  foldlFilter_id invisibleChars t h

theorem removeEmoji_mem (t : Txt) (c : Char) (h : c ∈ removeEmoji t) :
    c ∈ t ∧ isEmojiChar c = false := by
  obtain ⟨h1, h2⟩ := List.mem_filter.mp h
  exact ⟨h1, by simpa using h2⟩

theorem removeEmoji_id (t : Txt) (h : ∀ c ∈ t, isEmojiChar c = false) :
    removeEmoji t = t := by
  unfold removeEmoji
  rw [List.filter_eq_self]
  intro a ha
  simpa using h a ha

theorem noSS_tail (a : Char) (r : Txt) (h : noSS (a :: r) = true) :
    noSS r = true := by
  cases r with
  | nil => rfl
  | cons b r2 =>
    rw [show noSS (a :: b :: r2) = ((¬ (a = ' ' ∧ b = ' ')) && noSS (b :: r2))
      from rfl, Bool.and_eq_true] at h
    exact h.2

theorem noSS_cons_of (x : Char) (l : Txt)
    (h1 : ∀ c ∈ l.head?, ¬ c = ' ' ∨ ¬ x = ' ') (h2 : noSS l = true) :
    noSS (x :: l) = true := by
  cases l with
  | nil => rfl
  | cons b r =>
    rw [show noSS (x :: b :: r) = ((¬ (x = ' ' ∧ b = ' ')) && noSS (b :: r))
      from rfl]
    rw [Bool.and_eq_true]
    refine ⟨?_, h2⟩
    rcases h1 b rfl with hb | hx
    · simp [hb]
    · simp [hx]

theorem noSS_pair (x b : Char) (r : Txt) (h : noSS (x :: b :: r) = true) :
    ¬ (x = ' ' ∧ b = ' ') := by
  rw [show noSS (x :: b :: r) = ((¬ (x = ' ' ∧ b = ' ')) && noSS (b :: r))
    from rfl, Bool.and_eq_true] at h
  have h1 := h.1
  rw [decide_eq_true_eq] at h1
  exact h1

theorem cgo_true_head (t : Txt) :
    ∀ c ∈ (collapseSpacesGo true t).head?, ¬ c = ' ' := by
  induction t with
  | nil =>
    intro c hc
    cases hc
  | cons a r ih =>
    intro c hc
    by_cases ha : a = ' '
    · rw [show collapseSpacesGo true (a :: r) =
        (if a = ' ' then collapseSpacesGo true r
         else a :: collapseSpacesGo false r) from rfl, if_pos ha] at hc
      exact ih c hc
    · rw [show collapseSpacesGo true (a :: r) =
        (if a = ' ' then collapseSpacesGo true r
         else a :: collapseSpacesGo false r) from rfl, if_neg ha,
        List.head?_cons] at hc
      rw [← Option.some.inj (Option.mem_def.mp hc)]
      exact ha

theorem cgo_noSS (t : Txt) :
    noSS (collapseSpacesGo true t) = true ∧
    noSS (collapseSpacesGo false t) = true := by
  induction t with
  | nil => exact ⟨rfl, rfl⟩
  | cons a r ih =>
    by_cases ha : a = ' '
    · constructor
      · rw [show collapseSpacesGo true (a :: r) =
          (if a = ' ' then collapseSpacesGo true r
           else a :: collapseSpacesGo false r) from rfl, if_pos ha]
        exact ih.1
      · rw [show collapseSpacesGo false (a :: r) =
          (if a = ' ' then ' ' :: collapseSpacesGo true r
           else a :: collapseSpacesGo false r) from rfl, if_pos ha]
        refine noSS_cons_of _ _ ?_ ih.1
        intro c hc
        exact Or.inl (cgo_true_head r c hc)
    · constructor
      · rw [show collapseSpacesGo true (a :: r) =
          (if a = ' ' then collapseSpacesGo true r
           else a :: collapseSpacesGo false r) from rfl, if_neg ha]
        exact noSS_cons_of _ _ (fun c _ => Or.inr ha) ih.2
      · rw [show collapseSpacesGo false (a :: r) =
          (if a = ' ' then ' ' :: collapseSpacesGo true r
           else a :: collapseSpacesGo false r) from rfl, if_neg ha]
        exact noSS_cons_of _ _ (fun c _ => Or.inr ha) ih.2

theorem noSS_append_right (a b : Txt) (h : noSS (a ++ b) = true) :
    noSS b = true := by
  induction a with
  | nil => exact h
  | cons x a2 ih => exact ih (noSS_tail x (a2 ++ b) h)

theorem noSS_append_left (a b : Txt) (h : noSS (a ++ b) = true) :
    noSS a = true := by
  induction a with
  | nil => rfl
  | cons x a2 ih =>
    cases a2 with
    | nil => rfl
    | cons y r =>
      have hp := noSS_pair x y (r ++ b) h
      rw [show noSS (x :: y :: r) = ((¬ (x = ' ' ∧ y = ' ')) && noSS (y :: r))
        from rfl, Bool.and_eq_true]
      exact ⟨by simp only [decide_eq_true_eq]; exact hp,
        ih (noSS_tail x ((y :: r) ++ b) h)⟩

theorem noSS_dropWhile (p : Char → Bool) (t : Txt) (h : noSS t = true) :
    noSS (t.dropWhile p) = true :=
  noSS_append_right (t.takeWhile p) (t.dropWhile p)
    (by rw [List.takeWhile_append_dropWhile]; exact h)

theorem noSS_rdropWhile (p : Char → Bool) (t : Txt) (h : noSS t = true) :
    noSS (t.rdropWhile p) = true := by
  obtain ⟨sfx, hsfx⟩ := List.rdropWhile_prefix p t
  exact noSS_append_left _ sfx (by rw [hsfx]; exact h)

theorem noSS_pyStrip (t : Txt) (h : noSS t = true) : noSS (pyStrip t) = true :=
  noSS_rdropWhile isPySpace _ (noSS_dropWhile isPySpace t h)

theorem cgo_fix (t : Txt) (h : noSS t = true) :
    collapseSpacesGo false t = t ∧
    ((∀ c ∈ t.head?, ¬ c = ' ') → collapseSpacesGo true t = t) := by
  induction t with
  | nil => exact ⟨rfl, fun _ => rfl⟩
  | cons a r ih =>
    have htail := noSS_tail a r h
    by_cases ha : a = ' '
    · have hrfix : collapseSpacesGo true r = r := by
        cases r with
        | nil => rfl
        | cons b r2 =>
          refine ((ih htail).2) ?_
          intro c hc
          rw [List.head?_cons] at hc
          rw [← Option.some.inj (Option.mem_def.mp hc)]
          intro hb
          exact noSS_pair a b r2 h ⟨ha, hb⟩
      constructor
      · rw [show collapseSpacesGo false (a :: r) =
          (if a = ' ' then ' ' :: collapseSpacesGo true r
           else a :: collapseSpacesGo false r) from rfl, if_pos ha, hrfix, ha]
      · intro hh
        exact absurd ha (hh a rfl)
    · have hfix := (ih htail).1
      constructor
      · rw [show collapseSpacesGo false (a :: r) =
          (if a = ' ' then ' ' :: collapseSpacesGo true r
           else a :: collapseSpacesGo false r) from rfl, if_neg ha, hfix]
      · intro _
        rw [show collapseSpacesGo true (a :: r) =
          (if a = ' ' then collapseSpacesGo true r
           else a :: collapseSpacesGo false r) from rfl, if_neg ha, hfix]

theorem pyStrip_head?_not_space (s : Txt) :
    ∀ c ∈ (pyStrip s).head?, isPySpace c = false := by
  intro c hc
  cases hps : pyStrip s with
  | nil =>
    rw [hps] at hc
    cases hc
  | cons d r =>
    have hne : pyStrip s ≠ [] := by rw [hps]; simp
    have hh := pyStrip_head_not_space s hne
    rw [head_eq_of_eq_cons hps hne] at hh
    rw [hps, List.head?_cons] at hc
    rw [← Option.some.inj (Option.mem_def.mp hc)]
    exact hh

theorem pyRstrip_pyStrip (t : Txt) : pyRstrip (pyStrip t) = pyStrip t :=
  List.rdropWhile_idempotent _ _

theorem rdropWhile_pyStrip (t : Txt) :
    List.rdropWhile isPySpace (pyStrip t) = pyStrip t :=
  pyRstrip_pyStrip t

theorem nwl_eq (l : Txt) : normalizeWhitespaceLine l =
    (if pyStrip (collapseSpaces (l.drop (l.takeWhile isPySpace).length)) ≠ [] then
      l.takeWhile isPySpace ++
        pyStrip (collapseSpaces (l.drop (l.takeWhile isPySpace).length))
    else []) := rfl

theorem takeWhile_spaces_append (ind content : Txt)
    (ha : ∀ c ∈ ind, isPySpace c = true)
    (hh : ∀ c ∈ content.head?, isPySpace c = false) :
    (ind ++ content).takeWhile isPySpace = ind := by
  rw [List.takeWhile_append, if_pos (by rw [List.takeWhile_eq_self_iff.mpr ha])]
  cases content with
  | nil => simp
  | cons c r =>
    rw [List.takeWhile_cons_of_neg (by simp [hh c rfl]), List.append_nil]

theorem pyLstrip_spaces_append (ind content : Txt)
    (ha : ∀ c ∈ ind, isPySpace c = true) :
    pyLstrip (ind ++ content) = pyLstrip content := by
  show List.dropWhile isPySpace (ind ++ content) = _
  rw [List.dropWhile_append,
    if_pos (by rw [List.dropWhile_eq_nil_iff.mpr ha]; rfl)]
  rfl

theorem out_fix (ind c0 : Txt) (ha : ∀ c ∈ ind, isPySpace c = true)
    (hc : pyStrip (collapseSpaces c0) ≠ []) :
    normalizeWhitespaceLine (ind ++ pyStrip (collapseSpaces c0)) =
      ind ++ pyStrip (collapseSpaces c0) := by
  have hh := pyStrip_head?_not_space (collapseSpaces c0)
  have htw : (ind ++ pyStrip (collapseSpaces c0)).takeWhile isPySpace = ind :=
    takeWhile_spaces_append _ _ ha hh
  have hcol : collapseSpaces (pyStrip (collapseSpaces c0)) =
      pyStrip (collapseSpaces c0) :=
    (cgo_fix _ (noSS_pyStrip _ (cgo_noSS c0).2)).1
  have hstr : pyStrip (pyStrip (collapseSpaces c0)) = pyStrip (collapseSpaces c0) :=
    pyStrip_idem _
  rw [nwl_eq, htw, List.drop_left, hcol, hstr, if_pos hc]

theorem nwl_idem (l : Txt) :
    normalizeWhitespaceLine (normalizeWhitespaceLine l) =
      normalizeWhitespaceLine l := by
  by_cases hc : pyStrip (collapseSpaces (l.drop (l.takeWhile isPySpace).length)) = []
  · rw [nwl_eq l, if_neg (by simpa using hc)]
    rfl
  · rw [nwl_eq l, if_pos hc]
    exact out_fix _ _ (fun c hcm => List.mem_takeWhile_imp hcm) hc

theorem nwl_fixed_rstrip (l : Txt) (h : normalizeWhitespaceLine l = l) :
    pyRstrip l = l := by
  conv_lhs => rw [← h]
  conv_rhs => rw [← h]
  by_cases hc : pyStrip (collapseSpaces (l.drop (l.takeWhile isPySpace).length)) = []
  · rw [nwl_eq l, if_neg (by simpa using hc)]
    rfl
  · rw [nwl_eq l, if_pos hc]
    show List.rdropWhile isPySpace _ = _
    rw [rdropWhile_append]
    rw [if_neg (by rw [rdropWhile_pyStrip]; exact hc)]
    rw [rdropWhile_pyStrip]

theorem nwl_fixed_lstrip (l : Txt) (h : normalizeWhitespaceLine l = l) :
    normalizeWhitespaceLine (pyLstrip l) = pyLstrip l := by
  conv_lhs => rw [← h]
  conv_rhs => rw [← h]
  by_cases hc : pyStrip (collapseSpaces (l.drop (l.takeWhile isPySpace).length)) = []
  · rw [nwl_eq l, if_neg (by simpa using hc)]
    rfl
  · rw [nwl_eq l, if_pos hc,
      pyLstrip_spaces_append _ _ (fun c hcm => List.mem_takeWhile_imp hcm),
      pyLstrip_pyStrip]
    have := out_fix [] (l.drop (l.takeWhile isPySpace).length)
      (by intro c hcm; cases hcm) hc
    rw [List.nil_append] at this
    exact this

theorem pyStrip_spaces_append (ind t : Txt)
    (ha : ∀ c ∈ ind, isPySpace c = true) :
    pyStrip (ind ++ pyStrip t) = pyStrip t := by
  show pyRstrip (pyLstrip (ind ++ pyStrip t)) = pyStrip t
  rw [pyLstrip_spaces_append _ _ ha, pyLstrip_pyStrip, pyRstrip_pyStrip]

theorem nwl_fixed_blank (l : Txt) (h : normalizeWhitespaceLine l = l)
    (hb : stripBlank l = true) : l = [] := by
  by_cases hc : pyStrip (collapseSpaces (l.drop (l.takeWhile isPySpace).length)) = []
  · rw [← h, nwl_eq l, if_neg (by simpa using hc)]
  · exfalso
    have hl : l = l.takeWhile isPySpace ++
        pyStrip (collapseSpaces (l.drop (l.takeWhile isPySpace).length)) := by
      conv_lhs => rw [← h, nwl_eq l, if_pos hc]
    have hps : pyStrip l = [] := by
      unfold stripBlank at hb
      rwa [decide_eq_true_eq] at hb
    rw [hl, pyStrip_spaces_append _ _
      (fun c hcm => List.mem_takeWhile_imp hcm)] at hps
    exact hc hps

theorem blanksOK_mono : ∀ (ls : List Txt) (ec ec' : Nat), ec' ≤ ec →
    blanksOK ec ls = true → blanksOK ec' ls = true := by
  intro ls
  induction ls with
  | nil =>
    intro ec ec' _ _
    rfl
  | cons l ls ih =>
    intro ec ec' hle h
    by_cases hb : stripBlank l = true
    · rw [show blanksOK ec (l :: ls) =
        (if stripBlank l then decide (ec + 1 ≤ 2) && blanksOK (ec + 1) ls
         else blanksOK 0 ls) from rfl, if_pos hb, Bool.and_eq_true] at h
      rw [show blanksOK ec' (l :: ls) =
        (if stripBlank l then decide (ec' + 1 ≤ 2) && blanksOK (ec' + 1) ls
         else blanksOK 0 ls) from rfl, if_pos hb, Bool.and_eq_true]
      refine ⟨?_, ih _ _ (by omega) h.2⟩
      rw [decide_eq_true_eq] at h ⊢
      omega
    · rw [show blanksOK ec (l :: ls) =
        (if stripBlank l then decide (ec + 1 ≤ 2) && blanksOK (ec + 1) ls
         else blanksOK 0 ls) from rfl, if_neg hb] at h
      rw [show blanksOK ec' (l :: ls) =
        (if stripBlank l then decide (ec' + 1 ≤ 2) && blanksOK (ec' + 1) ls
         else blanksOK 0 ls) from rfl, if_neg hb]
      exact h

theorem blanksOK0_tail (l : Txt) (ls : List Txt)
    (h : blanksOK 0 (l :: ls) = true) : blanksOK 0 ls = true := by
  by_cases hb : stripBlank l = true
  · rw [show blanksOK 0 (l :: ls) =
      (if stripBlank l then decide (0 + 1 ≤ 2) && blanksOK (0 + 1) ls
       else blanksOK 0 ls) from rfl, if_pos hb, Bool.and_eq_true] at h
    exact blanksOK_mono ls 1 0 (by omega) h.2
  · rw [show blanksOK 0 (l :: ls) =
      (if stripBlank l then decide (0 + 1 ≤ 2) && blanksOK (0 + 1) ls
       else blanksOK 0 ls) from rfl, if_neg hb] at h
    exact h

theorem cap_fix : ∀ (ls : List Txt) (ec : Nat),
    (∀ l ∈ ls, stripBlank l = true → l = []) → blanksOK ec ls = true →
    capBlankLines ec ls = ls := by
  intro ls
  induction ls with
  | nil =>
    intro ec _ _
    rfl
  | cons l ls ih =>
    intro ec hbl h
    by_cases hb : stripBlank l = true
    · rw [show blanksOK ec (l :: ls) =
        (if stripBlank l then decide (ec + 1 ≤ 2) && blanksOK (ec + 1) ls
         else blanksOK 0 ls) from rfl, if_pos hb, Bool.and_eq_true] at h
      rw [show capBlankLines ec (l :: ls) =
        (if stripBlank l then
          (if ec + 1 ≤ 2 then [] :: capBlankLines (ec + 1) ls
           else capBlankLines (ec + 1) ls)
         else l :: capBlankLines 0 ls) from rfl, if_pos hb,
        if_pos (by have := h.1; rwa [decide_eq_true_eq] at this)]
      rw [ih _ (fun a ha hsb => hbl a (List.mem_cons_of_mem _ ha) hsb) h.2,
        hbl l (List.mem_cons_self _ _) hb]
    · rw [show blanksOK ec (l :: ls) =
        (if stripBlank l then decide (ec + 1 ≤ 2) && blanksOK (ec + 1) ls
         else blanksOK 0 ls) from rfl, if_neg hb] at h
      rw [show capBlankLines ec (l :: ls) =
        (if stripBlank l then
          (if ec + 1 ≤ 2 then [] :: capBlankLines (ec + 1) ls
           else capBlankLines (ec + 1) ls)
         else l :: capBlankLines 0 ls) from rfl, if_neg hb,
        ih _ (fun a ha hsb => hbl a (List.mem_cons_of_mem _ ha) hsb) h]

theorem cap_blanksOK : ∀ (ls : List Txt) (ec : Nat),
    blanksOK ec (capBlankLines ec ls) = true := by
  intro ls
  induction ls with
  | nil =>
    intro ec
    rfl
  | cons l ls ih =>
    intro ec
    by_cases hb : stripBlank l = true
    · rw [show capBlankLines ec (l :: ls) =
        (if stripBlank l then
          (if ec + 1 ≤ 2 then [] :: capBlankLines (ec + 1) ls
           else capBlankLines (ec + 1) ls)
         else l :: capBlankLines 0 ls) from rfl, if_pos hb]
      by_cases hc : ec + 1 ≤ 2
      · rw [if_pos hc]
        rw [show blanksOK ec ([] :: capBlankLines (ec + 1) ls) =
          (if stripBlank [] then
            decide (ec + 1 ≤ 2) && blanksOK (ec + 1) (capBlankLines (ec + 1) ls)
           else blanksOK 0 (capBlankLines (ec + 1) ls)) from rfl,
          if_pos (by rfl), Bool.and_eq_true]
        exact ⟨by rwa [decide_eq_true_eq], ih _⟩
      · rw [if_neg hc]
        exact blanksOK_mono _ _ _ (by omega) (ih (ec + 1))
    · rw [show capBlankLines ec (l :: ls) =
        (if stripBlank l then
          (if ec + 1 ≤ 2 then [] :: capBlankLines (ec + 1) ls
           else capBlankLines (ec + 1) ls)
         else l :: capBlankLines 0 ls) from rfl, if_neg hb]
      rw [show blanksOK ec (l :: capBlankLines 0 ls) =
        (if stripBlank l then
          decide (ec + 1 ≤ 2) && blanksOK (ec + 1) (capBlankLines 0 ls)
         else blanksOK 0 (capBlankLines 0 ls)) from rfl, if_neg hb]
      exact ih 0

theorem cap_mem : ∀ (ls : List Txt) (ec : Nat) (l : Txt),
    l ∈ capBlankLines ec ls → l = [] ∨ l ∈ ls := by
  intro ls
  induction ls with
  | nil =>
    intro ec l hl
    cases hl
  | cons a ls ih =>
    intro ec l hl
    by_cases hb : stripBlank a = true
    · rw [show capBlankLines ec (a :: ls) =
        (if stripBlank a then
          (if ec + 1 ≤ 2 then [] :: capBlankLines (ec + 1) ls
           else capBlankLines (ec + 1) ls)
         else a :: capBlankLines 0 ls) from rfl, if_pos hb] at hl
      by_cases hc : ec + 1 ≤ 2
      · rw [if_pos hc] at hl
        rcases List.mem_cons.mp hl with rfl | hl2
        · exact Or.inl rfl
        · rcases ih _ _ hl2 with h | h
          · exact Or.inl h
          · exact Or.inr (List.mem_cons_of_mem _ h)
      · rw [if_neg hc] at hl
        rcases ih _ _ hl with h | h
        · exact Or.inl h
        · exact Or.inr (List.mem_cons_of_mem _ h)
    · rw [show capBlankLines ec (a :: ls) =
        (if stripBlank a then
          (if ec + 1 ≤ 2 then [] :: capBlankLines (ec + 1) ls
           else capBlankLines (ec + 1) ls)
         else a :: capBlankLines 0 ls) from rfl, if_neg hb] at hl
      rcases List.mem_cons.mp hl with rfl | hl2
      · exact Or.inr (List.mem_cons_self _ _)
      · rcases ih _ _ hl2 with h | h
        · exact Or.inl h
        · exact Or.inr (List.mem_cons_of_mem _ h)

theorem cap_ne_nil_zero (l : Txt) (ls : List Txt) :
    capBlankLines 0 (l :: ls) ≠ [] := by
  by_cases hb : stripBlank l = true
  · rw [show capBlankLines 0 (l :: ls) =
      (if stripBlank l then
        (if 0 + 1 ≤ 2 then [] :: capBlankLines (0 + 1) ls
         else capBlankLines (0 + 1) ls)
       else l :: capBlankLines 0 ls) from rfl, if_pos hb,
      if_pos (by omega)]
    simp
  · rw [show capBlankLines 0 (l :: ls) =
      (if stripBlank l then
        (if 0 + 1 ≤ 2 then [] :: capBlankLines (0 + 1) ls
         else capBlankLines (0 + 1) ls)
       else l :: capBlankLines 0 ls) from rfl, if_neg hb]
    simp

theorem nwl_nil : normalizeWhitespaceLine [] = [] := rfl

theorem unifyBullets_fix (t : Txt)
    (hb : ∀ l ∈ splitNl t, unifyBulletLine l = l) : unifyBullets t = t := by
  unfold unifyBullets
  rw [show (splitNl t).map unifyBulletLine = (splitNl t).map id from
    List.map_congr_left (fun a ha => by rw [hb a ha]; rfl),
    List.map_id, joinNl_splitNl]

theorem removeDecorativeLines_fix (t : Txt)
    (hd : ∀ l ∈ splitNl t, isDecorativeLine l = false) :
    removeDecorativeLines t = t := by
  unfold removeDecorativeLines
  rw [List.filter_eq_self.mpr (fun a ha => by simp [hd a ha]), joinNl_splitNl]

theorem stripNoiseFirstLine_fix (t : Txt)
    (hn : noisePrefixes.find? (fun p =>
      startsWith (pyLower p) (pyLower ((splitNl t).headD []))) = none) :
    stripNoiseFirstLine t = t := by
  unfold stripNoiseFirstLine
  cases hsp : splitNl t with
  | nil => rfl
  | cons fl rest =>
    rw [hsp, List.headD_cons] at hn
    show joinNl ((match List.find? (fun p =>
        startsWith (pyLower p) (pyLower fl)) noisePrefixes with
      | some p => pyLstrip (List.drop (List.length p) fl)
      | none => fl) :: rest) = t
    rw [hn]
    show joinNl (fl :: rest) = t
    rw [← hsp, joinNl_splitNl]

theorem normalizeWhitespace_fix (t : Txt)
    (h7 : ∀ l ∈ splitNl t, normalizeWhitespaceLine l = l)
    (hcap : capBlankLines 0 (splitNl t) = splitNl t) :
    normalizeWhitespace t = t := by
  unfold normalizeWhitespace
  rw [show (splitNl t).map normalizeWhitespaceLine = (splitNl t).map id from
    List.map_congr_left (fun a ha => by rw [h7 a ha]; rfl),
    List.map_id, hcap, joinNl_splitNl]

theorem mem_collapseGo : ∀ (t : Txt) (b : Bool) (c : Char),
    c ∈ collapseSpacesGo b t → c ∈ t := by
  intro t
  induction t with
  | nil =>
    intro b c hc
    cases b <;> cases hc
  | cons a r ih =>
    intro b c hc
    by_cases ha : a = ' '
    · cases b
      · rw [show collapseSpacesGo false (a :: r) =
          (if a = ' ' then ' ' :: collapseSpacesGo true r
           else a :: collapseSpacesGo false r) from rfl, if_pos ha] at hc
        rcases List.mem_cons.mp hc with rfl | hc2
        · rw [ha]
          exact List.mem_cons_self _ _
        · exact List.mem_cons_of_mem _ (ih true c hc2)
      · rw [show collapseSpacesGo true (a :: r) =
          (if a = ' ' then collapseSpacesGo true r
           else a :: collapseSpacesGo false r) from rfl, if_pos ha] at hc
        exact List.mem_cons_of_mem _ (ih true c hc)
    · cases b
      · rw [show collapseSpacesGo false (a :: r) =
          (if a = ' ' then ' ' :: collapseSpacesGo true r
           else a :: collapseSpacesGo false r) from rfl, if_neg ha] at hc
        rcases List.mem_cons.mp hc with rfl | hc2
        · exact List.mem_cons_self _ _
        · exact List.mem_cons_of_mem _ (ih false c hc2)
      · rw [show collapseSpacesGo true (a :: r) =
          (if a = ' ' then collapseSpacesGo true r
           else a :: collapseSpacesGo false r) from rfl, if_neg ha] at hc
        rcases List.mem_cons.mp hc with rfl | hc2
        · exact List.mem_cons_self _ _
        · exact List.mem_cons_of_mem _ (ih false c hc2)

theorem matchNumbered_eq (line : Txt) : matchNumbered line =
    (if (line.drop (line.takeWhile isPySpace).length).takeWhile isDigitChar
        = [] then none
     else
       match (line.drop (line.takeWhile isPySpace).length).drop
           ((line.drop (line.takeWhile isPySpace).length).takeWhile
             isDigitChar).length with
       | c :: rest =>
         if c = '.' ∨ c = ')' ∨ c = ':' then
           some (line.takeWhile isPySpace, rest.dropWhile isPySpace)
         else none
       | [] => none) := rfl

theorem matchNumbered_mem (line ind rest : Txt)
    (h : matchNumbered line = some (ind, rest)) :
    (∀ c ∈ ind, c ∈ line) ∧ (∀ c ∈ rest, c ∈ line) := by
  rw [matchNumbered_eq] at h
  split at h
  · cases h
  · split at h
    · next c2 rest2 heq =>
      split at h
      · injection h with h2
        injection h2 with h3 h4
        subst h3
        subst h4
        constructor
        · intro c hc
          exact (List.takeWhile_sublist _).subset hc
        · intro c hc
          have hc2 : c ∈ c2 :: rest2 :=
            List.mem_cons_of_mem _ ((List.dropWhile_sublist _).subset hc)
          rw [← heq] at hc2
          exact (List.drop_sublist _ _).subset ((List.drop_sublist _ _).subset hc2)
      · cases h
    · cases h

theorem unifyBulletLine_eq (l : Txt) : unifyBulletLine l =
    (match bulletMarkers.find? (fun m => startsWith [m] (pyLstrip l)) with
     | some m => List.replicate (l.length - (pyLstrip l).length) ' ' ++
         '-' :: ' ' :: pyLstrip ((pyLstrip l).drop (List.length [m]))
     | none =>
       match matchNumbered l with
       | some (ind, rest) => ind ++ '-' :: ' ' :: rest
       | none => l) := rfl

theorem mem_unifyBulletLine (l : Txt) (c : Char) (h : c ∈ unifyBulletLine l) :
    c ∈ l ∨ c = ' ' ∨ c = '-' := by
  cases hfind : bulletMarkers.find? (fun m => startsWith [m] (pyLstrip l)) with
  | some m =>
    have heq : unifyBulletLine l =
        List.replicate (l.length - (pyLstrip l).length) ' ' ++
          '-' :: ' ' :: pyLstrip ((pyLstrip l).drop (List.length [m])) := by
      rw [unifyBulletLine_eq, hfind]
    rw [heq] at h
    rcases List.mem_append.mp h with h1 | h2
    · exact Or.inr (Or.inl (List.eq_of_mem_replicate h1))
    · rcases List.mem_cons.mp h2 with rfl | h3
      · exact Or.inr (Or.inr rfl)
      · rcases List.mem_cons.mp h3 with rfl | h4
        · exact Or.inr (Or.inl rfl)
        · exact Or.inl (mem_pyLstrip
            ((List.drop_sublist _ _).subset (mem_pyLstrip h4)))
  | none =>
    cases hmn : matchNumbered l with
    | none =>
      have heq : unifyBulletLine l = l := by
        rw [unifyBulletLine_eq, hfind, hmn]
      rw [heq] at h
      exact Or.inl h
    | some pr =>
      obtain ⟨ind, rest⟩ := pr
      have heq : unifyBulletLine l = ind ++ '-' :: ' ' :: rest := by
        rw [unifyBulletLine_eq, hfind, hmn]
      rw [heq] at h
      obtain ⟨hind, hrest⟩ := matchNumbered_mem l ind rest hmn
      rcases List.mem_append.mp h with h1 | h2
      · exact Or.inl (hind c h1)
      · rcases List.mem_cons.mp h2 with rfl | h3
        · exact Or.inr (Or.inr rfl)
        · rcases List.mem_cons.mp h3 with rfl | h4
          · exact Or.inr (Or.inl rfl)
          · exact Or.inl (hrest c h4)

theorem mem_nwl (l : Txt) (c : Char) (h : c ∈ normalizeWhitespaceLine l) :
    c ∈ l := by
  rw [nwl_eq] at h
  by_cases hc : pyStrip (collapseSpaces (l.drop (l.takeWhile isPySpace).length)) = []
  · rw [if_neg (by simpa using hc)] at h
    cases h
  · rw [if_pos hc] at h
    rcases List.mem_append.mp h with h1 | h2
    · exact (List.takeWhile_sublist _).subset h1
    · exact (List.drop_sublist _ _).subset
        (mem_collapseGo _ false c (mem_pyStrip h2))

theorem mem_stripNoise (t : Txt) (c : Char) (h : c ∈ stripNoiseFirstLine t) :
    c ∈ t ∨ c = '\n' := by
  unfold stripNoiseFirstLine at h
  cases hsp : splitNl t with
  | nil =>
    rw [hsp] at h
    exact Or.inl h
  | cons fl rest =>
    rw [hsp] at h
    have h2 : c ∈ joinNl ((match List.find? (fun p =>
        startsWith (pyLower p) (pyLower fl)) noisePrefixes with
      | some p => pyLstrip (List.drop (List.length p) fl)
      | none => fl) :: rest) := h
    rcases mem_joinNl _ c h2 with ⟨l, hl, hcl⟩ | hnl
    · rcases List.mem_cons.mp hl with rfl | hl2
      · cases hfind : List.find? (fun p =>
            startsWith (pyLower p) (pyLower fl)) noisePrefixes with
        | some p =>
          rw [hfind] at hcl
          have : c ∈ fl := (List.drop_sublist _ _).subset (mem_pyLstrip hcl)
          exact Or.inl (mem_splitNl_sub t fl (by rw [hsp]; simp) c this)
        | none =>
          rw [hfind] at hcl
          exact Or.inl (mem_splitNl_sub t fl (by rw [hsp]; simp) c hcl)
      · exact Or.inl (mem_splitNl_sub t l (by rw [hsp]; simp [hl2]) c hcl)
    · exact Or.inr hnl

theorem mem_normalizeWhitespace (t : Txt) (c : Char)
    (h : c ∈ normalizeWhitespace t) : c ∈ t ∨ c = '\n' := by
  unfold normalizeWhitespace at h
  rcases mem_joinNl _ c h with ⟨l, hl, hcl⟩ | hnl
  · rcases cap_mem _ _ _ hl with rfl | hl2
    · cases hcl
    · rw [List.mem_map] at hl2
      obtain ⟨l0, hl0, hle⟩ := hl2
      rw [← hle] at hcl
      exact Or.inl (mem_splitNl_sub t l0 hl0 c (mem_nwl l0 c hcl))
  · exact Or.inr hnl

theorem mem_removeDecorative (t : Txt) (c : Char)
    (h : c ∈ removeDecorativeLines t) : c ∈ t ∨ c = '\n' := by
  unfold removeDecorativeLines at h
  rcases mem_joinNl _ c h with ⟨l, hl, hcl⟩ | hnl
  · exact Or.inl (mem_splitNl_sub t l (List.mem_of_mem_filter hl) c hcl)
  · exact Or.inr hnl

theorem mem_unifyBullets (t : Txt) (c : Char) (h : c ∈ unifyBullets t) :
    c ∈ t ∨ c = ' ' ∨ c = '-' ∨ c = '\n' := by
  unfold unifyBullets at h
  rcases mem_joinNl _ c h with ⟨l, hl, hcl⟩ | hnl
  · rw [List.mem_map] at hl
    obtain ⟨l0, hl0, hle⟩ := hl
    rw [← hle] at hcl
    rcases mem_unifyBulletLine l0 c hcl with h1 | h2 | h3
    · exact Or.inl (mem_splitNl_sub t l0 hl0 c h1)
    · exact Or.inr (Or.inl h2)
    · exact Or.inr (Or.inr (Or.inl h3))
  · exact Or.inr (Or.inr (Or.inr hnl))

theorem normalizeText_goodChar (x : Txt) :
    ∀ c ∈ normalizeText x,
      ¬ c = '\x0d' ∧ invisibleChars.contains c = false ∧
        isEmojiChar c = false := by
  intro c hc
  unfold normalizeText at hc
  by_cases hx : x = []
  · rw [if_pos hx] at hc
    cases hc
  · rw [if_neg hx] at hc
    have good4 : ∀ d ∈ removeEmoji (removeZeroWidthChars
        (normalizeLineEndings (nfcNormalize x))),
        ¬ d = '\x0d' ∧ invisibleChars.contains d = false ∧
          isEmojiChar d = false := by
      intro d hd
      obtain ⟨hd3, hem⟩ := removeEmoji_mem _ d hd
      obtain ⟨hd2, hinv⟩ := removeZeroWidthChars_mem _ d hd3
      exact ⟨normalizeLineEndings_no_cr _ d hd2, hinv, hem⟩
    have good5 : ∀ d ∈ unifyBullets (removeEmoji (removeZeroWidthChars
        (normalizeLineEndings (nfcNormalize x)))),
        ¬ d = '\x0d' ∧ invisibleChars.contains d = false ∧
          isEmojiChar d = false := by
      intro d hd
      rcases mem_unifyBullets _ d hd with h1 | h2 | h3 | h4
      · exact good4 d h1
      · rw [h2]
        refine ⟨by decide, by decide, by decide⟩
      · rw [h3]
        refine ⟨by decide, by decide, by decide⟩
      · rw [h4]
        refine ⟨by decide, by decide, by decide⟩
    have good6 : ∀ d ∈ removeDecorativeLines (unifyBullets (removeEmoji
        (removeZeroWidthChars (normalizeLineEndings (nfcNormalize x))))),
        ¬ d = '\x0d' ∧ invisibleChars.contains d = false ∧
          isEmojiChar d = false := by
      intro d hd
      rcases mem_removeDecorative _ d hd with h1 | h2
      · exact good5 d h1
      · rw [h2]
        refine ⟨by decide, by decide, by decide⟩
    have good7 : ∀ d ∈ normalizeWhitespace (removeDecorativeLines (unifyBullets
        (removeEmoji (removeZeroWidthChars (normalizeLineEndings
          (nfcNormalize x)))))),
        ¬ d = '\x0d' ∧ invisibleChars.contains d = false ∧
          isEmojiChar d = false := by
      intro d hd
      rcases mem_normalizeWhitespace _ d hd with h1 | h2
      · exact good6 d h1
      · rw [h2]
        refine ⟨by decide, by decide, by decide⟩
    have good8 : ∀ d ∈ stripNoiseFirstLine (normalizeWhitespace
        (removeDecorativeLines (unifyBullets (removeEmoji (removeZeroWidthChars
          (normalizeLineEndings (nfcNormalize x))))))),
        ¬ d = '\x0d' ∧ invisibleChars.contains d = false ∧
          isEmojiChar d = false := by
      intro d hd
      rcases mem_stripNoise _ d hd with h1 | h2
      · exact good7 d h1
      · rw [h2]
        refine ⟨by decide, by decide, by decide⟩
    exact good8 c (mem_pyStrip hc)

theorem stripBlank_iff_all (l : Txt) :
    stripBlank l = true ↔ ∀ c ∈ l, isPySpace c = true := by
  unfold stripBlank
  rw [decide_eq_true_eq]
  constructor
  · intro h c hc
    rw [show pyStrip l = List.rdropWhile isPySpace (List.dropWhile isPySpace l)
      from rfl, List.rdropWhile_eq_nil_iff] at h
    rw [← List.takeWhile_append_dropWhile isPySpace l] at hc
    rcases List.mem_append.mp hc with h1 | h2
    · exact List.mem_takeWhile_imp h1
    · exact h c h2
  · intro h
    rw [show pyStrip l = List.rdropWhile isPySpace (List.dropWhile isPySpace l)
      from rfl, List.rdropWhile_eq_nil_iff]
    intro c hc
    exact h c ((List.dropWhile_sublist _).subset hc)

theorem pyLstrip_eq_nil_iff (l : Txt) :
    pyLstrip l = [] ↔ ∀ c ∈ l, isPySpace c = true := List.dropWhile_eq_nil_iff

theorem pyRstrip_eq_nil_iff (l : Txt) :
    pyRstrip l = [] ↔ ∀ c ∈ l, isPySpace c = true := List.rdropWhile_eq_nil_iff

theorem pyLstrip_idem (t : Txt) : pyLstrip (pyLstrip t) = pyLstrip t :=
  List.dropWhile_idempotent _ _

theorem stripBlank_pyLstrip (l : Txt) :
    stripBlank (pyLstrip l) = stripBlank l := by
  unfold stripBlank
  rw [show pyStrip (pyLstrip l) =
    pyRstrip (pyLstrip (pyLstrip l)) from rfl, pyLstrip_idem]
  rfl

theorem mem_joinNl_of (ls : List Txt) (l : Txt) (c : Char)
    (hl : l ∈ ls) (hc : c ∈ l) : c ∈ joinNl ls := by
  induction ls with
  | nil => cases hl
  | cons a rest ih =>
    cases rest with
    | nil =>
      rw [List.mem_singleton] at hl
      subst hl
      exact hc
    | cons b rest2 =>
      rw [joinNl_cons _ _ (by simp)]
      rcases List.mem_cons.mp hl with rfl | hl2
      · exact List.mem_append_left _ hc
      · exact List.mem_append_right _ (List.mem_cons_of_mem _ (ih hl2))

theorem rdrop_fix_append (p : Char → Bool) (a b : Txt)
    (h : List.rdropWhile p (a ++ b) = a ++ b) :
    List.rdropWhile p b = b := by
  rw [rdropWhile_append] at h
  by_cases hb : List.rdropWhile p b = []
  · rw [if_pos hb] at h
    have hlen : (List.rdropWhile p a).length ≤ a.length :=
      (List.rdropWhile_prefix p a).length_le
    have : b = [] := by
      have := congrArg List.length h
      rw [List.length_append] at this
      have hb0 : b.length = 0 := by omega
      exact List.length_eq_zero.mp hb0
    rw [this] at hb ⊢
    exact hb
  · rw [if_neg hb] at h
    exact List.append_cancel_left h

theorem pyLstrip_head?_not_space (t : Txt) :
    ∀ c ∈ (pyLstrip t).head?, isPySpace c = false := by
  intro c hc
  cases hps : pyLstrip t with
  | nil =>
    rw [hps] at hc
    cases hc
  | cons d r =>
    have hne : pyLstrip t ≠ [] := by rw [hps]; simp
    have hh := pyLstrip_head_not_space t hne
    rw [head_eq_of_eq_cons hps hne] at hh
    rw [hps, List.head?_cons] at hc
    rw [← Option.some.inj (Option.mem_def.mp hc)]
    exact hh

theorem rstripLines_nil_iff (ls : List Txt) :
    rstripLines ls = [] ↔ ∀ l ∈ ls, stripBlank l = true := by
  induction ls with
  | nil => simp [rstripLines]
  | cons l ls ih =>
    cases hr : rstripLines ls with
    | nil =>
      rw [show rstripLines (l :: ls) =
        (match rstripLines ls with
         | [] => if stripBlank l then [] else [pyRstrip l]
         | l2 :: ls2 => l :: l2 :: ls2) from rfl, hr]
      by_cases hb : stripBlank l = true
      · simp only [if_pos hb]
        constructor
        · intro _ a ha
          rcases List.mem_cons.mp ha with rfl | ha2
          · exact hb
          · exact ih.mp hr a ha2
        · intro _
          trivial
      · simp only [if_neg hb]
        constructor
        · intro hx
          cases hx
        · intro hall
          exact absurd (hall l (List.mem_cons_self _ _)) hb
    | cons l2 ls2 =>
      rw [show rstripLines (l :: ls) =
        (match rstripLines ls with
         | [] => if stripBlank l then [] else [pyRstrip l]
         | l2 :: ls2 => l :: l2 :: ls2) from rfl, hr]
      constructor
      · intro hx
        cases hx
      · intro hall
        have : rstripLines ls = [] :=
          ih.mpr (fun a ha => hall a (List.mem_cons_of_mem _ ha))
        rw [hr] at this
        cases this

theorem lstrip_join (ls : List Txt) :
    pyLstrip (joinNl ls) = joinNl (lstripLines ls) := by
  induction ls with
  | nil => rfl
  | cons l rest ih =>
    cases rest with
    | nil =>
      show pyLstrip l = joinNl (lstripLines [l])
      rw [show lstripLines [l] =
        (if stripBlank l then lstripLines [] else pyLstrip l :: []) from rfl]
      by_cases hb : stripBlank l = true
      · rw [if_pos hb]
        exact (pyLstrip_eq_nil_iff l).mpr ((stripBlank_iff_all l).mp hb)
      · rw [if_neg hb]
        rfl
    | cons l2 rest2 =>
      rw [joinNl_cons _ _ (by simp),
        show lstripLines (l :: l2 :: rest2) =
          (if stripBlank l then lstripLines (l2 :: rest2)
           else pyLstrip l :: l2 :: rest2) from rfl]
      by_cases hb : stripBlank l = true
      · rw [if_pos hb]
        show List.dropWhile isPySpace (l ++ '\n' :: joinNl (l2 :: rest2)) = _
        rw [List.dropWhile_append,
          if_pos (by
            rw [List.dropWhile_eq_nil_iff.mpr ((stripBlank_iff_all l).mp hb)]
            rfl),
          List.dropWhile_cons_of_pos (by decide)]
        exact ih
      · rw [if_neg hb]
        show List.dropWhile isPySpace (l ++ '\n' :: joinNl (l2 :: rest2)) = _
        have hld : List.dropWhile isPySpace l ≠ [] := by
          intro hx
          exact hb ((stripBlank_iff_all l).mpr (List.dropWhile_eq_nil_iff.mp hx))
        rw [List.dropWhile_append, if_neg (by simpa using hld)]
        conv_rhs => rw [joinNl_cons (pyLstrip l) (l2 :: rest2) (by simp)]
        rfl

theorem rstrip_join (ls : List Txt)
    (hnl : ∀ l ∈ ls, ∀ c ∈ l, ¬ c = '\n') :
    pyRstrip (joinNl ls) = joinNl (rstripLines ls) := by
  induction ls with
  | nil => rfl
  | cons l rest ih =>
    cases rest with
    | nil =>
      show pyRstrip l = joinNl (rstripLines [l])
      rw [show rstripLines [l] =
        (match rstripLines [] with
         | [] => if stripBlank l then [] else [pyRstrip l]
         | l2 :: ls2 => l :: l2 :: ls2) from rfl]
      by_cases hb : stripBlank l = true
      · rw [show rstripLines ([] : List Txt) = [] from rfl, if_pos hb]
        exact (pyRstrip_eq_nil_iff l).mpr ((stripBlank_iff_all l).mp hb)
      · rw [show rstripLines ([] : List Txt) = [] from rfl, if_neg hb]
        rfl
    | cons l2 rest2 =>
      have ihr := ih (fun a ha c hc => hnl a (List.mem_cons_of_mem _ ha) c hc)
      rw [joinNl_cons _ _ (by simp)]
      by_cases hall : ∀ a ∈ l2 :: rest2, stripBlank a = true
      · have hrnil : rstripLines (l2 :: rest2) = [] :=
          (rstripLines_nil_iff _).mpr hall
        have hsp : ∀ c ∈ '\n' :: joinNl (l2 :: rest2), isPySpace c = true := by
          intro c hc
          rcases List.mem_cons.mp hc with rfl | hc2
          · decide
          · rcases mem_joinNl _ c hc2 with ⟨a, ha, hca⟩ | hnlc
            · exact (stripBlank_iff_all a).mp (hall a ha) c hca
            · rw [hnlc]
              decide
        show List.rdropWhile isPySpace (l ++ '\n' :: joinNl (l2 :: rest2)) = _
        rw [rdropWhile_append,
          if_pos (List.rdropWhile_eq_nil_iff.mpr hsp),
          show rstripLines (l :: l2 :: rest2) =
            (match rstripLines (l2 :: rest2) with
             | [] => if stripBlank l then [] else [pyRstrip l]
             | a :: b => l :: a :: b) from rfl, hrnil]
        by_cases hb : stripBlank l = true
        · rw [if_pos hb]
          exact (pyRstrip_eq_nil_iff l).mpr ((stripBlank_iff_all l).mp hb)
        · rw [if_neg hb]
          rfl
      · have hex : ∃ a ∈ l2 :: rest2, ¬ stripBlank a = true := by
          by_contra hx
          push_neg at hx
          exact hall (fun a ha => hx a ha)
        obtain ⟨a, ha, hba⟩ := hex
        obtain ⟨c, hca, hcs⟩ : ∃ c ∈ a, isPySpace c = false := by
          by_contra hx
          push_neg at hx
          exact hba ((stripBlank_iff_all a).mpr
            (fun d hd => by simpa using hx d hd))
        have hjne : List.rdropWhile isPySpace (joinNl (l2 :: rest2)) ≠ [] := by
          intro hx
          rw [List.rdropWhile_eq_nil_iff] at hx
          rw [hx c (mem_joinNl_of _ a c ha hca)] at hcs
          cases hcs
        have hbne : List.rdropWhile isPySpace ('\n' :: joinNl (l2 :: rest2)) ≠ [] := by
          intro hx
          rw [List.rdropWhile_eq_nil_iff] at hx
          rw [hx c (List.mem_cons_of_mem _ (mem_joinNl_of _ a c ha hca))] at hcs
          cases hcs
        show List.rdropWhile isPySpace (l ++ '\n' :: joinNl (l2 :: rest2)) = _
        rw [rdropWhile_append, if_neg hbne]
        have hsplit : List.rdropWhile isPySpace ('\n' :: joinNl (l2 :: rest2)) =
            '\n' :: List.rdropWhile isPySpace (joinNl (l2 :: rest2)) := by
          rw [show ('\n' :: joinNl (l2 :: rest2) : Txt) =
            ['\n'] ++ joinNl (l2 :: rest2) from rfl, rdropWhile_append,
            if_neg hjne]
          rfl
        rw [hsplit]
        have hrcons : ∃ b bs, rstripLines (l2 :: rest2) = b :: bs := by
          cases hrc : rstripLines (l2 :: rest2) with
          | nil =>
            exact absurd ((rstripLines_nil_iff _).mp hrc) (by
              intro hx
              exact hba (hx a ha))
          | cons b bs => exact ⟨b, bs, rfl⟩
        obtain ⟨b, bs, hrc⟩ := hrcons
        rw [show rstripLines (l :: l2 :: rest2) =
          (match rstripLines (l2 :: rest2) with
           | [] => if stripBlank l then [] else [pyRstrip l]
           | a :: b => l :: a :: b) from rfl, hrc,
          joinNl_cons l (b :: bs) (by simp), ← hrc]
        show l ++ '\n' :: pyRstrip (joinNl (l2 :: rest2)) = _
        rw [ihr]

theorem lstripLines_mem (ls : List Txt) (l : Txt) (h : l ∈ lstripLines ls) :
    l ∈ ls ∨ ∃ l0 ∈ ls, l = pyLstrip l0 := by
  induction ls with
  | nil => cases h
  | cons a rest ih =>
    rw [show lstripLines (a :: rest) =
      (if stripBlank a then lstripLines rest else pyLstrip a :: rest)
      from rfl] at h
    by_cases hb : stripBlank a = true
    · rw [if_pos hb] at h
      rcases ih h with h1 | ⟨l0, hl0, he⟩
      · exact Or.inl (List.mem_cons_of_mem _ h1)
      · exact Or.inr ⟨l0, List.mem_cons_of_mem _ hl0, he⟩
    · rw [if_neg hb] at h
      rcases List.mem_cons.mp h with rfl | h2
      · exact Or.inr ⟨a, List.mem_cons_self _ _, rfl⟩
      · exact Or.inl (List.mem_cons_of_mem _ h2)

theorem rstripLines_mem (ls : List Txt) (l : Txt) (h : l ∈ rstripLines ls) :
    l ∈ ls ∨ ∃ l0 ∈ ls, l = pyRstrip l0 := by
  induction ls with
  | nil => cases h
  | cons a rest ih =>
    rw [show rstripLines (a :: rest) =
      (match rstripLines rest with
       | [] => if stripBlank a then [] else [pyRstrip a]
       | l2 :: ls2 => a :: l2 :: ls2) from rfl] at h
    cases hr : rstripLines rest with
    | nil =>
      rw [hr] at h
      by_cases hb : stripBlank a = true
      · rw [if_pos hb] at h
        cases h
      · rw [if_neg hb] at h
        rw [List.mem_singleton] at h
        subst h
        exact Or.inr ⟨a, List.mem_cons_self _ _, rfl⟩
    | cons l2 ls2 =>
      rw [hr] at h
      rcases List.mem_cons.mp h with rfl | h2
      · exact Or.inl (List.mem_cons_self _ _)
      · rw [← hr] at h2
        rcases ih h2 with h3 | ⟨l0, hl0, he⟩
        · exact Or.inl (List.mem_cons_of_mem _ h3)
        · exact Or.inr ⟨l0, List.mem_cons_of_mem _ hl0, he⟩

theorem blanksOK_prefix : ∀ (l1 l2 : List Txt) (ec : Nat),
    blanksOK ec (l1 ++ l2) = true → blanksOK ec l1 = true := by
  intro l1
  induction l1 with
  | nil =>
    intro l2 ec _
    rfl
  | cons a rest ih =>
    intro l2 ec h
    by_cases hb : stripBlank a = true
    · rw [show blanksOK ec ((a :: rest) ++ l2) =
        (if stripBlank a then decide (ec + 1 ≤ 2) && blanksOK (ec + 1) (rest ++ l2)
         else blanksOK 0 (rest ++ l2)) from rfl, if_pos hb,
        Bool.and_eq_true] at h
      rw [show blanksOK ec (a :: rest) =
        (if stripBlank a then decide (ec + 1 ≤ 2) && blanksOK (ec + 1) rest
         else blanksOK 0 rest) from rfl, if_pos hb, Bool.and_eq_true]
      exact ⟨h.1, ih _ _ h.2⟩
    · rw [show blanksOK ec ((a :: rest) ++ l2) =
        (if stripBlank a then decide (ec + 1 ≤ 2) && blanksOK (ec + 1) (rest ++ l2)
         else blanksOK 0 (rest ++ l2)) from rfl, if_neg hb] at h
      rw [show blanksOK ec (a :: rest) =
        (if stripBlank a then decide (ec + 1 ≤ 2) && blanksOK (ec + 1) rest
         else blanksOK 0 rest) from rfl, if_neg hb]
      exact ih _ _ h

theorem lstripLines_blanksOK : ∀ (ls : List Txt) (ec : Nat),
    blanksOK ec ls = true → blanksOK 0 (lstripLines ls) = true := by
  intro ls
  induction ls with
  | nil =>
    intro ec _
    rfl
  | cons a rest ih =>
    intro ec h
    rw [show lstripLines (a :: rest) =
      (if stripBlank a then lstripLines rest else pyLstrip a :: rest)
      from rfl]
    by_cases hb : stripBlank a = true
    · rw [if_pos hb]
      rw [show blanksOK ec (a :: rest) =
        (if stripBlank a then decide (ec + 1 ≤ 2) && blanksOK (ec + 1) rest
         else blanksOK 0 rest) from rfl, if_pos hb, Bool.and_eq_true] at h
      exact ih _ h.2
    · rw [if_neg hb]
      rw [show blanksOK ec (a :: rest) =
        (if stripBlank a then decide (ec + 1 ≤ 2) && blanksOK (ec + 1) rest
         else blanksOK 0 rest) from rfl, if_neg hb] at h
      rw [show blanksOK 0 (pyLstrip a :: rest) =
        (if stripBlank (pyLstrip a) then
          decide (0 + 1 ≤ 2) && blanksOK (0 + 1) rest
         else blanksOK 0 rest) from rfl, stripBlank_pyLstrip, if_neg hb]
      exact h

theorem rstripLines_prefix_of_fix : ∀ ls : List Txt,
    (∀ l ∈ ls, pyRstrip l = l) → (rstripLines ls).IsPrefix ls := by
  intro ls
  induction ls with
  | nil =>
    intro _
    exact List.prefix_refl _
  | cons a rest ih =>
    intro hfix
    rw [show rstripLines (a :: rest) =
      (match rstripLines rest with
       | [] => if stripBlank a then [] else [pyRstrip a]
       | l2 :: ls2 => a :: l2 :: ls2) from rfl]
    cases hr : rstripLines rest with
    | nil =>
      by_cases hb : stripBlank a = true
      · rw [if_pos hb]
        exact List.nil_prefix
      · rw [if_neg hb, hfix a (List.mem_cons_self _ _)]
        exact ⟨rest, rfl⟩
    | cons l2 ls2 =>
      have := ih (fun l hl => hfix l (List.mem_cons_of_mem _ hl))
      rw [hr] at this
      obtain ⟨t, ht⟩ := this
      exact ⟨t, by rw [List.cons_append, ht]⟩

theorem nwl_fix_canonical (u : Txt)
    (hh : ∀ c ∈ u.head?, isPySpace c = false)
    (hss : noSS u = true)
    (hl : List.dropWhile isPySpace u = u)
    (hr : List.rdropWhile isPySpace u = u) :
    normalizeWhitespaceLine u = u := by
  cases u with
  | nil => rfl
  | cons a r =>
    have htw : (a :: r).takeWhile isPySpace = [] :=
      List.takeWhile_cons_of_neg (by simp [hh a rfl])
    have hcol : collapseSpaces (a :: r) = a :: r := (cgo_fix _ hss).1
    have hstr : pyStrip (a :: r) = a :: r := by
      show pyRstrip (pyLstrip (a :: r)) = a :: r
      rw [show pyLstrip (a :: r) = List.dropWhile isPySpace (a :: r) from rfl,
        hl]
      exact hr
    rw [nwl_eq, htw]
    simp only [List.length_nil, List.drop_zero]
    rw [show collapseSpaces (a :: r) = a :: r from hcol, hstr]
    rw [if_pos (by simp)]
    rfl

theorem nwl_fixed_lstrip_drop (l : Txt) (k : Nat)
    (h : normalizeWhitespaceLine l = l) :
    normalizeWhitespaceLine (pyLstrip (l.drop k)) = pyLstrip (l.drop k) := by
  by_cases hc : pyStrip (collapseSpaces (l.drop (l.takeWhile isPySpace).length)) = []
  · have hl0 : l = [] := by
      conv_lhs => rw [← h, nwl_eq, if_neg (by simpa using hc)]
    subst hl0
    rw [List.drop_nil]
    rfl
  · have hl : l = l.takeWhile isPySpace ++
        pyStrip (collapseSpaces (l.drop (l.takeWhile isPySpace).length)) := by
      conv_lhs => rw [← h, nwl_eq, if_pos hc]
    have hkey : pyLstrip (l.drop k) =
        pyLstrip ((pyStrip (collapseSpaces
          (l.drop (l.takeWhile isPySpace).length))).drop
            (k - (l.takeWhile isPySpace).length)) := by
      conv_lhs => rw [hl]
      rw [List.drop_append_eq_append_drop]
      exact pyLstrip_spaces_append _ _ (fun c hcm =>
        List.mem_takeWhile_imp ((List.drop_sublist _ _).subset hcm))
    rw [hkey]
    have hcss : noSS (pyStrip (collapseSpaces
        (l.drop (l.takeWhile isPySpace).length))) = true :=
      noSS_pyStrip _ (cgo_noSS _).2
    have hcr : List.rdropWhile isPySpace (pyStrip (collapseSpaces
        (l.drop (l.takeWhile isPySpace).length))) = pyStrip (collapseSpaces
        (l.drop (l.takeWhile isPySpace).length)) := rdropWhile_pyStrip _
    set c' := pyStrip (collapseSpaces (l.drop (l.takeWhile isPySpace).length))
      with hc'
    set j := k - (l.takeWhile isPySpace).length with hj
    apply nwl_fix_canonical
    · exact pyLstrip_head?_not_space _
    · exact noSS_dropWhile _ _ (noSS_append_right (c'.take j) (c'.drop j)
        (by rw [List.take_append_drop]; exact hcss))
    · exact List.dropWhile_idempotent _ _
    · have h1 : List.rdropWhile isPySpace (c'.drop j) = c'.drop j :=
        rdrop_fix_append isPySpace (c'.take j) (c'.drop j)
          (by rw [List.take_append_drop]; exact hcr)
      exact rdrop_fix_append isPySpace ((c'.drop j).takeWhile isPySpace)
        ((c'.drop j).dropWhile isPySpace)
        (by rw [List.takeWhile_append_dropWhile]; exact h1)

theorem good_list_strip (ls : List Txt)
    (hfix : ∀ l ∈ ls, normalizeWhitespaceLine l = l)
    (hnl : ∀ l ∈ ls, ∀ c ∈ l, ¬ c = '\n')
    (hbk : blanksOK 0 ls = true)
    (hne : ls ≠ []) :
    ∀ t, t = pyStrip (stripNoiseFirstLine (joinNl ls)) → t ≠ [] →
      (∀ l ∈ splitNl t, normalizeWhitespaceLine l = l) ∧
      capBlankLines 0 (splitNl t) = splitNl t := by
  cases ls with
  | nil => exact absurd rfl hne
  | cons fl rest =>
    intro t ht htne
    have hround : splitNl (joinNl (fl :: rest)) = fl :: rest :=
      splitNl_joinNl _ (by simp) hnl
    have hs8 : ∃ nf, stripNoiseFirstLine (joinNl (fl :: rest)) =
        joinNl (nf :: rest) ∧ normalizeWhitespaceLine nf = nf ∧
        (∀ c ∈ nf, c ∈ fl) := by
      cases hfind : noisePrefixes.find? (fun p =>
          startsWith (pyLower p) (pyLower fl)) with
      | none =>
        refine ⟨fl, ?_, hfix fl (by simp), fun c hc => hc⟩
        unfold stripNoiseFirstLine
        rw [hround]
        show joinNl ((match noisePrefixes.find? (fun p =>
            startsWith (pyLower p) (pyLower fl)) with
          | some p => pyLstrip (List.drop (List.length p) fl)
          | none => fl) :: rest) = _
        rw [hfind]
      | some p =>
        refine ⟨pyLstrip (fl.drop p.length), ?_, ?_, ?_⟩
        · unfold stripNoiseFirstLine
          rw [hround]
          show joinNl ((match noisePrefixes.find? (fun p =>
              startsWith (pyLower p) (pyLower fl)) with
            | some p => pyLstrip (List.drop (List.length p) fl)
            | none => fl) :: rest) = _
          rw [hfind]
        · exact nwl_fixed_lstrip_drop fl p.length (hfix fl (by simp))
        · intro c hc
          exact (List.drop_sublist _ _).subset (mem_pyLstrip hc)
    obtain ⟨nf, hs8eq, hnffix, hnfsub⟩ := hs8
    rw [hs8eq] at ht
    have hnl9 : ∀ l ∈ nf :: rest, ∀ c ∈ l, ¬ c = '\n' := by
      intro l hl c hc
      rcases List.mem_cons.mp hl with rfl | hl2
      · exact hnl fl (by simp) c (hnfsub c hc)
      · exact hnl l (by simp [hl2]) c hc
    have hfix9 : ∀ l ∈ nf :: rest, normalizeWhitespaceLine l = l := by
      intro l hl
      rcases List.mem_cons.mp hl with rfl | hl2
      · exact hnffix
      · exact hfix l (by simp [hl2])
    have hstrip : t = joinNl (rstripLines (lstripLines (nf :: rest))) := by
      rw [ht]
      show pyRstrip (pyLstrip (joinNl (nf :: rest))) = _
      rw [lstrip_join, rstrip_join _ (by
        intro l hl c hc
        rcases lstripLines_mem _ l hl with h1 | ⟨l0, hl0, he⟩
        · exact hnl9 l h1 c hc
        · rw [he] at hc
          exact hnl9 l0 hl0 c (mem_pyLstrip hc))]
    have hfixL : ∀ l ∈ lstripLines (nf :: rest),
        normalizeWhitespaceLine l = l := by
      intro l hl
      rcases lstripLines_mem _ l hl with h1 | ⟨l0, hl0, he⟩
      · exact hfix9 l h1
      · rw [he]
        exact nwl_fixed_lstrip l0 (hfix9 l0 hl0)
    have hbkL : blanksOK 0 (lstripLines (nf :: rest)) = true := by
      rw [show lstripLines (nf :: rest) =
        (if stripBlank nf then lstripLines rest else pyLstrip nf :: rest)
        from rfl]
      by_cases hb : stripBlank nf = true
      · rw [if_pos hb]
        exact lstripLines_blanksOK rest 0 (blanksOK0_tail fl rest hbk)
      · rw [if_neg hb]
        rw [show blanksOK 0 (pyLstrip nf :: rest) =
          (if stripBlank (pyLstrip nf) then
            decide (0 + 1 ≤ 2) && blanksOK (0 + 1) rest
           else blanksOK 0 rest) from rfl, stripBlank_pyLstrip, if_neg hb]
        exact blanksOK0_tail fl rest hbk
    have hrfixL : ∀ l ∈ lstripLines (nf :: rest), pyRstrip l = l :=
      fun l hl => nwl_fixed_rstrip l (hfixL l hl)
    have hpre := rstripLines_prefix_of_fix _ hrfixL
    have hfix9x : ∀ l ∈ rstripLines (lstripLines (nf :: rest)),
        normalizeWhitespaceLine l = l :=
      fun l hl => hfixL l (hpre.sublist.subset hl)
    have hbk9 : blanksOK 0 (rstripLines (lstripLines (nf :: rest))) = true := by
      obtain ⟨sfx, hsfx⟩ := hpre
      exact blanksOK_prefix _ sfx 0 (by rw [hsfx]; exact hbkL)
    have hnl9x : ∀ l ∈ rstripLines (lstripLines (nf :: rest)),
        ∀ c ∈ l, ¬ c = '\n' := by
      intro l hl c hc
      have hlm := hpre.sublist.subset hl
      rcases lstripLines_mem _ l hlm with h1 | ⟨l0, hl0, he⟩
      · exact hnl9 l h1 c hc
      · rw [he] at hc
        exact hnl9 l0 hl0 c (mem_pyLstrip hc)
    have h9ne : rstripLines (lstripLines (nf :: rest)) ≠ [] := by
      intro h0
      rw [h0] at hstrip
      exact htne (by rw [hstrip]; rfl)
    have hsplit9 : splitNl t = rstripLines (lstripLines (nf :: rest)) := by
      rw [hstrip]
      exact splitNl_joinNl _ h9ne hnl9x
    constructor
    · rw [hsplit9]
      exact hfix9x
    · rw [hsplit9]
      exact cap_fix _ 0
        (fun l hl hsb => nwl_fixed_blank l (hfix9x l hl) hsb) hbk9

theorem normalizeText_lines (x : Txt) (hne : normalizeText x ≠ []) :
    (∀ l ∈ splitNl (normalizeText x), normalizeWhitespaceLine l = l) ∧
    capBlankLines 0 (splitNl (normalizeText x)) = splitNl (normalizeText x) := by
  have hx : x ≠ [] := fun h => hne (by rw [h]; rfl)
  refine good_list_strip (capBlankLines 0 ((splitNl (removeDecorativeLines
      (unifyBullets (removeEmoji (removeZeroWidthChars (normalizeLineEndings
        (nfcNormalize x))))))).map normalizeWhitespaceLine)) ?_ ?_ ?_ ?_
    (normalizeText x) ?_ hne
  · intro l hl
    rcases cap_mem _ _ _ hl with rfl | hl2
    · rfl
    · rw [List.mem_map] at hl2
      obtain ⟨l0, _, hle⟩ := hl2
      rw [← hle]
      exact nwl_idem l0
  · intro l hl c hc
    rcases cap_mem _ _ _ hl with rfl | hl2
    · cases hc
    · rw [List.mem_map] at hl2
      obtain ⟨l0, hl0, hle⟩ := hl2
      rw [← hle] at hc
      exact splitNl_no_nl _ l0 hl0 c (mem_nwl l0 c hc)
  · exact cap_blanksOK _ _
  · cases hsp : splitNl (removeDecorativeLines (unifyBullets (removeEmoji
        (removeZeroWidthChars (normalizeLineEndings (nfcNormalize x)))))) with
    | nil => exact absurd hsp (splitNl_ne_nil _)
    | cons a as =>
      rw [List.map_cons]
      exact cap_ne_nil_zero _ _
  · unfold normalizeText
    rw [if_neg hx]
    rfl

/-- C6 counterexample: the text is its own noise-prefix counterexample; its
normalization is canonical (no raw bullets, no decorative lines), yet a second
normalization strips another noise prefix and changes the text. -/
theorem c6_idempotence_counterexample :
    (∀ l ∈ getLines (normalizeText c6X), unifyBulletLine l = l) ∧
    (∀ l ∈ getLines (normalizeText c6X), isDecorativeLine l = false) ∧
    normalizeText (normalizeText c6X) ≠ normalizeText c6X := by
  refine ⟨?_, ?_, ?_⟩ <;> decide

/-- C6 (amended): normalize_text is idempotent on its own output provided the
output contains no raw bullet markers or numbered prefixes (the bullet pass
fixes every line), no decorative lines, and its first line does not start
with a noise prefix. -/
theorem c6_normalize_idempotent (x : Txt)
    (hb : ∀ l ∈ getLines (normalizeText x), unifyBulletLine l = l)
    (hd : ∀ l ∈ getLines (normalizeText x), isDecorativeLine l = false)
    (hn : noisePrefixes.find? (fun p => startsWith (pyLower p)
      (pyLower ((splitNl (normalizeText x)).headD []))) = none) :
    normalizeText (normalizeText x) = normalizeText x := by
  by_cases hy : normalizeText x = []
  · rw [hy]
    rfl
  · have hchars := normalizeText_goodChar x
    have h2 : normalizeLineEndings (nfcNormalize (normalizeText x)) =
        normalizeText x :=
      normalizeLineEndings_id _ (fun c hc => (hchars c hc).1)
    have h3 : removeZeroWidthChars (normalizeText x) = normalizeText x :=
      removeZeroWidthChars_id _ (fun c hc => (hchars c hc).2.1)
    have h4 : removeEmoji (normalizeText x) = normalizeText x :=
      removeEmoji_id _ (fun c hc => (hchars c hc).2.2)
    have h5 : unifyBullets (normalizeText x) = normalizeText x :=
      unifyBullets_fix _ hb
    have h6 : removeDecorativeLines (normalizeText x) = normalizeText x :=
      removeDecorativeLines_fix _ hd
    obtain ⟨h7a, h7b⟩ := normalizeText_lines x hy
    have h7 : normalizeWhitespace (normalizeText x) = normalizeText x :=
      normalizeWhitespace_fix _ h7a h7b
    have h8 : stripNoiseFirstLine (normalizeText x) = normalizeText x :=
      stripNoiseFirstLine_fix _ hn
    have h9 : pyStrip (normalizeText x) = normalizeText x := by
      obtain ⟨s, hs⟩ := normalizeText_strip x hy
      rw [hs, pyStrip_idem]
    conv_lhs => rw [normalizeText.eq_def]
    rw [if_neg hy, h2, h3, h4, h5, h6, h7, h8, h9]

theorem c6_normalize_idempotent_witness :
    (∀ l ∈ getLines (normalizeText c6W), unifyBulletLine l = l) ∧
    (∀ l ∈ getLines (normalizeText c6W), isDecorativeLine l = false) ∧
    (noisePrefixes.find? (fun p => startsWith (pyLower p)
      (pyLower ((splitNl (normalizeText c6W)).headD []))) = none) ∧
    normalizeText (normalizeText c6W) = normalizeText c6W :=
  ⟨by decide, by decide, by decide,
    c6_normalize_idempotent c6W (by decide) (by decide) (by decide)⟩
